import Mathlib

/-!
Verification of the bytehound `server-core` query engine against its
natural-language specification.  The definitions below are shallow
embeddings of the Rust source in `server-core/src/lib.rs` and
`server-core/src/filter.rs`; machine integers are modelled by `Nat`
(the `u64` subtractions that occur are proved not to underflow before
they are relied upon).
-/

set_option maxHeartbeats 1000000

namespace ServerCore

/-! ### Generated-file cache (`GeneratedFilesCollection`, lib.rs lines 141-181)

One cached artifact.  The source stores `{timestamp: Instant, hash: String,
mime: &'static str, data: Arc<Vec<u8>>}`; the byte buffer is modelled by its
length `size` (`data.len()` is the only observation the collection makes of
it), and the creation `Instant` by a `Nat`. -/
structure GeneratedFile where
  timestamp : Nat
  hash : String
  size : Nat
deriving DecidableEq, Repr

/-- The collection: `by_hash: HashMap<String, GeneratedFile>` is modelled as
the list of its entries (keys unique, tracked by the invariant), plus the
running `total_size`. -/
structure GeneratedFilesCollection where
  by_hash : List GeneratedFile
  total_size : Nat
deriving DecidableEq, Repr

namespace GeneratedFilesCollection

def empty : GeneratedFilesCollection := ⟨[], 0⟩

/-- Sum of `data.len()` over the entries. -/
def sumSizes (l : List GeneratedFile) : Nat :=
  l.foldr (fun e acc => e.size + acc) 0

/-- The eviction loop of `purge_old_if_too_big`: the source sorts the cloned
entry list by timestamp, reverses it and pops from the back, which consumes
the entries in ascending timestamp order; here the ascending list is consumed
front to back.  Each round checks the low-water mark, then subtracts the
entry's size and removes it from the map. -/
def purgeLoop : List GeneratedFile → GeneratedFilesCollection → GeneratedFilesCollection
  | [], st => st
  | e :: rest, st =>
    if st.total_size ≤ 16 * 1024 * 1024 then st
    else purgeLoop rest
      { by_hash := st.by_hash.filter (fun x => x.hash ≠ e.hash)
      , total_size := st.total_size - e.size }

/-- Ascending stable sort by creation timestamp (`list.sort_by_key(|entry|
entry.timestamp)` — Rust's stable sort, modelled by insertion sort). -/
def sortByTimestamp (l : List GeneratedFile) : List GeneratedFile :=
  l.insertionSort (fun a b => a.timestamp ≤ b.timestamp)

/-- `fn purge_old_if_too_big(&mut self)` (lib.rs 156-173). -/
def purge_old_if_too_big (st : GeneratedFilesCollection) : GeneratedFilesCollection :=
  if st.total_size < 32 * 1024 * 1024 then st
  else purgeLoop (sortByTimestamp st.by_hash) st

/-- `fn add_file(&mut self, entry: GeneratedFile)` (lib.rs 175-180): insert
only when the hash is not already present. -/
def add_file (st : GeneratedFilesCollection) (e : GeneratedFile) : GeneratedFilesCollection :=
  if st.by_hash.any (fun x => x.hash = e.hash) then st
  else { by_hash := st.by_hash ++ [e], total_size := st.total_size + e.size }

/-- The collection's intended well-formedness: `total_size` is the sum of the
entry sizes and the hashes are pairwise distinct (they key a `HashMap`). -/
def Inv (st : GeneratedFilesCollection) : Prop :=
  st.total_size = sumSizes st.by_hash ∧ (st.by_hash.map GeneratedFile.hash).Nodup

instance : DecidablePred Inv := fun st => by
  unfold Inv; infer_instance

instance : IsTotal GeneratedFile (fun a b => a.timestamp ≤ b.timestamp) :=
  ⟨fun a b => Nat.le_total a.timestamp b.timestamp⟩

instance : IsTrans GeneratedFile (fun a b => a.timestamp ≤ b.timestamp) :=
  ⟨fun _ _ _ => Nat.le_trans⟩

end GeneratedFilesCollection

/-! ### Compiled allocation filter (`filter.rs` lines 47-104)

`AllocationFilter` pairs the structural predicate compiled by
`cli_core::CompiledFilter` (external to server-core; carried here as an
abstract boolean predicate over the capture and the allocation) with the
optional scripted id set.  `AllocationId` is a `Nat`; the
`Arc<HashSet<AllocationId>>` is modelled as the list of its ids with
membership lookup. -/
structure AllocationFilter (Data Allocation : Type) where
  filter : Data → Allocation → Bool
  custom_filter : Option (List Nat)

namespace AllocationFilter

/-- `AllocationFilter::try_match` (filter.rs 80-92): the custom id-set check
short-circuits first, then the structural predicate. -/
def tryMatch {D A : Type} (self : AllocationFilter D A) (data : D) (id : Nat)
    (allocation : A) : Bool :=
  match self.custom_filter with
  | some custom =>
    if custom.contains id = false then false
    else if self.filter data allocation = false then false
    else true
  | none =>
    if self.filter data allocation = false then false
    else true

end AllocationFilter

/-- `run_custom_filter` (filter.rs 47-71).  The scripting engine
(`cli_core::script::Engine::run`) is external; it is passed in as a function
from the script source to either an evaluation error or an optional
allocation-id list.  A missing wire string or an empty wire string produce no
set; a nonempty script produces a set even when the engine returns no list (in
that case the empty set). -/
def run_custom_filter (engine : String → Except String (Option (List Nat)))
    (custom_filter : Option String) : Except String (Option (List Nat)) :=
  match custom_filter with
  | none => .ok none
  | some cf =>
    if cf.isEmpty then .ok none
    else
      match engine cf with
      | .error e => .error e
      | .ok (some list) => .ok (some list)
      | .ok none => .ok (some [])

/-- `prepare_filter` (filter.rs 95-104): compile the structural predicate
(abstracted) and attach the custom id set. -/
def prepare_filter {D A : Type} (structural : D → A → Bool)
    (engine : String → Except String (Option (List Nat)))
    (custom_filter : Option String) : Except String (AllocationFilter D A) :=
  match run_custom_filter engine custom_filter with
  | .error m => .error m
  | .ok cs => .ok ⟨structural, cs⟩

/-! ### Capture lookup and `handler_backtrace` (lib.rs 231-247, 1238-1255) -/

/-- Outcome discriminants of a handler: a JSON 200 response, a 404 with its
body, or a panic inside the handler (surfaced by the framework as a non-404
failure).  `handler_backtrace` parses the `backtrace_id` segment with
`.parse().unwrap()`, which panics on malformed input. -/
inductive HandlerOutcome (α : Type) where
  | ok (response : α)
  | notFound (body : String)
  | panicked
deriving DecidableEq, Repr

/-- One loaded capture.  `get_backtrace` lives in `cli_core::Data`, outside
server-core.  Modelled from the spec: "A backtrace store mapping BacktraceId →
ordered sequence of FrameId"; ids with no entry in the store yield `none`.
The handler has no failure channel for the lookup — a `none` here surfaces as
the `panicked` outcome, and the theorems below hold for every store. -/
structure CaptureData where
  id : Nat
  backtraces : Nat → Option (List Nat)

/-- The process-wide `State` restricted to what capture resolution uses:
`data: HashMap<DataId, Arc<Data>>` (modelled as an entry list keyed by the
`id` field) and the insertion-ordered `data_ids`. -/
structure ServerState where
  data : List CaptureData
  data_ids : List Nat

namespace ServerState

def containsKey (st : ServerState) (id : Nat) : Bool :=
  st.data.any (fun d => d.id = id)

def lookupData (st : ServerState) (id : Nat) : Option CaptureData :=
  st.data.find? (fun d => d.id = id)

/-- `State::last_id` (lib.rs 209-211). -/
def last_id (st : ServerState) : Option Nat :=
  st.data_ids.getLast?

/-- The state is well formed: every registered id resolves in the map
(`add_data` maintains this). -/
def Consistent (st : ServerState) : Prop :=
  ∀ id ∈ st.data_ids, st.containsKey id = true

instance (st : ServerState) : Decidable st.Consistent := by
  unfold Consistent; infer_instance

end ServerState

def digitVal (c : Char) : Option Nat :=
  if c.toNat ≥ 48 ∧ c.toNat ≤ 57 then some (c.toNat - 48) else none

def parseNatAux : List Char → Nat → Option Nat
  | [], acc => some acc
  | c :: rest, acc =>
    match digitVal c with
    | none => none
    | some d => parseNatAux rest (acc * 10 + d)

/-- Decimal parse of a URL segment, modelling Rust's `str::parse` for the
numeric id types (`DataId`, `u32`): all-digit nonempty strings succeed. -/
def parseNat (s : String) : Option Nat :=
  if s.data.isEmpty then none else parseNatAux s.data 0

/-- `get_data_id` (lib.rs 231-242): the sentinel `last`, else parse the
segment (the `DataId` string parse is modelled by `parseNat`), else check
membership; every failure is a 404 with body `"data not found"`. -/
def get_data_id (st : ServerState) (seg : String) : Except String Nat :=
  if seg = "last" then
    match st.last_id with
    | some id => .ok id
    | none => .error "data not found"
  else
    match parseNat seg with
    | none => .error "data not found"
    | some id =>
      if st.containsKey id then .ok id else .error "data not found"

/-- `handler_backtrace` (lib.rs 1238-1255): resolve the capture (404 on
failure), parse the `backtrace_id` segment with `.unwrap()` (panic on
failure), call `get_backtrace` and answer 200 with the frames.  There is no
check that the backtrace id exists. -/
def handler_backtrace (st : ServerState) (idSeg btSeg : String) :
    HandlerOutcome (List Nat) :=
  match get_data_id st idSeg with
  | .error body => .notFound body
  | .ok id =>
    match st.lookupData id with
    | none => .notFound "data not found"
    | some data =>
      match parseNat btSeg with
      | none => .panicked
      | some backtrace_id =>
        match data.backtraces backtrace_id with
        | none => .panicked
        | some frames => .ok frames

/-! ### Allocation grouping (`AllocationGroups::new`, lib.rs 83-130)

A worker-local map `AHashMap<BacktraceId, Vec<AllocationId>>` is modelled as
an association list with unique keys.  The hash map's iteration order is
arbitrary; every use below is insensitive to it: values are per-key, the
map's `len` is its key count, and the final entry list is sorted by key. -/
abbrev GroupMap := List (Nat × List Nat)

/-- `grouped.entry(allocation.backtrace).or_insert_with(Vec::new).push(id)`. -/
def pushId : GroupMap → Nat → Nat → GroupMap
  | [], bt, id => [(bt, [id])]
  | (k, ids) :: rest, bt, id =>
    if k = bt then (k, ids ++ [id]) :: rest
    else (k, ids) :: pushId rest bt id

/-- `a.entry(backtrace).or_insert_with(Vec::new).extend(ids)`. -/
def extendIds : GroupMap → Nat → List Nat → GroupMap
  | [], bt, ids => [(bt, ids)]
  | (k, v) :: rest, bt, ids =>
    if k = bt then (k, v ++ ids) :: rest
    else (k, v) :: extendIds rest bt ids

/-- The sequential `fold_with` body over one chunk of the parallel iterator
(lib.rs 90-96).  Each item is `(AllocationId, &Allocation)`; only the
allocation's `backtrace` field is read, so an item is modelled as the pair
`(id, backtrace)`. -/
def foldChunk (chunk : List (Nat × Nat)) : GroupMap :=
  chunk.foldl (fun m p => pushId m p.2 p.1) []

/-- The `reduce` combiner (lib.rs 97-110): swap so that `a` is the map with
more keys, then merge the other map into it entry by entry. -/
def mergeMaps (a b : GroupMap) : GroupMap :=
  if b.length > a.length then
    a.foldl (fun acc p => extendIds acc p.1 p.2) b
  else
    b.foldl (fun acc p => extendIds acc p.1 p.2) a

/-- A partitioning of the filtered input into contiguous chunks together with
rayon's binary reduction tree over them: `leaf` is one worker's chunk
(folded sequentially), `node` a `reduce` of two subresults. -/
inductive ChunkTree where
  | leaf (chunk : List (Nat × Nat))
  | node (l r : ChunkTree)

/-- The underlying input sequence of a partitioning. -/
def ChunkTree.flatten : ChunkTree → List (Nat × Nat)
  | .leaf c => c
  | .node l r => l.flatten ++ r.flatten

/-- The fold/reduce phase of `AllocationGroups::new` over a partitioning. -/
def ChunkTree.toMap : ChunkTree → GroupMap
  | .leaf c => foldChunk c
  | .node l r => mergeMaps l.toMap r.toMap

/-- `AllocationGroups::new` (lib.rs 88-125): fold/reduce over the partition,
sort the collected entries ascending by `BacktraceId` (`par_sort_by_key`, a
stable sort, modelled by insertion sort), and insert them in that order into
the `VecVec` (modelled by the sorted entry list itself). -/
def AllocationGroups_new (t : ChunkTree) : List (Nat × List Nat) :=
  (t.toMap).insertionSort (fun a b => a.1 ≤ b.1)

/-- The id list stored for one backtrace (empty when the group is absent). -/
def groupIds (groups : List (Nat × List Nat)) (bt : Nat) : List Nat :=
  ((groups.find? (fun p => p.1 = bt)).map Prod.snd).getD []

/-- The ids an input sequence assigns to a backtrace, in input order. -/
def matchingIds (input : List (Nat × Nat)) (bt : Nat) : List Nat :=
  (input.filter (fun p => p.2 = bt)).map Prod.fst

/-- A group map represents an input sequence: unique keys, and per backtrace
the stored ids are the matching input ids up to order. -/
def GroupsRep (m : GroupMap) (input : List (Nat × Nat)) : Prop :=
  (m.map Prod.fst).Nodup ∧ ∀ bt, (groupIds m bt).Perm (matchingIds input bt)

/-- The input sequence an entry list itself denotes, used to relate a merge
to the inputs of its two sides. -/
def entryFlatten : GroupMap → List (Nat × Nat)
  | [] => []
  | (k, v) :: rest => v.map (fun id => (id, k)) ++ entryFlatten rest

instance : IsTotal (Nat × List Nat) (fun a b => a.1 ≤ b.1) :=
  ⟨fun a b => Nat.le_total a.1 b.1⟩

instance : IsTrans (Nat × List Nat) (fun a b => a.1 ≤ b.1) :=
  ⟨fun _ _ _ => Nat.le_trans⟩

/-! ### Backtrace matcher (`match_backtrace`, filter.rs 263-367)

`FrameId` is a `Nat`.  A frame exposes optional interned-string ids for the
demangled function name, the raw function name and the source path (the
fields the matcher reads from `cli_core::Frame`); the interner is carried as
a function from string ids to strings.  The four compiled regexes are
external (`regex::Regex`); each is carried as an abstract predicate on the
resolved string. -/
structure Frame where
  function : Option Nat
  rawFunction : Option Nat
  source : Option Nat
deriving DecidableEq, Repr

/-- `BacktraceFilter` (filter.rs 28-36). -/
structure BacktraceFilter where
  backtrace_depth_min : Nat
  backtrace_depth_max : Nat
  function_regex : Option (String → Bool)
  source_regex : Option (String → Bool)
  negative_function_regex : Option (String → Bool)
  negative_source_regex : Option (String → Bool)

/-- The two per-request `AHashMap<FrameId, bool>` caches, modelled as
association lists (keys are only ever inserted when absent). -/
abbrev FrameCache := List (Nat × Bool)

def cacheLookup (c : FrameCache) (fid : Nat) : Option Bool :=
  (c.find? (fun p => p.1 = fid)).map Prod.snd

def cacheInsert (c : FrameCache) (fid : Nat) (b : Bool) : FrameCache :=
  (fid, b) :: c

/-- The matcher state threaded through the loop: the two `positive_matched` /
`negative_matched` flags, the two caches, and four instrumentation counters,
one per compiled regex, counting the `Regex::is_match` calls made at the
corresponding call site (the source performs these calls without counting;
the counters observe the memoization property). -/
structure MatchState where
  positive_matched : Bool
  negative_matched : Bool
  positive_cache : FrameCache
  negative_cache : FrameCache
  posFnCalls : Nat
  posSrcCalls : Nat
  negFnCalls : Nat
  negSrcCalls : Nat

/-- `positive_matched && !negative_matched` — the value `match_backtrace`
returns (filter.rs 366). -/
def MatchState.result (st : MatchState) : Bool :=
  st.positive_matched && !st.negative_matched

/-- Lines 279-287: resolve `check_positive` and the possibly cache-updated
`positive_matched` for the current frame. -/
def positiveLookup (st : MatchState) (frame_id : Nat) : Bool × Bool :=
  if st.positive_matched then (true, false)
  else
    match cacheLookup st.positive_cache frame_id with
    | some cached => (cached, false)
    | none => (st.positive_matched, true)

/-- Lines 303-328: evaluate the positive regex pair against the lazily
computed strings, cache the verdict under the frame id, and count the
`is_match` calls (one per set regex whose string is present). -/
def positiveEval (filter : BacktraceFilter) (frame_id : Nat)
    (function source : Option String) (st : MatchState) : MatchState :=
  let matched_function :=
    match filter.function_regex with
    | some regex =>
      match function with
      | some f => regex f
      | none => false
    | none => true
  let fnCost := if filter.function_regex.isSome && function.isSome then 1 else 0
  let matched_source :=
    match filter.source_regex with
    | some regex =>
      match source with
      | some s => regex s
      | none => false
    | none => true
  let srcCost := if filter.source_regex.isSome && source.isSome then 1 else 0
  let pm := matched_function && matched_source
  { st with positive_matched := pm
          , positive_cache := cacheInsert st.positive_cache frame_id pm
          , posFnCalls := st.posFnCalls + fnCost
          , posSrcCalls := st.posSrcCalls + srcCost }

/-- Lines 330-363: the negative block — consult the negative cache, else test
the negative regexes against the same strings (function first, breaking on a
hit before the source regex runs), record the verdict, count the calls.
Returns the state and whether the loop `break`s. -/
def negativeCheck (filter : BacktraceFilter) (frame_id : Nat)
    (function source : Option String) (st : MatchState) : MatchState × Bool :=
  match cacheLookup st.negative_cache frame_id with
  | some true => ({ st with negative_matched := true }, true)
  | some false => (st, false)
  | none =>
    let fnHit : Option Bool :=
      match filter.negative_function_regex, function with
      | some regex, some f => some (regex f)
      | _, _ => none
    let st := { st with negFnCalls := st.negFnCalls + (if fnHit.isSome then 1 else 0) }
    if fnHit = some true then
      ({ st with negative_cache := cacheInsert st.negative_cache frame_id true
               , negative_matched := true }, true)
    else
      let srcHit : Option Bool :=
        match filter.negative_source_regex, source with
        | some regex, some s => some (regex s)
        | _, _ => none
      let st := { st with negSrcCalls := st.negSrcCalls + (if srcHit.isSome then 1 else 0) }
      if srcHit = some true then
        ({ st with negative_cache := cacheInsert st.negative_cache frame_id true
                 , negative_matched := true }, true)
      else
        ({ st with negative_cache := cacheInsert st.negative_cache frame_id false }, false)

/-- Lines 293-296: the lazily resolved function-name string — computed only
when a regex will consult it. -/
def lazyFunction (interner : Nat → String) (filter : BacktraceFilter)
    (check_positive : Bool) (frame : Frame) : Option String :=
  if (check_positive && filter.function_regex.isSome)
      || filter.negative_function_regex.isSome then
    (frame.function.or frame.rawFunction).map interner
  else none

/-- Lines 298-301: the lazily resolved source-path string. -/
def lazySource (interner : Nat → String) (filter : BacktraceFilter)
    (check_positive : Bool) (frame : Frame) : Option String :=
  if (check_positive && filter.source_regex.isSome)
      || filter.negative_source_regex.isSome then
    frame.source.map interner
  else none

/-- One iteration of the `for (frame_id, frame) in backtrace` loop
(filter.rs 278-364).  Returns the updated state and whether the loop `break`s
(the `continue` of the cached-negative-miss path and the plain fall-through
both proceed with the next frame).  The `function` and `source` strings are
computed under exactly the laziness conditions of lines 293-301. -/
def matchStep (interner : Nat → String) (filter : BacktraceFilter)
    (frame_id : Nat) (frame : Frame) (st : MatchState) : MatchState × Bool :=
  let pl := positiveLookup st frame_id
  let positive_matched := pl.1
  let check_positive := pl.2
  let st := { st with positive_matched := positive_matched }
  let check_negative :=
    filter.negative_function_regex.isSome || filter.negative_source_regex.isSome
  if positive_matched && !check_negative then
    (st, true)
  else
    let function := lazyFunction interner filter check_positive frame
    let source := lazySource interner filter check_positive frame
    let st :=
      if check_positive then positiveEval filter frame_id function source st
      else st
    if check_negative then negativeCheck filter frame_id function source st
    else (st, false)

/-- The frame loop of `match_backtrace`. -/
def matchLoop (interner : Nat → String) (filter : BacktraceFilter) :
    List (Nat × Frame) → MatchState → MatchState
  | [], st => st
  | (frame_id, frame) :: rest, st =>
    let (st', brk) := matchStep interner filter frame_id frame st
    if brk then st' else matchLoop interner filter rest st'

/-- `match_backtrace` (filter.rs 263-367): depth gate, then the frame loop
starting from `positive_matched = (no positive regex set)`.  The state carries
the shared per-request caches in and out; the per-call flags are reset. -/
def match_backtrace (interner : Nat → String) (filter : BacktraceFilter)
    (st : MatchState) (backtrace : List (Nat × Frame)) : MatchState :=
  if backtrace.length < filter.backtrace_depth_min
      ∨ filter.backtrace_depth_max < backtrace.length then
    { st with positive_matched := false, negative_matched := false }
  else
    matchLoop interner filter backtrace
      { st with
          positive_matched :=
            filter.function_regex.isNone && filter.source_regex.isNone
        , negative_matched := false }

/-- The declarative per-frame positive test: both positive regexes are
satisfied, an unset regex vacuously, a set regex only by a present string. -/
def framePositive (interner : Nat → String) (filter : BacktraceFilter)
    (frame : Frame) : Bool :=
  (match filter.function_regex, (frame.function.or frame.rawFunction).map interner with
   | some regex, some f => regex f
   | some _, none => false
   | none, _ => true) &&
  (match filter.source_regex, frame.source.map interner with
   | some regex, some s => regex s
   | some _, none => false
   | none, _ => true)

/-- The declarative negative-function test for one frame. -/
def frameNegativeFn (interner : Nat → String) (filter : BacktraceFilter)
    (frame : Frame) : Bool :=
  match filter.negative_function_regex, (frame.function.or frame.rawFunction).map interner with
  | some regex, some f => regex f
  | _, _ => false

/-- The declarative negative-source test for one frame. -/
def frameNegativeSrc (interner : Nat → String) (filter : BacktraceFilter)
    (frame : Frame) : Bool :=
  match filter.negative_source_regex, frame.source.map interner with
  | some regex, some s => regex s
  | _, _ => false

/-- The declarative per-frame negative test: some negative regex matches. -/
def frameNegative (interner : Nat → String) (filter : BacktraceFilter)
    (frame : Frame) : Bool :=
  frameNegativeFn interner filter frame || frameNegativeSrc interner filter frame

/-- A cache agrees with a per-frame-id verdict function on every hit. -/
def CacheOk (val : Nat → Bool) (c : FrameCache) : Prop :=
  ∀ fid b, cacheLookup c fid = some b → b = val fid

/-- A positive cache is consistent with the capture's frames. -/
def PosCacheOk (interner : Nat → String) (filter : BacktraceFilter)
    (frameOf : Nat → Frame) (c : FrameCache) : Prop :=
  CacheOk (fun fid => framePositive interner filter (frameOf fid)) c

/-- A negative cache is consistent with the capture's frames. -/
def NegCacheOk (interner : Nat → String) (filter : BacktraceFilter)
    (frameOf : Nat → Frame) (c : FrameCache) : Prop :=
  CacheOk (fun fid => frameNegative interner filter (frameOf fid)) c

/-- The per-request state before any `match_backtrace` call: empty caches,
zero evaluation counters (`handler_backtraces`, lib.rs 1262-1263). -/
def initialMatchState : MatchState :=
  ⟨false, false, [], [], 0, 0, 0, 0⟩

/-- One request: `match_backtrace` folded over the capture's backtraces with
the shared cache pair (`handler_backtraces`, lib.rs 1264-1270). -/
def runRequest (interner : Nat → String) (filter : BacktraceFilter)
    (backtraces : List (List (Nat × Frame))) : MatchState :=
  backtraces.foldl (fun st bt => match_backtrace interner filter st bt)
    initialMatchState

/-- All frame ids scanned by a request, with repetitions. -/
def allFids (backtraces : List (List (Nat × Frame))) : List Nat :=
  backtraces.foldr (fun bt acc => bt.map Prod.fst ++ acc) []

/-- Each instrumentation counter is bounded by the size of its cache: a regex
is evaluated at a frame id only when that id is newly inserted. -/
def CountOk (st : MatchState) : Prop :=
  st.posFnCalls ≤ st.positive_cache.length ∧
  st.posSrcCalls ≤ st.positive_cache.length ∧
  st.negFnCalls ≤ st.negative_cache.length ∧
  st.negSrcCalls ≤ st.negative_cache.length

/-- Cache keys are unique and drawn from the scanned frame ids. -/
def KeysBound (fids : List Nat) (st : MatchState) : Prop :=
  (st.positive_cache.map Prod.fst).Nodup ∧
  (st.negative_cache.map Prod.fst).Nodup ∧
  (∀ k ∈ st.positive_cache.map Prod.fst, k ∈ fids) ∧
  (∀ k ∈ st.negative_cache.map Prod.fst, k ∈ fids)

/-- A filter with both positive regexes set and a one-frame request, to count
regex evaluations at a concrete input. -/
def cexFilter : BacktraceFilter :=
  ⟨0, 10, some (fun _ => true), some (fun _ => true), none, none⟩

def cexBacktraces : List (List (Nat × Frame)) :=
  [[(0, ⟨some 0, none, some 1⟩)]]

/-- A concrete interner, filter, frame and backtrace to exercise the matcher
at specific inputs. -/
def witInterner : Nat → String := fun n => if n = 0 then "foo" else "bar"

def witFilter : BacktraceFilter :=
  ⟨1, 2, some (fun s => s = "foo"), none, none, none⟩

def witFrame : Frame := ⟨some 0, none, none⟩

def witFrameOf : Nat → Frame := fun _ => witFrame

def witBacktrace : List (Nat × Frame) := [(5, witFrame)]

/-- A filter whose positive function regex matches every string, and a
backtrace whose frames have no resolved function names. -/
def witFilter10 : BacktraceFilter :=
  ⟨0, 5, some (fun _ => true), none, none, none⟩

def witFrame10 : Frame := ⟨none, none, some 3⟩

def witFrameOf10 : Nat → Frame := fun _ => witFrame10

def witBacktrace10 : List (Nat × Frame) := [(4, witFrame10)]

/-! ### Fragmentation timeline (`get_fragmentation_timeline`, lib.rs 370-548)

The machine integers are `u64`; addresses and timestamps stay below
`2^64`, and the sentinel `(-1 i32) as u64 = std::u64::MAX` is the numeral
`2^64 - 1`.  Arithmetic on them wraps modulo `2^64`; the refcounts are `i64`
and are modelled as `Int` (under the stream validity proved below they stay
in `{0, 1, 2}`, far from wrapping). -/
def u64Max : Nat := 2 ^ 64 - 1

def u64add (a b : Nat) : Nat := (a + b) % 2 ^ 64

/-- Wrapping `u64` subtraction (for representable `a`, `b`). -/
def u64sub (a b : Nat) : Nat := (a + 2 ^ 64 - b) % 2 ^ 64

def u64mul (a b : Nat) : Nat := (a * b) % 2 ^ 64

/-- The allocation fields this computation reads: the provenance flags, the
actual address range (`allocation.actual_range(&data)`, a half-open
`[start, end)` interval — `actual_range` lives in cli_core and is modelled by
its resulting bounds), and the operation timestamp in whole seconds
(`timestamp.as_secs()` is the only use made of it here). -/
structure FragAllocation where
  inMainArena : Bool
  isMmaped : Bool
  isJemalloc : Bool
  rangeStart : Nat
  rangeEnd : Nat
  tsec : Nat
deriving DecidableEq, Repr

/-- `is_matched` (lib.rs 372-374): main-arena, non-mmaped, non-jemalloc. -/
def isMatched (a : FragAllocation) : Bool :=
  a.inMainArena && !a.isMmaped && !a.isJemalloc

/-- One entry of `data.operations()` — the three variants the loop matches on
(lib.rs 430-514).  A deallocation carries the deallocated allocation and the
deallocation timestamp in seconds; a reallocation carries the old and new
allocations (its emitted timestamp is the new allocation's). -/
inductive FragOp where
  | alloc (a : FragAllocation)
  | dealloc (a : FragAllocation) (dtsec : Nat)
  | realloc (oldA newA : FragAllocation)
deriving DecidableEq, Repr

/-- The `BTreeMap<u64, i64>` of range-endpoint refcounts, modelled as an
association list sorted strictly ascending by key.  `mapAdd m k d` is
`*map.entry(k).or_insert(0) += d`. -/
def mapAdd : List (Nat × Int) → Nat → Int → List (Nat × Int)
  | [], k, d => [(k, d)]
  | (a, c) :: rest, k, d =>
    if k < a then (k, d) :: (a, c) :: rest
    else if k = a then (a, c + d) :: rest
    else (a, c) :: mapAdd rest k d

/-- `trim_front` (lib.rs 386-394): drop zero-count entries from the front. -/
def trim_front : List (Nat × Int) → List (Nat × Int)
  | [] => []
  | (a, c) :: rest => if c = 0 then trim_front rest else (a, c) :: rest

/-- `trim_back` (lib.rs 396-404): drop zero-count entries from the back
(the source iterates the map in reverse; modelled through `reverse`). -/
def trim_back (m : List (Nat × Int)) : List (Nat × Int) :=
  (trim_front m.reverse).reverse

/-- `min` (lib.rs 406-416): first key with a nonzero count, else
`std::u64::MAX`. -/
def mapMin : List (Nat × Int) → Nat
  | [] => u64Max
  | (a, c) :: rest => if c = 0 then mapMin rest else a

/-- Reverse scan for `max` (lib.rs 418-428): first nonzero-count key from the
back, else 0. -/
def mapMaxAux : List (Nat × Int) → Nat
  | [] => 0
  | (a, c) :: rest => if c = 0 then mapMaxAux rest else a

def mapMax (m : List (Nat × Int)) : Nat :=
  mapMaxAux m.reverse

/-- The loop state of `get_fragmentation_timeline` (lib.rs 376-384). -/
structure FragState where
  x : Nat
  xs : List Nat
  fragmentation : List Nat
  current_used_address_space : Nat
  address_map : List (Nat × Int)
  current_address_min : Nat
  current_address_max : Nat
deriving DecidableEq, Repr

def initFragState : FragState :=
  ⟨u64Max, [], [], 0, [], u64Max, 0⟩

/-- The allocation half of the loop body (lib.rs 437-450): bump the endpoint
refcounts, grow the used space, widen the bounds. -/
def applyAlloc (a : FragAllocation) (st : FragState) : FragState :=
  { st with
      address_map := mapAdd (mapAdd st.address_map a.rangeStart 1) a.rangeEnd 1
    , current_used_address_space :=
        u64add st.current_used_address_space (u64sub a.rangeEnd a.rangeStart)
    , current_address_min :=
        if a.rangeStart < st.current_address_min then a.rangeStart
        else st.current_address_min
    , current_address_max :=
        if a.rangeEnd > st.current_address_max then a.rangeEnd
        else st.current_address_max }

/-- The deallocation half of the loop body (lib.rs 457-470, also lines
480-495 of the reallocation arm): drop the endpoint refcounts, shrink the
used space, and when the removed range touched a bound, trim zero entries
from that side and recompute the bound. -/
def applyDealloc (a : FragAllocation) (st : FragState) : FragState :=
  let m1 := mapAdd (mapAdd st.address_map a.rangeStart (-1)) a.rangeEnd (-1)
  let used := u64sub st.current_used_address_space (u64sub a.rangeEnd a.rangeStart)
  let m2 := if a.rangeStart = st.current_address_min then trim_front m1 else m1
  let mn := if a.rangeStart = st.current_address_min then mapMin m2
            else st.current_address_min
  let m3 := if a.rangeEnd = st.current_address_max then trim_back m2 else m2
  let mx := if a.rangeEnd = st.current_address_max then mapMax m3
            else st.current_address_max
  { st with
      address_map := m3
    , current_used_address_space := used
    , current_address_min := mn
    , current_address_max := mx }

/-- Overwrite the last element (`*fragmentation.last_mut().unwrap() = v`;
the source list is never empty at this point). -/
def setLast : List Nat → Nat → List Nat
  | [], _ => []
  | [_], v => [v]
  | a :: rest, v => a :: setLast rest v

/-- The per-timestamp emission block (lib.rs 516-541): on a new second, first
emit up to two synthetic points carrying the previous fragmentation value (at
`x+1`, and at `timestamp-1` when at least two seconds were skipped), then the
point for the new second; finally overwrite the last point with
`range - current_used_address_space`. -/
def emitPoint (tsec : Nat) (st : FragState) : FragState :=
  let st :=
    if tsec ≠ st.x then
      let st :=
        if st.x ≠ u64Max ∧ u64add st.x 1 ≠ tsec then
          let last_fragmentation := st.fragmentation.getLast?.getD 0
          let st := { st with
              xs := st.xs ++ [u64mul (u64add st.x 1) 1000]
            , fragmentation := st.fragmentation ++ [last_fragmentation] }
          if u64add st.x 2 ≠ tsec then
            { st with
                xs := st.xs ++ [u64mul (u64sub tsec 1) 1000]
              , fragmentation := st.fragmentation ++ [last_fragmentation] }
          else st
        else st
      { st with
          x := tsec
        , xs := st.xs ++ [u64mul tsec 1000]
        , fragmentation := st.fragmentation ++ [0] }
    else st
  let range :=
    if st.current_address_max = 0 then 0
    else u64sub st.current_address_max st.current_address_min
  { st with
      fragmentation :=
        setLast st.fragmentation (u64sub range st.current_used_address_space) }

/-- One iteration of `for op in data.operations()` (lib.rs 430-542).
Unmatched operations `continue` without emitting. -/
def fragStep (st : FragState) (op : FragOp) : FragState :=
  match op with
  | .alloc a =>
    if isMatched a then emitPoint a.tsec (applyAlloc a st) else st
  | .dealloc a dtsec =>
    if isMatched a then emitPoint dtsec (applyDealloc a st) else st
  | .realloc oldA newA =>
    if isMatched newA || isMatched oldA then
      let st := if isMatched oldA then applyDealloc oldA st else st
      let st := if isMatched newA then applyAlloc newA st else st
      emitPoint newA.tsec st
    else st

/-- `get_fragmentation_timeline` (lib.rs 370-548): fold the loop over the
operation stream and return the two aligned series. -/
def get_fragmentation_timeline (ops : List FragOp) : List Nat × List Nat :=
  let st := ops.foldl fragStep initFragState
  (st.xs, st.fragmentation)

/-! Specification-level view: the multiset of live matched ranges. -/

/-- Remove one occurrence of a range from the live list. -/
def removeRange : List (Nat × Nat) → (Nat × Nat) → List (Nat × Nat)
  | [], _ => []
  | s :: rest, r => if s = r then rest else s :: removeRange rest r

/-- The live matched ranges after one operation. -/
def liveStep (live : List (Nat × Nat)) : FragOp → List (Nat × Nat)
  | .alloc a =>
    if isMatched a then live ++ [(a.rangeStart, a.rangeEnd)] else live
  | .dealloc a _ =>
    if isMatched a then removeRange live (a.rangeStart, a.rangeEnd) else live
  | .realloc oldA newA =>
    let live' := if isMatched oldA then
        removeRange live (oldA.rangeStart, oldA.rangeEnd) else live
    if isMatched newA then live' ++ [(newA.rangeStart, newA.rangeEnd)]
    else live'

/-- The live matched ranges after a prefix of the operation stream. -/
def liveAfter (ops : List FragOp) : List (Nat × Nat) :=
  ops.foldl liveStep []

def sumLens (live : List (Nat × Nat)) : Nat :=
  live.foldr (fun r acc => (r.2 - r.1) + acc) 0

def minStart (live : List (Nat × Nat)) : Nat :=
  live.foldr (fun r acc => Nat.min r.1 acc) u64Max

def maxEnd (live : List (Nat × Nat)) : Nat :=
  live.foldr (fun r acc => Nat.max r.2 acc) 0

/-- The address span covered by the live ranges (0 when none are live). -/
def spanOf (live : List (Nat × Nat)) : Nat :=
  if live.isEmpty then 0 else maxEnd live - minStart live

/-- A well-formed half-open `u64` range. -/
def RangeOk (r : Nat × Nat) : Prop := r.1 < r.2 ∧ r.2 < 2 ^ 64

/-- Two half-open ranges do not overlap. -/
def RangesDisjoint (r s : Nat × Nat) : Prop := r.2 ≤ s.1 ∨ s.2 ≤ r.1

instance (r : Nat × Nat) : Decidable (RangeOk r) := by
  unfold RangeOk; infer_instance

instance (r s : Nat × Nat) : Decidable (RangesDisjoint r s) := by
  unfold RangesDisjoint; infer_instance

/-- Live sets are collections of valid pairwise-disjoint ranges. -/
def WFLive (live : List (Nat × Nat)) : Prop :=
  (∀ r ∈ live, RangeOk r) ∧ live.Pairwise RangesDisjoint

/-- Validity of one operation against the current live set: deallocations
free a live range, allocations carve fresh disjoint memory, and emitted
timestamps fit in `u64` below the sentinel. -/
def opValid (live : List (Nat × Nat)) : FragOp → Prop
  | .alloc a =>
    isMatched a = true →
      RangeOk (a.rangeStart, a.rangeEnd) ∧
      (∀ r ∈ live, RangesDisjoint (a.rangeStart, a.rangeEnd) r) ∧
      a.tsec < u64Max
  | .dealloc a dtsec =>
    isMatched a = true →
      (a.rangeStart, a.rangeEnd) ∈ live ∧ dtsec < u64Max
  | .realloc oldA newA =>
    (isMatched oldA = true → (oldA.rangeStart, oldA.rangeEnd) ∈ live) ∧
    (isMatched newA = true →
      RangeOk (newA.rangeStart, newA.rangeEnd) ∧
      (∀ r ∈ (if isMatched oldA then
          removeRange live (oldA.rangeStart, oldA.rangeEnd) else live),
        RangesDisjoint (newA.rangeStart, newA.rangeEnd) r)) ∧
    ((isMatched newA || isMatched oldA) = true → newA.tsec < u64Max)

/-- Validity of a whole operation stream, threading the live set. -/
def WFOps : List (Nat × Nat) → List FragOp → Prop
  | _, [] => True
  | live, op :: rest => opValid live op ∧ WFOps (liveStep live op) rest

instance opValidDecidable (live : List (Nat × Nat)) (op : FragOp) :
    Decidable (opValid live op) := by
  cases op <;> dsimp only [opValid] <;> infer_instance

instance wfLiveDecidable (live : List (Nat × Nat)) : Decidable (WFLive live) := by
  unfold WFLive
  infer_instance

def WFOpsDec : ∀ (live : List (Nat × Nat)) (ops : List FragOp),
    Decidable (WFOps live ops)
  | _, [] => .isTrue trivial
  | live, op :: rest =>
    have : Decidable (WFOps (liveStep live op) rest) :=
      WFOpsDec (liveStep live op) rest
    inferInstanceAs (Decidable (_ ∧ _))

instance (live : List (Nat × Nat)) (ops : List FragOp) :
    Decidable (WFOps live ops) := WFOpsDec live ops

/-- The running count stored for a key: the refcount sum over the (unique)
occurrences of that key. -/
def mapCount (m : List (Nat × Int)) (k : Nat) : Int :=
  m.foldr (fun p acc => (if p.1 = k then p.2 else 0) + acc) 0

/-- How many live-range endpoints sit at an address. -/
def endpointCount (live : List (Nat × Nat)) (k : Nat) : Int :=
  live.foldr
    (fun r acc => (if r.1 = k then 1 else 0) + ((if r.2 = k then 1 else 0) + acc))
    0

/-- The loop-state invariant tying the machine state to the live set. -/
def FragInv (st : FragState) (live : List (Nat × Nat)) : Prop :=
  WFLive live ∧
  st.current_used_address_space = sumLens live ∧
  (st.address_map.map Prod.fst).Pairwise (· < ·) ∧
  (∀ k, mapCount st.address_map k = endpointCount live k) ∧
  (live = [] → st.current_address_min = u64Max ∧ st.current_address_max = 0) ∧
  (live ≠ [] →
    st.current_address_min = minStart live ∧
    st.current_address_max = maxEnd live)

/-- The emitted series are nonempty as soon as a point was pushed. -/
def EmitInv (st : FragState) : Prop :=
  st.x = u64Max ∨ st.fragmentation ≠ []

/-- A value is the correct fragmentation for a live set: together with the
used bytes it accounts exactly for the covered address span. -/
def GoodVal (v : Nat) (live : List (Nat × Nat)) : Prop :=
  v + sumLens live = spanOf live

/-- The second an operation emits a point at (`timestamp.as_secs()`), or
`none` when the loop `continue`s past it. -/
def emitSec : FragOp → Option Nat
  | .alloc a => if isMatched a then some a.tsec else none
  | .dealloc a dtsec => if isMatched a then some dtsec else none
  | .realloc oldA newA =>
    if isMatched newA || isMatched oldA then some newA.tsec else none

/-- The state-mutation half of a matched loop iteration (everything before
the timestamp block). -/
def applyOp : FragOp → FragState → FragState
  | .alloc a, st => if isMatched a then applyAlloc a st else st
  | .dealloc a _, st => if isMatched a then applyDealloc a st else st
  | .realloc oldA newA, st =>
    let st := if isMatched oldA then applyDealloc oldA st else st
    if isMatched newA then applyAlloc newA st else st

/-- The value written over the last data point at the end of each iteration
(lib.rs 535-541): `range - current_used_address_space`. -/
def emitVal (st : FragState) : Nat :=
  u64sub (if st.current_address_max = 0 then 0
      else u64sub st.current_address_max st.current_address_min)
    st.current_used_address_space

/-- The whole seconds at which the stream emits points, in stream order. -/
def secsOf (ops : List FragOp) : List Nat :=
  ops.filterMap emitSec

/-- The operations whose emission second is at most `s` (the operations
processed by the time the data point at second `s` is final, for a
chronologically ordered stream). -/
def opsUpTo (s : Nat) (ops : List FragOp) : List FragOp :=
  ops.filter (fun op =>
    match emitSec op with
    | some t => decide (t ≤ s)
    | none => false)

/-- The live matched ranges current at second `s`. -/
def liveAtSec (ops : List FragOp) (s : Nat) : List (Nat × Nat) :=
  liveAfter (opsUpTo s ops)

/-- The per-point bookkeeping invariant of the timeline loop: the two series
stay aligned, the last data point belongs to the current second `x` and
holds the current fragmentation value, every earlier (closed) data point at
second `s` holds exactly the fragmentation of the live set current at `s`,
and all emitted seconds are at most `x`. -/
def PtsInv (done : List FragOp) (st : FragState) : Prop :=
  st.fragmentation.length = st.xs.length ∧
  (st.x = u64Max → st.xs = [] ∧ secsOf done = []) ∧
  (st.x ≠ u64Max → st.xs ≠ [] ∧ st.x ∈ secsOf done ∧
    st.fragmentation.getLast?.getD 0 = emitVal st) ∧
  (∀ s ∈ secsOf done, s ≤ st.x) ∧
  (∀ i (hx : i < st.xs.length) (hf : i < st.fragmentation.length),
    ∃ s : Nat,
      st.xs.get ⟨i, hx⟩ = s * 1000 ∧ s * 1000 < 2 ^ 64 ∧ s ≤ st.x ∧
      (i + 1 < st.xs.length → s < st.x ∧
        st.fragmentation.get ⟨i, hf⟩ + sumLens (liveAtSec done s)
          = spanOf (liveAtSec done s)) ∧
      (i + 1 = st.xs.length → s = st.x ∧
        st.fragmentation.get ⟨i, hf⟩ = emitVal st))

/-- Sample matched allocations for exercising the timeline at concrete
inputs: two disjoint ranges at second 0 and one at second 5. -/
def wfrA : FragAllocation := ⟨true, false, false, 4096, 4112, 0⟩

def wfrB : FragAllocation := ⟨true, false, false, 8192, 8200, 0⟩

def wfrC : FragAllocation := ⟨true, false, false, 8192, 8200, 5⟩

def wfrOps : List FragOp := [.alloc wfrA, .alloc wfrB]

/-- A concrete backtrace store with a single backtrace (id 7); id 99 has no
entry.  Used to exercise `handler_backtrace` at specific inputs. -/
def sampleBacktraceStore : Nat → Option (List Nat) :=
  fun bt => if bt = 7 then some [1, 2] else none

/-- A concrete registry holding one capture with id 0. -/
def sampleState : ServerState :=
  ⟨[⟨0, sampleBacktraceStore⟩], [0]⟩

end ServerCore

-- ===========================================================================
-- Theorems
-- ===========================================================================

namespace ServerCore

namespace GeneratedFilesCollection

theorem sumSizes_cons (e : GeneratedFile) (l : List GeneratedFile) :
    sumSizes (e :: l) = e.size + sumSizes l := rfl

theorem sumSizes_perm {l₁ l₂ : List GeneratedFile} (h : l₁.Perm l₂) :
    sumSizes l₁ = sumSizes l₂ := by
  induction h with
  | nil => rfl
  | cons e _ ih => simp [sumSizes_cons, ih]
  | swap a b l => simp [sumSizes_cons]; omega
  | trans _ _ ih₁ ih₂ => omega

theorem sumSizes_append (l₁ l₂ : List GeneratedFile) :
    sumSizes (l₁ ++ l₂) = sumSizes l₁ + sumSizes l₂ := by
  induction l₁ with
  | nil => simp [sumSizes]
  | cons e rest ih => simp [sumSizes_cons, ih]; omega

/-- Removing one entry by its (unique) hash from a collection list is, up to
permutation, the same as removing that entry. -/
theorem filter_hash_perm {L rest : List GeneratedFile} {e : GeneratedFile}
    (nodup : (L.map GeneratedFile.hash).Nodup) (perm : L.Perm (e :: rest)) :
    (L.filter (fun x => x.hash ≠ e.hash)).Perm rest := by
  have hn : ((e :: rest).map GeneratedFile.hash).Nodup :=
    (perm.map GeneratedFile.hash).nodup_iff.mp nodup
  rw [List.map_cons] at hn
  have hnotin : e.hash ∉ rest.map GeneratedFile.hash := (List.nodup_cons.mp hn).1
  have hrest : rest.filter (fun x => x.hash ≠ e.hash) = rest := by
    apply List.filter_eq_self.mpr
    intro x hx
    simp only [ne_eq, decide_not, Bool.not_eq_true', decide_eq_false_iff_not, not_not]
    intro hcontra
    exact absurd (hcontra ▸ List.mem_map_of_mem GeneratedFile.hash hx) hnotin
  have hstep := perm.filter (fun x => x.hash ≠ e.hash)
  rwa [List.filter_cons_of_neg (by simp), hrest] at hstep

/-- One round of the eviction loop preserves the invariant and keeps the list
in sync with the remainder of the sorted work list. -/
theorem purge_step {st : GeneratedFilesCollection} {rest : List GeneratedFile}
    {e : GeneratedFile} (inv : Inv st) (perm : st.by_hash.Perm (e :: rest)) :
    Inv ⟨st.by_hash.filter (fun x => x.hash ≠ e.hash), st.total_size - e.size⟩ ∧
    (st.by_hash.filter (fun x => x.hash ≠ e.hash)).Perm rest := by
  obtain ⟨htot, hnodup⟩ := inv
  have hperm' := filter_hash_perm hnodup perm
  have hsum : sumSizes st.by_hash = e.size + sumSizes rest := by
    rw [sumSizes_perm perm, sumSizes_cons]
  refine ⟨⟨?_, ?_⟩, hperm'⟩
  · show st.total_size - e.size = sumSizes (st.by_hash.filter (fun x => x.hash ≠ e.hash))
    rw [sumSizes_perm hperm', htot, hsum]; omega
  · exact hnodup.sublist ((List.filter_sublist st.by_hash).map GeneratedFile.hash)

/-- After the eviction loop runs over (a permutation of) the whole collection,
the invariant still holds and the total is at or below the low-water mark. -/
theorem purgeLoop_spec {l : List GeneratedFile} :
    ∀ st : GeneratedFilesCollection, Inv st → st.by_hash.Perm l →
    Inv (purgeLoop l st) ∧ (purgeLoop l st).total_size ≤ 16 * 1024 * 1024 := by
  induction l with
  | nil =>
    intro st inv perm
    have : st.by_hash = [] := List.perm_nil.mp perm
    refine ⟨inv, ?_⟩
    simp [purgeLoop, inv.1, this, sumSizes]
  | cons e rest ih =>
    intro st inv perm
    rw [purgeLoop]
    split
    · exact ⟨inv, by assumption⟩
    · obtain ⟨inv', perm'⟩ := purge_step inv perm
      exact ih _ inv' perm'

/-- The eviction loop only ever removes entries. -/
theorem purgeLoop_subset {l : List GeneratedFile} :
    ∀ st : GeneratedFilesCollection, ∀ y ∈ (purgeLoop l st).by_hash, y ∈ st.by_hash := by
  induction l with
  | nil => intro st y hy; simpa [purgeLoop] using hy
  | cons e rest ih =>
    intro st y hy
    rw [purgeLoop] at hy
    split at hy
    · exact hy
    · exact List.mem_of_mem_filter (ih _ y hy)

/-- Entries removed by the eviction loop are no newer than any retained entry,
when the work list is sorted by ascending timestamp. -/
theorem purgeLoop_oldest_first {l : List GeneratedFile}
    (sorted : l.Pairwise (fun a b => a.timestamp ≤ b.timestamp)) :
    ∀ st : GeneratedFilesCollection, Inv st → st.by_hash.Perm l →
    ∀ x ∈ st.by_hash, x ∉ (purgeLoop l st).by_hash →
    ∀ y ∈ (purgeLoop l st).by_hash, x.timestamp ≤ y.timestamp := by
  induction l with
  | nil =>
    intro st _ _ x hx hx' y _
    exact absurd (by simpa [purgeLoop] using hx) hx'
  | cons e rest ih =>
    intro st inv perm x hx hx' y hy
    by_cases hstop : st.total_size ≤ 16 * 1024 * 1024
    · rw [purgeLoop, if_pos hstop] at hx'
      exact absurd hx hx'
    · rw [purgeLoop, if_neg hstop] at hx' hy
      obtain ⟨inv', perm'⟩ := purge_step inv perm
      by_cases hxe : x = e
      · have hy' : y ∈ rest := by
          have hmem := purgeLoop_subset _ y hy
          exact perm'.mem_iff.mp hmem
        subst hxe
        exact (List.pairwise_cons.mp sorted).1 y hy'
      · have hxhash : x.hash ≠ e.hash := by
          intro hcontra
          exact hxe (List.inj_on_of_nodup_map inv.2 hx (perm.mem_iff.mpr (by simp)) hcontra)
        have hx'' : x ∈ st.by_hash.filter (fun z => z.hash ≠ e.hash) :=
          List.mem_filter.mpr ⟨hx, by simpa using hxhash⟩
        exact ih (List.pairwise_cons.mp sorted).2 _ inv' perm' x hx'' hx' y hy

theorem sortByTimestamp_perm (l : List GeneratedFile) : l.Perm (sortByTimestamp l) :=
  (List.perm_insertionSort _ l).symm

theorem sortByTimestamp_sorted (l : List GeneratedFile) :
    (sortByTimestamp l).Pairwise (fun a b => a.timestamp ≤ b.timestamp) :=
  List.sorted_insertionSort _ l

/-- `purge_old_if_too_big` preserves the invariant. -/
theorem purge_inv {st : GeneratedFilesCollection} (h : Inv st) :
    Inv st.purge_old_if_too_big := by
  rw [purge_old_if_too_big]
  split
  · exact h
  · exact (purgeLoop_spec st h (sortByTimestamp_perm st.by_hash)).1

/-- When the purge triggers (high-water mark reached), it brings the total to
or below the low-water mark. -/
theorem purge_triggered_le {st : GeneratedFilesCollection} (h : Inv st)
    (htrig : 32 * 1024 * 1024 ≤ st.total_size) :
    st.purge_old_if_too_big.total_size ≤ 16 * 1024 * 1024 := by
  rw [purge_old_if_too_big]
  split
  · omega
  · exact (purgeLoop_spec st h (sortByTimestamp_perm st.by_hash)).2

theorem purge_lt_32 {st : GeneratedFilesCollection} (h : Inv st) :
    st.purge_old_if_too_big.total_size < 32 * 1024 * 1024 := by
  by_cases htrig : st.total_size < 32 * 1024 * 1024
  · rw [purge_old_if_too_big, if_pos htrig]; exact htrig
  · have := purge_triggered_le h (by omega)
    omega

/-- **C9.** `GeneratedFilesCollection` maintains the invariant that
`total_size` equals the sum of `data.len()` over all entries currently in
`by_hash`; both `add_file` (including its duplicate-hash no-op path, which
leaves the collection entirely unchanged) and `purge_old_if_too_big`
preserve this equality from any state satisfying it. -/
theorem C9_generated_files_size_invariant (st : GeneratedFilesCollection)
    (e : GeneratedFile) (h : Inv st) :
    Inv (st.add_file e) ∧ Inv st.purge_old_if_too_big ∧
    (st.by_hash.any (fun x => x.hash = e.hash) = true → st.add_file e = st) := by
  refine ⟨?_, purge_inv h, fun hdup => by rw [add_file, if_pos hdup]⟩
  rw [add_file]
  split
  · exact h
  · rename_i hdup
    have hnotin : e.hash ∉ st.by_hash.map GeneratedFile.hash := by
      intro hmem
      obtain ⟨x, hx, hxh⟩ := List.mem_map.mp hmem
      exact hdup (List.any_eq_true.mpr ⟨x, hx, by simp [hxh]⟩)
    have hsingle : sumSizes [e] = e.size := by simp [sumSizes]
    refine ⟨?_, ?_⟩
    · show st.total_size + e.size = sumSizes (st.by_hash ++ [e])
      rw [sumSizes_append, h.1, hsingle]
    · rw [List.map_append]
      refine List.Nodup.append h.2 (by simp) ?_
      intro a ha hb
      simp only [List.map_cons, List.map_nil, List.mem_singleton] at hb
      subst hb
      exact hnotin ha

/-- Witness for C9 at a concrete collection and entry. -/
theorem C9_generated_files_size_invariant_witness :
    Inv (empty.add_file ⟨0, "a", 5⟩) :=
  (C9_generated_files_size_invariant empty ⟨0, "a", 5⟩ (by decide)).1

/-- **C2 counterexample.** Under the exact call pattern of the handlers
(`purge_old_if_too_big` invoked immediately before `add_file`), starting from
the empty, invariant-satisfying collection a single add of a 33 MiB artifact
leaves `total_bytes` strictly above 32 MiB, refuting the claimed post-add
32 MiB bound. -/
theorem C2_generated_file_cache_bound_cex :
    Inv empty ∧
    32 * 1024 * 1024 <
      (empty.purge_old_if_too_big.add_file ⟨0, "a", 33 * 1024 * 1024⟩).total_size := by
  constructor
  · decide
  · decide

/-- **C2 (amended).** Under the purge-before-add call pattern, after every add
the total is below 32 MiB *plus the size of the added entry* (the absolute
32 MiB post-add bound of the claim fails for large entries); immediately after
an eviction pass triggers (`total_size` at or above the 32 MiB high-water
mark) the total is at most 16 MiB; and entries are evicted oldest-first: every
evicted entry's creation timestamp is at most that of every retained entry. -/
theorem C2_generated_file_cache_eviction (st : GeneratedFilesCollection)
    (e : GeneratedFile) (h : Inv st) :
    (st.purge_old_if_too_big.add_file e).total_size < 32 * 1024 * 1024 + e.size ∧
    (32 * 1024 * 1024 ≤ st.total_size →
      st.purge_old_if_too_big.total_size ≤ 16 * 1024 * 1024) ∧
    (∀ x ∈ st.by_hash, x ∉ st.purge_old_if_too_big.by_hash →
      ∀ y ∈ st.purge_old_if_too_big.by_hash, x.timestamp ≤ y.timestamp) := by
  refine ⟨?_, fun htrig => purge_triggered_le h htrig, ?_⟩
  · have hlt := purge_lt_32 h
    rw [add_file]
    split
    · omega
    · show st.purge_old_if_too_big.total_size + e.size < 32 * 1024 * 1024 + e.size
      omega
  · intro x hx hx' y hy
    by_cases hc : st.total_size < 32 * 1024 * 1024
    · rw [purge_old_if_too_big, if_pos hc] at hx'
      exact absurd hx hx'
    · rw [purge_old_if_too_big, if_neg hc] at hx' hy
      exact purgeLoop_oldest_first (sortByTimestamp_sorted _) st h
        (sortByTimestamp_perm _) x hx hx' y hy

/-- Witness for the amended C2 at a concrete collection and entry. -/
theorem C2_generated_file_cache_eviction_witness :
    (empty.purge_old_if_too_big.add_file ⟨0, "a", 5⟩).total_size <
      32 * 1024 * 1024 + (⟨0, "a", 5⟩ : GeneratedFile).size :=
  (C2_generated_file_cache_eviction empty ⟨0, "a", 5⟩ (by decide)).1

end GeneratedFilesCollection

/-- **C3.** For every capture, allocation id and allocation: when the
compiled filter carries a custom id-set, `try_match` returns true iff the id
is a member of the custom set AND the structural compiled predicate accepts
the allocation; when the wire custom-filter string is empty, no custom set is
produced (`prepare_filter` yields a filter with no set) and `try_match`
reduces to the structural predicate alone. -/
theorem C3_custom_filter_composition {D A : Type} (structural : D → A → Bool)
    (s : List Nat) (data : D) (id : Nat) (a : A)
    (engine : String → Except String (Option (List Nat))) :
    ((AllocationFilter.mk structural (some s)).tryMatch data id a
      = (s.contains id && structural data a)) ∧
    run_custom_filter engine (some "") = .ok none ∧
    prepare_filter structural engine (some "") = .ok ⟨structural, none⟩ ∧
    ((AllocationFilter.mk structural none).tryMatch data id a
      = structural data a) := by
  refine ⟨?_, rfl, rfl, ?_⟩
  · show (if s.contains id = false then false
      else if structural data a = false then false else true)
      = (s.contains id && structural data a)
    cases h1 : s.contains id <;> cases h2 : structural data a <;> decide
  · show (if structural data a = false then false else true) = structural data a
    cases h2 : structural data a <;> decide

/-- When the capture resolves through `get_data_id` in a consistent state, the
subsequent map lookup succeeds. -/
theorem lookup_of_get_data_id {st : ServerState} {seg : String} {id : Nat}
    (hc : st.Consistent) (h : get_data_id st seg = .ok id) :
    ∃ d, st.lookupData id = some d := by
  have hkey : st.containsKey id = true := by
    rw [get_data_id] at h
    by_cases hlast : seg = "last"
    · rw [if_pos hlast] at h
      cases hl : st.last_id with
      | none => rw [hl] at h; cases h
      | some i =>
        rw [hl] at h
        have h' : (Except.ok i : Except String Nat) = .ok id := h
        cases h'
        obtain ⟨h₁, h₂⟩ := List.mem_getLast?_eq_getLast (Option.mem_def.mpr hl)
        exact hc _ (h₂ ▸ List.getLast_mem h₁)
    · rw [if_neg hlast] at h
      cases hp : parseNat seg with
      | none => rw [hp] at h; cases h
      | some i =>
        rw [hp] at h
        have h' : (if st.containsKey i = true then Except.ok i
            else Except.error "data not found") = Except.ok id := h
        by_cases hck : st.containsKey i = true
        · rw [if_pos hck] at h'; cases h'; exact hck
        · rw [if_neg hck] at h'; cases h'
  obtain ⟨d, hd, hpd⟩ := List.any_eq_true.mp hkey
  have hsome : (st.lookupData id).isSome := by
    rw [ServerState.lookupData, List.find?_isSome]
    exact ⟨d, hd, hpd⟩
  exact Option.isSome_iff_exists.mp hsome

/-- **C8 (amended).** In a consistent registry, `handler_backtrace` answers
HTTP 404 exactly when the capture id fails to resolve (unknown, unparsable,
or the `last` sentinel with no captures), always with body `"data not
found"`.  A `backtrace_id` that names no existing backtrace is *not* checked:
once the capture resolves the outcome is a 200 response or a handler panic,
never a 404. -/
theorem C8_backtrace_not_found (st : ServerState) (hc : st.Consistent)
    (idSeg btSeg : String) :
    (∀ body, handler_backtrace st idSeg btSeg = .notFound body ↔
      get_data_id st idSeg = .error body) ∧
    (∀ body, get_data_id st idSeg = .error body → body = "data not found") := by
  constructor
  · intro body
    cases hres : get_data_id st idSeg with
    | error b => simp [handler_backtrace, hres]
    | ok id =>
      obtain ⟨d, hd⟩ := lookup_of_get_data_id hc hres
      simp only [handler_backtrace, hres, hd]
      cases hparse : parseNat btSeg with
      | none => simp
      | some bt => cases hb : d.backtraces bt <;> simp [hb]
  · intro body h
    rw [get_data_id] at h
    by_cases hlast : idSeg = "last"
    · rw [if_pos hlast] at h
      cases hl : st.last_id with
      | none => rw [hl] at h; injection h with h'; exact h'.symm
      | some i =>
        rw [hl] at h
        exact absurd (h : (Except.ok i : Except String Nat) = .error body)
          (by simp)
    · rw [if_neg hlast] at h
      cases hp : parseNat idSeg with
      | none => rw [hp] at h; injection h with h'; exact h'.symm
      | some i =>
        rw [hp] at h
        have h' : (if st.containsKey i = true then Except.ok i
            else Except.error "data not found") = Except.error body := h
        by_cases hck : st.containsKey i = true
        · rw [if_pos hck] at h'; cases h'
        · rw [if_neg hck] at h'; injection h' with h''; exact h''.symm

/-- Witness for the amended C8 at the concrete registry and request
`GET /data/0/backtrace/99`. -/
theorem C8_backtrace_not_found_witness :
    (∀ body, handler_backtrace sampleState "0" "99" = .notFound body ↔
      get_data_id sampleState "0" = .error body) ∧
    (∀ body, get_data_id sampleState "0" = .error body →
      body = "data not found") :=
  C8_backtrace_not_found sampleState (by decide) "0" "99"

/-- **C8 counterexample.** In the concrete consistent registry holding capture
0, backtrace id 99 names no backtrace, yet `GET /data/0/backtrace/99` does not
yield a 404: the handler proceeds without any existence check (here the
missing store entry surfaces as a panic, not as `NotFound`). -/
theorem C8_backtrace_not_found_cex :
    sampleState.Consistent ∧
    sampleState.containsKey 0 = true ∧
    sampleBacktraceStore 99 = none ∧
    handler_backtrace sampleState "0" "99" = .panicked := by
  refine ⟨by decide, by decide, by decide, by decide⟩

/-! Lemmas about the group-building maps. -/

theorem groupIds_nil (bt : Nat) : groupIds [] bt = [] := rfl

theorem groupIds_cons (k : Nat) (v : List Nat) (rest : GroupMap) (bt : Nat) :
    groupIds ((k, v) :: rest) bt = if k = bt then v else groupIds rest bt := by
  by_cases h : k = bt
  · rw [if_pos h]
    unfold groupIds
    rw [List.find?_cons_of_pos _ (by simp [h])]
    rfl
  · rw [if_neg h]
    unfold groupIds
    rw [List.find?_cons_of_neg _ (by simp [h])]

theorem keys_pushId (m : GroupMap) (bt id : Nat) :
    (pushId m bt id).map Prod.fst =
      if bt ∈ m.map Prod.fst then m.map Prod.fst
      else m.map Prod.fst ++ [bt] := by
  induction m with
  | nil => simp [pushId]
  | cons p rest ih =>
    obtain ⟨k, v⟩ := p
    by_cases h : k = bt
    · subst h
      simp [pushId]
    · simp only [pushId, if_neg h, List.map_cons]
      rw [ih]
      have hne : ¬ bt = k := fun hh => h hh.symm
      by_cases hm : bt ∈ rest.map Prod.fst <;>
        simp [hm, List.mem_cons, hne]

theorem groupIds_pushId (m : GroupMap) (bt id bt' : Nat) :
    groupIds (pushId m bt id) bt' =
      if bt = bt' then groupIds m bt' ++ [id] else groupIds m bt' := by
  induction m with
  | nil =>
    by_cases h : bt = bt' <;>
      simp [pushId, groupIds_cons, groupIds_nil, h]
  | cons p rest ih =>
    obtain ⟨k, v⟩ := p
    by_cases hk : k = bt
    · subst hk
      simp only [pushId, if_pos rfl]
      by_cases h' : k = bt'
      · subst h'
        simp [groupIds_cons]
      · simp [groupIds_cons, h', fun hh : k = bt' => h' hh]
    · simp only [pushId, if_neg hk]
      by_cases h' : k = bt'
      · subst h'
        have hne : ¬ bt = k := fun hh => hk hh.symm
        simp [groupIds_cons, hne]
      · simp [groupIds_cons, h', ih]

theorem keys_extendIds (m : GroupMap) (bt : Nat) (ids : List Nat) :
    (extendIds m bt ids).map Prod.fst =
      if bt ∈ m.map Prod.fst then m.map Prod.fst
      else m.map Prod.fst ++ [bt] := by
  induction m with
  | nil => simp [extendIds]
  | cons p rest ih =>
    obtain ⟨k, v⟩ := p
    by_cases h : k = bt
    · subst h
      simp [extendIds]
    · simp only [extendIds, if_neg h, List.map_cons]
      rw [ih]
      have hne : ¬ bt = k := fun hh => h hh.symm
      by_cases hm : bt ∈ rest.map Prod.fst <;>
        simp [hm, List.mem_cons, hne]

theorem groupIds_extendIds (m : GroupMap) (bt : Nat) (ids : List Nat) (bt' : Nat) :
    groupIds (extendIds m bt ids) bt' =
      if bt = bt' then groupIds m bt' ++ ids else groupIds m bt' := by
  induction m with
  | nil =>
    by_cases h : bt = bt' <;>
      simp [extendIds, groupIds_cons, groupIds_nil, h]
  | cons p rest ih =>
    obtain ⟨k, v⟩ := p
    by_cases hk : k = bt
    · subst hk
      simp only [extendIds, if_pos rfl]
      by_cases h' : k = bt'
      · subst h'
        simp [groupIds_cons]
      · simp [groupIds_cons, h', fun hh : k = bt' => h' hh]
    · simp only [extendIds, if_neg hk]
      by_cases h' : k = bt'
      · subst h'
        have hne : ¬ bt = k := fun hh => hk hh.symm
        simp [groupIds_cons, hne]
      · simp [groupIds_cons, h', ih]

theorem matchingIds_append (X Y : List (Nat × Nat)) (bt : Nat) :
    matchingIds (X ++ Y) bt = matchingIds X bt ++ matchingIds Y bt := by
  simp [matchingIds, List.filter_append]

theorem matchingIds_singleton (p : Nat × Nat) (bt : Nat) :
    matchingIds [p] bt = if p.2 = bt then [p.1] else [] := by
  by_cases h : p.2 = bt <;> simp [matchingIds, h]

/-- Keys stay unique when pushing or extending at one key. -/
theorem nodup_insertKey {ks : List Nat} (h : ks.Nodup) (bt : Nat) :
    (if bt ∈ ks then ks else ks ++ [bt]).Nodup := by
  split
  · exact h
  · rename_i hnot
    refine List.Nodup.append h (List.nodup_singleton bt) ?_
    intro a ha hb
    rw [List.mem_singleton] at hb
    exact hnot (hb ▸ ha)

theorem foldl_pushId_rep :
    ∀ (c : List (Nat × Nat)) (m : GroupMap) (I : List (Nat × Nat)),
    GroupsRep m I →
    GroupsRep (c.foldl (fun m p => pushId m p.2 p.1) m) (I ++ c) := by
  intro c
  induction c with
  | nil =>
    intro m I h
    simpa using h
  | cons p c' ih =>
    intro m I h
    have hstep : GroupsRep (pushId m p.2 p.1) (I ++ [p]) := by
      constructor
      · rw [keys_pushId]
        exact nodup_insertKey h.1 p.2
      · intro bt
        rw [groupIds_pushId, matchingIds_append, matchingIds_singleton]
        by_cases hb : p.2 = bt
        · rw [if_pos hb, if_pos hb]
          exact (h.2 bt).append (List.Perm.refl [p.1])
        · rw [if_neg hb, if_neg hb, List.append_nil]
          exact h.2 bt
    have hres := ih (pushId m p.2 p.1) (I ++ [p]) hstep
    simpa [List.append_assoc] using hres

theorem groupsRep_nil : GroupsRep [] [] := by
  refine ⟨List.nodup_nil, fun bt => ?_⟩
  simp [groupIds_nil, matchingIds]

theorem foldChunk_rep (c : List (Nat × Nat)) : GroupsRep (foldChunk c) c := by
  have h := foldl_pushId_rep c [] [] groupsRep_nil
  simpa [foldChunk] using h

theorem matchingIds_cons (p : Nat × Nat) (l : List (Nat × Nat)) (bt : Nat) :
    matchingIds (p :: l) bt =
      (if p.2 = bt then [p.1] else []) ++ matchingIds l bt := by
  by_cases h : p.2 = bt <;> simp [matchingIds, h]

theorem matchingIds_selfMap (v : List Nat) (k bt : Nat) :
    matchingIds (v.map (fun id => (id, k))) bt = if k = bt then v else [] := by
  induction v with
  | nil => by_cases h : k = bt <;> simp [matchingIds, h]
  | cons x v' ih =>
    rw [List.map_cons, matchingIds_cons, ih]
    by_cases h : k = bt <;> simp [h]

theorem foldl_extendIds_rep :
    ∀ (b : GroupMap) (a : GroupMap) (A : List (Nat × Nat)),
    GroupsRep a A → (b.map Prod.fst).Nodup →
    GroupsRep (b.foldl (fun acc p => extendIds acc p.1 p.2) a)
      (A ++ entryFlatten b) := by
  intro b
  induction b with
  | nil =>
    intro a A h _
    simpa [entryFlatten] using h
  | cons p b' ih =>
    intro a A h hN
    obtain ⟨k, v⟩ := p
    have hstep : GroupsRep (extendIds a k v) (A ++ v.map (fun id => (id, k))) := by
      constructor
      · rw [keys_extendIds]
        exact nodup_insertKey h.1 k
      · intro bt
        rw [groupIds_extendIds, matchingIds_append, matchingIds_selfMap]
        by_cases hb : k = bt
        · rw [if_pos hb, if_pos hb]
          exact (h.2 bt).append (List.Perm.refl v)
        · rw [if_neg hb, if_neg hb, List.append_nil]
          exact h.2 bt
    have hres := ih (extendIds a k v) (A ++ v.map (fun id => (id, k))) hstep
      (by rw [List.map_cons] at hN; exact (List.nodup_cons.mp hN).2)
    simpa [entryFlatten, List.append_assoc] using hres

theorem matchingIds_entryFlatten_not_mem :
    ∀ (m : GroupMap) (bt : Nat), bt ∉ m.map Prod.fst →
    matchingIds (entryFlatten m) bt = [] := by
  intro m
  induction m with
  | nil => intro bt _; rfl
  | cons p rest ih =>
    intro bt hbt
    obtain ⟨k, v⟩ := p
    rw [List.map_cons, List.mem_cons] at hbt
    push_neg at hbt
    rw [entryFlatten, matchingIds_append, matchingIds_selfMap,
      if_neg (fun hh => hbt.1 hh.symm), List.nil_append]
    exact ih bt hbt.2

theorem matchingIds_entryFlatten :
    ∀ (m : GroupMap), (m.map Prod.fst).Nodup → ∀ bt : Nat,
    matchingIds (entryFlatten m) bt = groupIds m bt := by
  intro m
  induction m with
  | nil => intro _ bt; rfl
  | cons p rest ih =>
    intro hN bt
    obtain ⟨k, v⟩ := p
    rw [List.map_cons] at hN
    obtain ⟨hk, hN'⟩ := List.nodup_cons.mp hN
    rw [entryFlatten, matchingIds_append, matchingIds_selfMap, groupIds_cons]
    by_cases h : k = bt
    · rw [if_pos h, if_pos h,
        matchingIds_entryFlatten_not_mem rest bt (h ▸ hk), List.append_nil]
    · rw [if_neg h, if_neg h, List.nil_append]
      exact ih hN' bt

theorem GroupsRep_congr {m : GroupMap} {X Y : List (Nat × Nat)}
    (h : GroupsRep m X)
    (hXY : ∀ bt, (matchingIds X bt).Perm (matchingIds Y bt)) : GroupsRep m Y :=
  ⟨h.1, fun bt => (h.2 bt).trans (hXY bt)⟩

theorem mergeMaps_rep {a b : GroupMap} {A B : List (Nat × Nat)}
    (ha : GroupsRep a A) (hb : GroupsRep b B) :
    GroupsRep (mergeMaps a b) (A ++ B) := by
  rw [mergeMaps]
  split
  · refine GroupsRep_congr (foldl_extendIds_rep a b B hb ha.1) (fun bt => ?_)
    rw [matchingIds_append, matchingIds_append, matchingIds_entryFlatten a ha.1]
    exact ((List.Perm.refl _).append (ha.2 bt)).trans List.perm_append_comm
  · refine GroupsRep_congr (foldl_extendIds_rep b a A ha hb.1) (fun bt => ?_)
    rw [matchingIds_append, matchingIds_append, matchingIds_entryFlatten b hb.1]
    exact (List.Perm.refl _).append (hb.2 bt)

theorem toMap_rep (t : ChunkTree) : GroupsRep t.toMap t.flatten := by
  induction t with
  | leaf c => exact foldChunk_rep c
  | node l r ihl ihr => exact mergeMaps_rep ihl ihr

/-- With unique keys, `find?` returns the entry of its key wherever it sits. -/
theorem find?_eq_of_mem_of_nodup :
    ∀ {m : GroupMap} {bt : Nat} {v : List Nat},
    (m.map Prod.fst).Nodup → (bt, v) ∈ m →
    m.find? (fun p => p.1 = bt) = some (bt, v) := by
  intro m
  induction m with
  | nil => intro bt v _ hmem; cases hmem
  | cons p rest ih =>
    intro bt v hN hmem
    obtain ⟨k, w⟩ := p
    rw [List.map_cons] at hN
    obtain ⟨hk, hN'⟩ := List.nodup_cons.mp hN
    by_cases h : k = bt
    · subst h
      rw [List.find?_cons_of_pos _ (by simp)]
      rcases List.mem_cons.mp hmem with heq | hrest
      · injection heq with h1 h2
        subst h2
        rfl
      · exact absurd (List.mem_map_of_mem Prod.fst hrest) (by simpa using hk)
    · rw [List.find?_cons_of_neg _ (by simp [h])]
      apply ih hN'
      rcases List.mem_cons.mp hmem with heq | hrest
      · have hbtk : bt = k := congrArg Prod.fst heq
        exact absurd hbtk (fun hh => h hh.symm)
      · exact hrest

theorem groupIds_perm_eq {m m' : GroupMap}
    (hN : (m.map Prod.fst).Nodup) (hperm : m.Perm m') (bt : Nat) :
    groupIds m' bt = groupIds m bt := by
  have hN' : (m'.map Prod.fst).Nodup := (hperm.map Prod.fst).nodup_iff.mp hN
  by_cases hmem : bt ∈ m.map Prod.fst
  · obtain ⟨p, hp, hp1⟩ := List.mem_map.mp hmem
    obtain ⟨k, v⟩ := p
    cases hp1
    have h1 := find?_eq_of_mem_of_nodup hN hp
    have h2 := find?_eq_of_mem_of_nodup hN' (hperm.mem_iff.mp hp)
    rw [groupIds, groupIds, h1, h2]
  · have h1 : m.find? (fun p => p.1 = bt) = none := by
      rw [List.find?_eq_none]
      intro p hp
      simp only [decide_eq_true_eq]
      exact fun hh => hmem (hh ▸ List.mem_map_of_mem Prod.fst hp)
    have h2 : m'.find? (fun p => p.1 = bt) = none := by
      rw [List.find?_eq_none]
      intro p hp
      simp only [decide_eq_true_eq]
      exact fun hh => hmem (hh ▸ List.mem_map_of_mem Prod.fst (hperm.mem_iff.mpr hp))
    rw [groupIds, groupIds, h1, h2]

/-- **C1 (amended).** For every capture, compiled filter and partitioning of
the input chosen by the parallel fold/reduce, the `Groups` object built by
`AllocationGroups::new` has its entries strictly ascending by `BacktraceId`,
and maps each `BacktraceId` to a *permutation* of the matching
`AllocationId`s: the multiset of ids per group is the same for every
partitioning, but the order within each list depends on the partitioning (via
the size-based swap in the reduce step) and need not be ascending. -/
theorem C1_allocation_groups_build (t : ChunkTree) :
    (AllocationGroups_new t).Pairwise (fun a b => a.1 < b.1) ∧
    ∀ bt, (groupIds (AllocationGroups_new t) bt).Perm
      (matchingIds t.flatten bt) := by
  have hrep := toMap_rep t
  have hperm : (t.toMap).Perm (AllocationGroups_new t) :=
    (List.perm_insertionSort _ _).symm
  have hN' : ((AllocationGroups_new t).map Prod.fst).Nodup :=
    (hperm.map Prod.fst).nodup_iff.mp hrep.1
  constructor
  · have hsorted : (AllocationGroups_new t).Pairwise (fun a b => a.1 ≤ b.1) :=
      List.sorted_insertionSort _ _
    have hne : (AllocationGroups_new t).Pairwise (fun a b => a.1 ≠ b.1) :=
      List.pairwise_map.mp hN'
    exact (hsorted.and hne).imp (fun h => lt_of_le_of_ne h.1 h.2)
  · intro bt
    rw [groupIds_perm_eq hrep.1 hperm bt]
    exact hrep.2 bt

/-- **C1 counterexample.** Two partitionings of the same three-allocation
input (ids 1,2,3; ids 1 and 3 share backtrace 100).  The single-chunk build
yields `[1, 3]` for backtrace 100, while the two-chunk build — whose reduce
swaps because the right-hand map has more keys — yields `[3, 1]`: the
per-group list is neither sorted ascending by `AllocationId` nor the same
value across partitionings. -/
theorem C1_allocation_groups_build_cex :
    ChunkTree.flatten (.node (.leaf [(1, 100)]) (.leaf [(2, 200), (3, 100)]))
      = ChunkTree.flatten (.leaf [(1, 100), (2, 200), (3, 100)]) ∧
    groupIds (AllocationGroups_new (.leaf [(1, 100), (2, 200), (3, 100)])) 100
      = [1, 3] ∧
    groupIds (AllocationGroups_new
        (.node (.leaf [(1, 100)]) (.leaf [(2, 200), (3, 100)]))) 100
      = [3, 1] := by
  refine ⟨rfl, by decide, by decide⟩

/-! Lemmas about the backtrace matcher. -/

theorem cacheLookup_insert_self (c : FrameCache) (fid : Nat) (b : Bool) :
    cacheLookup (cacheInsert c fid b) fid = some b := by
  rw [cacheInsert, cacheLookup, List.find?_cons_of_pos _ (by simp)]
  rfl

theorem cacheLookup_insert_ne (c : FrameCache) {fid fid' : Nat} (b : Bool)
    (h : fid ≠ fid') :
    cacheLookup (cacheInsert c fid b) fid' = cacheLookup c fid' := by
  rw [cacheInsert, cacheLookup, List.find?_cons_of_neg _ (by simp [h]), cacheLookup]

theorem CacheOk.insert {val : Nat → Bool} {c : FrameCache}
    (h : CacheOk val c) {fid : Nat} {b : Bool} (hb : b = val fid) :
    CacheOk val (cacheInsert c fid b) := by
  intro fid' b' hlk
  by_cases hf : fid = fid'
  · subst hf
    rw [cacheLookup_insert_self] at hlk
    cases hlk
    exact hb
  · rw [cacheLookup_insert_ne _ _ hf] at hlk
    exact h fid' b' hlk

theorem cacheLookup_eq_none_iff (c : FrameCache) (fid : Nat) :
    cacheLookup c fid = none ↔ fid ∉ c.map Prod.fst := by
  rw [cacheLookup, Option.map_eq_none', List.find?_eq_none]
  constructor
  · intro h hmem
    obtain ⟨p, hp, hp1⟩ := List.mem_map.mp hmem
    exact absurd (by simpa using hp1) (by simpa using h p hp)
  · intro h p hp
    simp only [decide_eq_true_eq]
    exact fun hh => h (hh ▸ List.mem_map_of_mem Prod.fst hp)

/-- The positive-pair evaluation computes exactly the declarative per-frame
positive verdict, caches it, adds at most one call per positive regex, and
leaves the negative side alone. -/
theorem positiveEval_spec (interner : Nat → String) (filter : BacktraceFilter)
    (fr : Frame) (fid : Nat) (function source : Option String) (st : MatchState)
    (hfn : filter.function_regex.isSome = true →
      function = (fr.function.or fr.rawFunction).map interner)
    (hsrc : filter.source_regex.isSome = true →
      source = fr.source.map interner) :
    positiveEval filter fid function source st =
      { st with
          positive_matched := framePositive interner filter fr
        , positive_cache := cacheInsert st.positive_cache fid
            (framePositive interner filter fr)
        , posFnCalls := st.posFnCalls +
            (if filter.function_regex.isSome && function.isSome then 1 else 0)
        , posSrcCalls := st.posSrcCalls +
            (if filter.source_regex.isSome && source.isSome then 1 else 0) } := by
  rcases hf : filter.function_regex with _ | regex <;>
    rcases hs : filter.source_regex with _ | sregex
  · simp [positiveEval, framePositive, hf, hs]
  · have h2 := hsrc (by simp [hs])
    subst h2
    rcases hso : fr.source with _ | sid <;>
      simp [positiveEval, framePositive, hf, hs, hso]
  · have h1 := hfn (by simp [hf])
    subst h1
    rcases hfo : fr.function.or fr.rawFunction with _ | fnid <;>
      simp [positiveEval, framePositive, hf, hs, hfo]
  · have h1 := hfn (by simp [hf])
    have h2 := hsrc (by simp [hs])
    subst h1
    subst h2
    rcases hfo : fr.function.or fr.rawFunction with _ | fnid <;>
      rcases hso : fr.source with _ | sid <;>
      simp [positiveEval, framePositive, hf, hs, hfo, hso]

/-- A negative-cache hit short-circuits the negative block. -/
theorem negativeCheck_hit (filter : BacktraceFilter) (fid : Nat)
    (function source : Option String) (st : MatchState) (b : Bool)
    (hlk : cacheLookup st.negative_cache fid = some b) :
    negativeCheck filter fid function source st =
      (if b then ({ st with negative_matched := true }, true) else (st, false)) := by
  cases b <;> simp [negativeCheck, hlk]

/-- A negative-cache miss evaluates the negative regexes against the given
strings, records the declarative per-frame negative verdict, breaks exactly
on a hit, and adds at most one call per negative regex. -/
theorem negativeCheck_miss (interner : Nat → String) (filter : BacktraceFilter)
    (fr : Frame) (fid : Nat) (function source : Option String) (st : MatchState)
    (hlk : cacheLookup st.negative_cache fid = none)
    (hfn : filter.negative_function_regex.isSome = true →
      function = (fr.function.or fr.rawFunction).map interner)
    (hsrc : filter.negative_source_regex.isSome = true →
      source = fr.source.map interner) :
    ∃ k₁ k₂, k₁ ≤ 1 ∧ k₂ ≤ 1 ∧
    negativeCheck filter fid function source st =
      ({ st with
           negative_matched :=
             if frameNegative interner filter fr then true else st.negative_matched
         , negative_cache := cacheInsert st.negative_cache fid
             (frameNegative interner filter fr)
         , negFnCalls := st.negFnCalls + k₁
         , negSrcCalls := st.negSrcCalls + k₂ },
       frameNegative interner filter fr) := by
  rcases hnf : filter.negative_function_regex with _ | regex
  · rcases hns : filter.negative_source_regex with _ | sregex
    · exact ⟨0, 0, by omega, by omega, by
        simp [negativeCheck, hlk, hnf, hns, frameNegative, frameNegativeFn,
          frameNegativeSrc]⟩
    · have h2 := hsrc (by simp [hns])
      subst h2
      rcases hso : fr.source with _ | sid
      · exact ⟨0, 0, by omega, by omega, by
          simp [negativeCheck, hlk, hnf, hns, hso, frameNegative,
            frameNegativeFn, frameNegativeSrc]⟩
      · by_cases hreg : sregex (interner sid) = true
        · exact ⟨0, 1, by omega, by omega, by
            simp [negativeCheck, hlk, hnf, hns, hso, hreg, frameNegative,
              frameNegativeFn, frameNegativeSrc]⟩
        · exact ⟨0, 1, by omega, by omega, by
            simp [negativeCheck, hlk, hnf, hns, hso, hreg, frameNegative,
              frameNegativeFn, frameNegativeSrc]⟩
  · have h1 := hfn (by simp [hnf])
    subst h1
    rcases hfo : fr.function.or fr.rawFunction with _ | fnid
    · rcases hns : filter.negative_source_regex with _ | sregex
      · exact ⟨0, 0, by omega, by omega, by
          simp [negativeCheck, hlk, hnf, hns, hfo, frameNegative,
            frameNegativeFn, frameNegativeSrc]⟩
      · have h2 := hsrc (by simp [hns])
        subst h2
        rcases hso : fr.source with _ | sid
        · exact ⟨0, 0, by omega, by omega, by
            simp [negativeCheck, hlk, hnf, hns, hfo, hso, frameNegative,
              frameNegativeFn, frameNegativeSrc]⟩
        · by_cases hreg : sregex (interner sid) = true
          · exact ⟨0, 1, by omega, by omega, by
              simp [negativeCheck, hlk, hnf, hns, hfo, hso, hreg, frameNegative,
                frameNegativeFn, frameNegativeSrc]⟩
          · exact ⟨0, 1, by omega, by omega, by
              simp [negativeCheck, hlk, hnf, hns, hfo, hso, hreg, frameNegative,
                frameNegativeFn, frameNegativeSrc]⟩
    · by_cases hregf : regex (interner fnid) = true
      · exact ⟨1, 0, by omega, by omega, by
          simp [negativeCheck, hlk, hnf, hfo, hregf, frameNegative,
            frameNegativeFn, frameNegativeSrc]⟩
      · rcases hns : filter.negative_source_regex with _ | sregex
        · exact ⟨1, 0, by omega, by omega, by
            simp [negativeCheck, hlk, hnf, hns, hfo, hregf, frameNegative,
              frameNegativeFn, frameNegativeSrc]⟩
        · have h2 := hsrc (by simp [hns])
          subst h2
          rcases hso : fr.source with _ | sid
          · exact ⟨1, 0, by omega, by omega, by
              simp [negativeCheck, hlk, hnf, hns, hfo, hso, hregf, frameNegative,
                frameNegativeFn, frameNegativeSrc]⟩
          · by_cases hreg : sregex (interner sid) = true
            · exact ⟨1, 1, by omega, by omega, by
                simp [negativeCheck, hlk, hnf, hns, hfo, hso, hregf, hreg,
                  frameNegative, frameNegativeFn, frameNegativeSrc]⟩
            · exact ⟨1, 1, by omega, by omega, by
                simp [negativeCheck, hlk, hnf, hns, hfo, hso, hregf, hreg,
                  frameNegative, frameNegativeFn, frameNegativeSrc]⟩

/-- When no negative regex is set, no frame matches negatively. -/
theorem frameNegative_eq_false (interner : Nat → String)
    (filter : BacktraceFilter) (fr : Frame)
    (h : (filter.negative_function_regex.isSome
          || filter.negative_source_regex.isSome) = false) :
    frameNegative interner filter fr = false := by
  rcases hnf : filter.negative_function_regex with _ | r
  · rcases hns : filter.negative_source_regex with _ | s
    · simp [frameNegative, frameNegativeFn, frameNegativeSrc, hnf, hns]
    · rw [hnf, hns] at h; simp at h
  · rw [hnf] at h; simp at h

/-- The negative block computes the declarative negative verdict, breaks
exactly on it, keeps the negative cache consistent and leaves the positive
side untouched. -/
theorem negativeCheck_spec (interner : Nat → String) (filter : BacktraceFilter)
    (frameOf : Nat → Frame) (fid : Nat) (function source : Option String)
    (st' : MatchState)
    (hfn : filter.negative_function_regex.isSome = true →
      function = ((frameOf fid).function.or (frameOf fid).rawFunction).map interner)
    (hsrc : filter.negative_source_regex.isSome = true →
      source = (frameOf fid).source.map interner)
    (hnc : NegCacheOk interner filter frameOf st'.negative_cache)
    (hneg : st'.negative_matched = false) :
    ((negativeCheck filter fid function source st').1.negative_matched
      = frameNegative interner filter (frameOf fid)) ∧
    ((negativeCheck filter fid function source st').2
      = (negativeCheck filter fid function source st').1.negative_matched) ∧
    NegCacheOk interner filter frameOf
      (negativeCheck filter fid function source st').1.negative_cache ∧
    (negativeCheck filter fid function source st').1.positive_matched
      = st'.positive_matched ∧
    (negativeCheck filter fid function source st').1.positive_cache
      = st'.positive_cache := by
  rcases hlk : cacheLookup st'.negative_cache fid with _ | b
  · obtain ⟨k₁, k₂, _, _, heq⟩ :=
      negativeCheck_miss interner filter (frameOf fid) fid function source st'
        hlk hfn hsrc
    rw [heq]
    refine ⟨?_, ?_, CacheOk.insert hnc rfl, rfl, rfl⟩
    · show (if frameNegative interner filter (frameOf fid) then true
        else st'.negative_matched) = frameNegative interner filter (frameOf fid)
      cases frameNegative interner filter (frameOf fid) <;> simp [hneg]
    · show frameNegative interner filter (frameOf fid)
        = (if frameNegative interner filter (frameOf fid) then true
           else st'.negative_matched)
      cases frameNegative interner filter (frameOf fid) <;> simp [hneg]
  · have hb : b = frameNegative interner filter (frameOf fid) := hnc fid b hlk
    have hhit := negativeCheck_hit filter fid function source st' b hlk
    cases b
    · rw [if_neg (by simp)] at hhit
      rw [hhit]
      exact ⟨by rw [hneg, ← hb], hneg.symm, hnc, rfl, rfl⟩
    · rw [if_pos rfl] at hhit
      rw [hhit]
      exact ⟨hb, rfl, hnc, rfl, rfl⟩

theorem lazyFunction_posSome (interner : Nat → String)
    (filter : BacktraceFilter) (fr : Frame)
    (h : filter.function_regex.isSome = true) :
    lazyFunction interner filter true fr
      = (fr.function.or fr.rawFunction).map interner := by
  simp [lazyFunction, h]

theorem lazyFunction_negSome (interner : Nat → String)
    (filter : BacktraceFilter) (fr : Frame) (cp : Bool)
    (h : filter.negative_function_regex.isSome = true) :
    lazyFunction interner filter cp fr
      = (fr.function.or fr.rawFunction).map interner := by
  simp [lazyFunction, h]

theorem lazySource_posSome (interner : Nat → String)
    (filter : BacktraceFilter) (fr : Frame)
    (h : filter.source_regex.isSome = true) :
    lazySource interner filter true fr = fr.source.map interner := by
  simp [lazySource, h]

theorem lazySource_negSome (interner : Nat → String)
    (filter : BacktraceFilter) (fr : Frame) (cp : Bool)
    (h : filter.negative_source_regex.isSome = true) :
    lazySource interner filter cp fr = fr.source.map interner := by
  simp [lazySource, h]

/-- One loop iteration: the positive flag accumulates the declarative
positive verdict, the negative flag becomes the declarative negative verdict,
a `break` happens only on a negative hit or on an already-satisfied positive
with no negative regexes, and both caches stay consistent. -/
theorem matchStep_spec (interner : Nat → String) (filter : BacktraceFilter)
    (frameOf : Nat → Frame) (fid : Nat) (fr : Frame) (st : MatchState)
    (hfr : fr = frameOf fid)
    (hpc : PosCacheOk interner filter frameOf st.positive_cache)
    (hnc : NegCacheOk interner filter frameOf st.negative_cache)
    (hneg : st.negative_matched = false) :
    ((matchStep interner filter fid fr st).1.positive_matched
      = (st.positive_matched || framePositive interner filter fr)) ∧
    ((matchStep interner filter fid fr st).1.negative_matched
      = frameNegative interner filter fr) ∧
    ((matchStep interner filter fid fr st).2 = true →
      (matchStep interner filter fid fr st).1.negative_matched = true ∨
      ((filter.negative_function_regex.isSome
        || filter.negative_source_regex.isSome) = false ∧
       (matchStep interner filter fid fr st).1.positive_matched = true)) ∧
    ((matchStep interner filter fid fr st).2 = false →
      (matchStep interner filter fid fr st).1.negative_matched = false) ∧
    PosCacheOk interner filter frameOf
      (matchStep interner filter fid fr st).1.positive_cache ∧
    NegCacheOk interner filter frameOf
      (matchStep interner filter fid fr st).1.negative_cache := by
  subst hfr
  by_cases hpm : st.positive_matched = true
  · have hpl : positiveLookup st fid = (true, false) := by
      simp [positiveLookup, hpm]
    by_cases hcn : (filter.negative_function_regex.isSome
        || filter.negative_source_regex.isSome) = true
    · have hstep : matchStep interner filter fid (frameOf fid) st
          = negativeCheck filter fid
              (lazyFunction interner filter false (frameOf fid))
              (lazySource interner filter false (frameOf fid))
              { st with positive_matched := true } := by
        simp [matchStep, hpl, hcn]
      obtain ⟨s1, s2, s3, s4, s5⟩ := negativeCheck_spec interner filter frameOf
        fid (lazyFunction interner filter false (frameOf fid))
        (lazySource interner filter false (frameOf fid))
        { st with positive_matched := true }
        (fun h => lazyFunction_negSome interner filter (frameOf fid) false h)
        (fun h => lazySource_negSome interner filter (frameOf fid) false h)
        hnc hneg
      rw [hstep]
      refine ⟨?_, s1, fun hbrk => Or.inl (s2 ▸ hbrk), fun hbrk => s2 ▸ hbrk,
        ?_, s3⟩
      · rw [s4]; simp [hpm]
      · rw [s5]; exact hpc
    · have hcn' : (filter.negative_function_regex.isSome
          || filter.negative_source_regex.isSome) = false := by simpa using hcn
      have hstep : matchStep interner filter fid (frameOf fid) st
          = ({ st with positive_matched := true }, true) := by
        simp [matchStep, hpl, hcn']
      rw [hstep]
      refine ⟨by simp [hpm], ?_, fun _ => Or.inr ⟨hcn', rfl⟩,
        fun hbrk => Bool.noConfusion hbrk, hpc, hnc⟩
      show st.negative_matched = _
      rw [hneg, frameNegative_eq_false interner filter _ hcn']
  · have hpm' : st.positive_matched = false := by simpa using hpm
    rcases hplk : cacheLookup st.positive_cache fid with _ | b
    · have hpl : positiveLookup st fid = (false, true) := by
        simp [positiveLookup, hpm', hplk]
      have heval := positiveEval_spec interner filter (frameOf fid) fid
        (lazyFunction interner filter true (frameOf fid))
        (lazySource interner filter true (frameOf fid))
        { st with positive_matched := false }
        (fun h => lazyFunction_posSome interner filter (frameOf fid) h)
        (fun h => lazySource_posSome interner filter (frameOf fid) h)
      by_cases hcn : (filter.negative_function_regex.isSome
          || filter.negative_source_regex.isSome) = true
      · have hstep : matchStep interner filter fid (frameOf fid) st
            = negativeCheck filter fid
                (lazyFunction interner filter true (frameOf fid))
                (lazySource interner filter true (frameOf fid))
                (positiveEval filter fid
                  (lazyFunction interner filter true (frameOf fid))
                  (lazySource interner filter true (frameOf fid))
                  { st with positive_matched := false }) := by
          simp [matchStep, hpl, hcn]
        obtain ⟨s1, s2, s3, s4, s5⟩ := negativeCheck_spec interner filter
          frameOf fid (lazyFunction interner filter true (frameOf fid))
          (lazySource interner filter true (frameOf fid))
          (positiveEval filter fid
            (lazyFunction interner filter true (frameOf fid))
            (lazySource interner filter true (frameOf fid))
            { st with positive_matched := false })
          (fun h => lazyFunction_negSome interner filter (frameOf fid) true h)
          (fun h => lazySource_negSome interner filter (frameOf fid) true h)
          (by rw [heval]; exact hnc)
          (by rw [heval]; exact hneg)
        rw [hstep]
        refine ⟨?_, s1, fun hbrk => Or.inl (s2 ▸ hbrk), fun hbrk => s2 ▸ hbrk,
          ?_, s3⟩
        · rw [s4, heval]; simp [hpm']
        · rw [s5, heval]
          exact CacheOk.insert hpc rfl
      · have hcn' : (filter.negative_function_regex.isSome
            || filter.negative_source_regex.isSome) = false := by
          simpa using hcn
        have hstep : matchStep interner filter fid (frameOf fid) st
            = (positiveEval filter fid
                (lazyFunction interner filter true (frameOf fid))
                (lazySource interner filter true (frameOf fid))
                { st with positive_matched := false }, false) := by
          simp [matchStep, hpl, hcn']
        rw [hstep, heval]
        refine ⟨by simp [hpm'], ?_, fun hbrk => Bool.noConfusion hbrk,
          fun _ => hneg, CacheOk.insert hpc rfl, hnc⟩
        show st.negative_matched = _
        rw [hneg, frameNegative_eq_false interner filter _ hcn']
    · have hb := hpc fid b hplk
      have hpl : positiveLookup st fid = (b, false) := by
        simp [positiveLookup, hpm', hplk]
      by_cases hcn : (filter.negative_function_regex.isSome
          || filter.negative_source_regex.isSome) = true
      · have hstep : matchStep interner filter fid (frameOf fid) st
            = negativeCheck filter fid
                (lazyFunction interner filter false (frameOf fid))
                (lazySource interner filter false (frameOf fid))
                { st with positive_matched := b } := by
          simp [matchStep, hpl, hcn]
        obtain ⟨s1, s2, s3, s4, s5⟩ := negativeCheck_spec interner filter
          frameOf fid (lazyFunction interner filter false (frameOf fid))
          (lazySource interner filter false (frameOf fid))
          { st with positive_matched := b }
          (fun h => lazyFunction_negSome interner filter (frameOf fid) false h)
          (fun h => lazySource_negSome interner filter (frameOf fid) false h)
          hnc hneg
        rw [hstep]
        refine ⟨?_, s1, fun hbrk => Or.inl (s2 ▸ hbrk), fun hbrk => s2 ▸ hbrk,
          ?_, s3⟩
        · rw [s4]; simp [hpm', ← hb]
        · rw [s5]; exact hpc
      · have hcn' : (filter.negative_function_regex.isSome
            || filter.negative_source_regex.isSome) = false := by
          simpa using hcn
        cases b
        · have hstep : matchStep interner filter fid (frameOf fid) st
              = ({ st with positive_matched := false }, false) := by
            simp [matchStep, hpl, hcn']
          rw [hstep]
          refine ⟨by simp [hpm', ← hb], ?_, fun hbrk => Bool.noConfusion hbrk,
            fun _ => hneg, hpc, hnc⟩
          show st.negative_matched = _
          rw [hneg, frameNegative_eq_false interner filter _ hcn']
        · have hstep : matchStep interner filter fid (frameOf fid) st
              = ({ st with positive_matched := true }, true) := by
            simp [matchStep, hpl, hcn']
          rw [hstep]
          refine ⟨by simp [hpm', ← hb], ?_, fun _ => Or.inr ⟨hcn', rfl⟩,
            fun hbrk => Bool.noConfusion hbrk, hpc, hnc⟩
          show st.negative_matched = _
          rw [hneg, frameNegative_eq_false interner filter _ hcn']

/-- The frame loop computes the declarative verdict (positive hit accumulated
over the frames, no negative hit anywhere) and keeps both caches
consistent. -/
theorem matchLoop_spec (interner : Nat → String) (filter : BacktraceFilter)
    (frameOf : Nat → Frame) :
    ∀ (frames : List (Nat × Frame)) (st : MatchState),
    (∀ p ∈ frames, p.2 = frameOf p.1) →
    PosCacheOk interner filter frameOf st.positive_cache →
    NegCacheOk interner filter frameOf st.negative_cache →
    st.negative_matched = false →
    ((matchLoop interner filter frames st).result
      = ((st.positive_matched
          || frames.any (fun p => framePositive interner filter p.2))
        && !(frames.any (fun p => frameNegative interner filter p.2)))) ∧
    PosCacheOk interner filter frameOf
      (matchLoop interner filter frames st).positive_cache ∧
    NegCacheOk interner filter frameOf
      (matchLoop interner filter frames st).negative_cache := by
  intro frames
  induction frames with
  | nil =>
    intro st _ hpc hnc hneg
    refine ⟨?_, hpc, hnc⟩
    simp [matchLoop, MatchState.result, hneg]
  | cons p rest ih =>
    intro st hframes hpc hnc hneg
    obtain ⟨fid, fr⟩ := p
    have hfr : fr = frameOf fid := hframes (fid, fr) (by simp)
    obtain ⟨m1, m2, m3, m4, m5, m6⟩ :=
      matchStep_spec interner filter frameOf fid fr st hfr hpc hnc hneg
    rcases hms : matchStep interner filter fid fr st with ⟨s', brk⟩
    rw [hms] at m1 m2 m3 m4 m5 m6
    dsimp only at m1 m2 m3 m4 m5 m6
    rw [matchLoop, hms]
    dsimp only
    cases brk
    · have hneg' : s'.negative_matched = false := m4 rfl
      obtain ⟨r1, r2, r3⟩ := ih s' (fun q hq => hframes q (by simp [hq]))
        m5 m6 hneg'
      have hfneg : frameNegative interner filter fr = false :=
        m2.symm.trans hneg'
      refine ⟨?_, r2, r3⟩
      rw [if_neg (by simp), r1, m1]
      simp [List.any_cons, hfneg, Bool.or_assoc]
    · rw [if_pos rfl]
      rcases m3 rfl with hnegT | ⟨hcnF, hposT⟩
      · refine ⟨?_, m5, m6⟩
        have hfr' : frameNegative interner filter fr = true :=
          m2.symm.trans hnegT
        rw [MatchState.result, hnegT]
        simp [List.any_cons, hfr']
      · refine ⟨?_, m5, m6⟩
        have hfneg := frameNegative_eq_false interner filter fr hcnF
        have hanyneg :
            rest.any (fun p => frameNegative interner filter p.2) = false := by
          rw [List.any_eq_false]
          intro x _
          simp [frameNegative_eq_false interner filter x.2 hcnF]
        have hpos : (st.positive_matched
            || framePositive interner filter fr) = true := m1 ▸ hposT
        rw [MatchState.result, hposT, m2, hfneg]
        simp only [List.any_cons, hanyneg, hfneg, Bool.false_or,
          Bool.or_false, Bool.not_false, Bool.and_true, Bool.true_and]
        rw [← Bool.or_assoc, hpos, Bool.true_or]

/-- `match_backtrace` computes: depth in range, positive condition (vacuous
with no positive regex, else some frame passes both positive regexes), and no
frame matches a negative regex; the shared caches stay consistent. -/
theorem match_backtrace_spec (interner : Nat → String)
    (filter : BacktraceFilter) (frameOf : Nat → Frame) (st : MatchState)
    (backtrace : List (Nat × Frame))
    (hframes : ∀ p ∈ backtrace, p.2 = frameOf p.1)
    (hpc : PosCacheOk interner filter frameOf st.positive_cache)
    (hnc : NegCacheOk interner filter frameOf st.negative_cache) :
    ((match_backtrace interner filter st backtrace).result
      = (decide (filter.backtrace_depth_min ≤ backtrace.length)
        && decide (backtrace.length ≤ filter.backtrace_depth_max)
        && ((filter.function_regex.isNone && filter.source_regex.isNone)
            || backtrace.any (fun p => framePositive interner filter p.2))
        && !(backtrace.any (fun p => frameNegative interner filter p.2)))) ∧
    PosCacheOk interner filter frameOf
      (match_backtrace interner filter st backtrace).positive_cache ∧
    NegCacheOk interner filter frameOf
      (match_backtrace interner filter st backtrace).negative_cache := by
  rw [match_backtrace]
  split
  · rename_i hdepth
    refine ⟨?_, hpc, hnc⟩
    rcases hdepth with h | h
    · simp [MatchState.result, Nat.not_le.mpr h]
    · simp [MatchState.result, Nat.not_le.mpr h]
  · rename_i hdepth
    push_neg at hdepth
    obtain ⟨r1, r2, r3⟩ := matchLoop_spec interner filter frameOf backtrace
      { st with
          positive_matched :=
            filter.function_regex.isNone && filter.source_regex.isNone
        , negative_matched := false }
      hframes hpc hnc rfl
    refine ⟨?_, r2, r3⟩
    rw [r1]
    simp [hdepth.1, hdepth.2]

/-- An empty frame cache is consistent with any verdict function. -/
theorem cacheOk_nil (val : Nat → Bool) : CacheOk val [] := by
  intro fid b h
  simp [cacheLookup] at h

/-- **C6.** For every `BacktraceFilter` and frame sequence (with consistent
shared caches), `match_backtrace` returns true iff all three hold: the
sequence length lies within `[backtrace_depth_min, backtrace_depth_max]`
(otherwise rejected immediately), the positive condition holds (vacuously
when no positive regex is set; otherwise some frame satisfies both the
positive function regex and the positive source regex, each treated as
satisfied when unset — see `framePositive`), and no frame matches any
negative regex. -/
theorem C6_match_backtrace_characterization (interner : Nat → String)
    (filter : BacktraceFilter) (frameOf : Nat → Frame) (st : MatchState)
    (backtrace : List (Nat × Frame))
    (hframes : ∀ p ∈ backtrace, p.2 = frameOf p.1)
    (hpc : PosCacheOk interner filter frameOf st.positive_cache)
    (hnc : NegCacheOk interner filter frameOf st.negative_cache) :
    (match_backtrace interner filter st backtrace).result
      = (decide (filter.backtrace_depth_min ≤ backtrace.length)
        && decide (backtrace.length ≤ filter.backtrace_depth_max)
        && ((filter.function_regex.isNone && filter.source_regex.isNone)
            || backtrace.any (fun p => framePositive interner filter p.2))
        && !(backtrace.any (fun p => frameNegative interner filter p.2))) :=
  (match_backtrace_spec interner filter frameOf st backtrace hframes hpc hnc).1

/-- Witness for C6 at a concrete filter, interner and backtrace. -/
theorem C6_match_backtrace_characterization_witness :
    (match_backtrace witInterner witFilter initialMatchState witBacktrace).result
      = (decide (witFilter.backtrace_depth_min ≤ witBacktrace.length)
        && decide (witBacktrace.length ≤ witFilter.backtrace_depth_max)
        && ((witFilter.function_regex.isNone && witFilter.source_regex.isNone)
            || witBacktrace.any (fun p => framePositive witInterner witFilter p.2))
        && !(witBacktrace.any (fun p => frameNegative witInterner witFilter p.2))) :=
  C6_match_backtrace_characterization witInterner witFilter witFrameOf
    initialMatchState witBacktrace (by decide) (cacheOk_nil _) (cacheOk_nil _)

/-- **C10.** In `match_backtrace`, a frame whose function name is unresolved
(neither `function` nor `raw_function` present) never satisfies a set
positive function regex and never matches a negative function regex, and
likewise a frame with no source path for the source regexes; hence when
`function_regex` is set, a backtrace all of whose frames lack function names
is rejected even if the regex matches every string. -/
theorem C10_unresolved_frames (interner : Nat → String)
    (filter : BacktraceFilter) (frameOf : Nat → Frame) (st : MatchState)
    (backtrace : List (Nat × Frame))
    (hframes : ∀ p ∈ backtrace, p.2 = frameOf p.1)
    (hpc : PosCacheOk interner filter frameOf st.positive_cache)
    (hnc : NegCacheOk interner filter frameOf st.negative_cache) :
    (∀ fr : Frame, fr.function = none → fr.rawFunction = none →
      (filter.function_regex.isSome = true →
        framePositive interner filter fr = false) ∧
      frameNegativeFn interner filter fr = false) ∧
    (∀ fr : Frame, fr.source = none →
      (filter.source_regex.isSome = true →
        framePositive interner filter fr = false) ∧
      frameNegativeSrc interner filter fr = false) ∧
    (filter.function_regex.isSome = true →
      (∀ p ∈ backtrace, p.2.function = none ∧ p.2.rawFunction = none) →
      (match_backtrace interner filter st backtrace).result = false) := by
  have hfr1 : ∀ fr : Frame, fr.function = none → fr.rawFunction = none →
      (filter.function_regex.isSome = true →
        framePositive interner filter fr = false) ∧
      frameNegativeFn interner filter fr = false := by
    intro fr h1 h2
    have hor : fr.function.or fr.rawFunction = none := by rw [h1, h2]; rfl
    constructor
    · intro hset
      rcases hf : filter.function_regex with _ | regex
      · rw [hf] at hset; simp at hset
      · simp [framePositive, hf, hor]
    · rcases hnf : filter.negative_function_regex with _ | regex <;>
        simp [frameNegativeFn, hnf, hor]
  refine ⟨hfr1, ?_, ?_⟩
  · intro fr h1
    constructor
    · intro hset
      rcases hs : filter.source_regex with _ | regex
      · rw [hs] at hset; simp at hset
      · simp [framePositive, hs, h1]
    · rcases hns : filter.negative_source_regex with _ | regex <;>
        simp [frameNegativeSrc, hns, h1]
  · intro hset hall
    have hchar :=
      (match_backtrace_spec interner filter frameOf st backtrace hframes hpc hnc).1
    rw [hchar]
    have hvac : (filter.function_regex.isNone
        && filter.source_regex.isNone) = false := by
      rcases hf : filter.function_regex with _ | r
      · rw [hf] at hset; simp at hset
      · simp [hf]
    have hany : backtrace.any
        (fun p => framePositive interner filter p.2) = false := by
      rw [List.any_eq_false]
      intro p hp
      have hp2 := hall p hp
      simp [(hfr1 p.2 hp2.1 hp2.2).1 hset]
    rw [hvac, hany]
    simp

/-- Witness for C10 at a concrete filter whose positive function regex
matches every string, over a backtrace with no resolved function names. -/
theorem C10_unresolved_frames_witness :
    (∀ fr : Frame, fr.function = none → fr.rawFunction = none →
      (witFilter10.function_regex.isSome = true →
        framePositive witInterner witFilter10 fr = false) ∧
      frameNegativeFn witInterner witFilter10 fr = false) ∧
    (∀ fr : Frame, fr.source = none →
      (witFilter10.source_regex.isSome = true →
        framePositive witInterner witFilter10 fr = false) ∧
      frameNegativeSrc witInterner witFilter10 fr = false) ∧
    (witFilter10.function_regex.isSome = true →
      (∀ p ∈ witBacktrace10, p.2.function = none ∧ p.2.rawFunction = none) →
      (match_backtrace witInterner witFilter10 initialMatchState
        witBacktrace10).result = false) :=
  C10_unresolved_frames witInterner witFilter10 witFrameOf10
    initialMatchState witBacktrace10 (by decide) (cacheOk_nil _) (cacheOk_nil _)

/-- The negative block touches nothing on the positive side, and touches the
negative cache and counters only on a cache miss: one new entry and at most
one call per negative regex. -/
theorem negativeCheck_count (interner : Nat → String)
    (filter : BacktraceFilter) (fr : Frame) (fid : Nat) (cp : Bool)
    (st' : MatchState) :
    (negativeCheck filter fid (lazyFunction interner filter cp fr)
        (lazySource interner filter cp fr) st').1.positive_matched
      = st'.positive_matched ∧
    (negativeCheck filter fid (lazyFunction interner filter cp fr)
        (lazySource interner filter cp fr) st').1.positive_cache
      = st'.positive_cache ∧
    (negativeCheck filter fid (lazyFunction interner filter cp fr)
        (lazySource interner filter cp fr) st').1.posFnCalls
      = st'.posFnCalls ∧
    (negativeCheck filter fid (lazyFunction interner filter cp fr)
        (lazySource interner filter cp fr) st').1.posSrcCalls
      = st'.posSrcCalls ∧
    (((negativeCheck filter fid (lazyFunction interner filter cp fr)
          (lazySource interner filter cp fr) st').1.negative_cache
        = st'.negative_cache ∧
      (negativeCheck filter fid (lazyFunction interner filter cp fr)
          (lazySource interner filter cp fr) st').1.negFnCalls
        = st'.negFnCalls ∧
      (negativeCheck filter fid (lazyFunction interner filter cp fr)
          (lazySource interner filter cp fr) st').1.negSrcCalls
        = st'.negSrcCalls)
     ∨ (cacheLookup st'.negative_cache fid = none ∧
        (∃ b, (negativeCheck filter fid (lazyFunction interner filter cp fr)
            (lazySource interner filter cp fr) st').1.negative_cache
          = cacheInsert st'.negative_cache fid b) ∧
        (negativeCheck filter fid (lazyFunction interner filter cp fr)
            (lazySource interner filter cp fr) st').1.negFnCalls
          ≤ st'.negFnCalls + 1 ∧
        (negativeCheck filter fid (lazyFunction interner filter cp fr)
            (lazySource interner filter cp fr) st').1.negSrcCalls
          ≤ st'.negSrcCalls + 1)) := by
  rcases hlk : cacheLookup st'.negative_cache fid with _ | b
  · obtain ⟨k₁, k₂, hk₁, hk₂, heq⟩ := negativeCheck_miss interner filter fr fid
      (lazyFunction interner filter cp fr) (lazySource interner filter cp fr)
      st' hlk
      (fun h => lazyFunction_negSome interner filter fr cp h)
      (fun h => lazySource_negSome interner filter fr cp h)
    rw [heq]
    refine ⟨rfl, rfl, rfl, rfl,
      Or.inr ⟨rfl, ⟨frameNegative interner filter fr, rfl⟩, ?_, ?_⟩⟩ <;>
      dsimp only <;> omega
  · have hhit := negativeCheck_hit filter fid
      (lazyFunction interner filter cp fr) (lazySource interner filter cp fr)
      st' b hlk
    cases b
    · rw [if_neg (by simp)] at hhit
      rw [hhit]
      exact ⟨rfl, rfl, rfl, rfl, Or.inl ⟨rfl, rfl, rfl⟩⟩
    · rw [if_pos rfl] at hhit
      rw [hhit]
      exact ⟨rfl, rfl, rfl, rfl, Or.inl ⟨rfl, rfl, rfl⟩⟩

/-- One loop iteration touches each cache only by inserting at a previously
unseen frame id, with at most one call per regex per insertion. -/
theorem matchStep_count (interner : Nat → String) (filter : BacktraceFilter)
    (fid : Nat) (fr : Frame) (st : MatchState) :
    (((matchStep interner filter fid fr st).1.positive_cache
        = st.positive_cache ∧
      (matchStep interner filter fid fr st).1.posFnCalls = st.posFnCalls ∧
      (matchStep interner filter fid fr st).1.posSrcCalls = st.posSrcCalls)
     ∨ (cacheLookup st.positive_cache fid = none ∧
        (∃ b, (matchStep interner filter fid fr st).1.positive_cache
          = cacheInsert st.positive_cache fid b) ∧
        (matchStep interner filter fid fr st).1.posFnCalls
          ≤ st.posFnCalls + 1 ∧
        (matchStep interner filter fid fr st).1.posSrcCalls
          ≤ st.posSrcCalls + 1)) ∧
    (((matchStep interner filter fid fr st).1.negative_cache
        = st.negative_cache ∧
      (matchStep interner filter fid fr st).1.negFnCalls = st.negFnCalls ∧
      (matchStep interner filter fid fr st).1.negSrcCalls = st.negSrcCalls)
     ∨ (cacheLookup st.negative_cache fid = none ∧
        (∃ b, (matchStep interner filter fid fr st).1.negative_cache
          = cacheInsert st.negative_cache fid b) ∧
        (matchStep interner filter fid fr st).1.negFnCalls
          ≤ st.negFnCalls + 1 ∧
        (matchStep interner filter fid fr st).1.negSrcCalls
          ≤ st.negSrcCalls + 1)) := by
  by_cases hpm : st.positive_matched = true
  · have hpl : positiveLookup st fid = (true, false) := by
      simp [positiveLookup, hpm]
    by_cases hcn : (filter.negative_function_regex.isSome
        || filter.negative_source_regex.isSome) = true
    · have hstep : matchStep interner filter fid fr st
          = negativeCheck filter fid (lazyFunction interner filter false fr)
              (lazySource interner filter false fr)
              { st with positive_matched := true } := by
        simp [matchStep, hpl, hcn]
      obtain ⟨c1, c2, c3, c4, c5⟩ := negativeCheck_count interner filter fr fid
        false { st with positive_matched := true }
      rw [hstep]
      exact ⟨Or.inl ⟨c2, c3, c4⟩, c5⟩
    · have hcn' : (filter.negative_function_regex.isSome
          || filter.negative_source_regex.isSome) = false := by simpa using hcn
      have hstep : matchStep interner filter fid fr st
          = ({ st with positive_matched := true }, true) := by
        simp [matchStep, hpl, hcn']
      rw [hstep]
      exact ⟨Or.inl ⟨rfl, rfl, rfl⟩, Or.inl ⟨rfl, rfl, rfl⟩⟩
  · have hpm' : st.positive_matched = false := by simpa using hpm
    rcases hplk : cacheLookup st.positive_cache fid with _ | b
    · have hpl : positiveLookup st fid = (false, true) := by
        simp [positiveLookup, hpm', hplk]
      have heval := positiveEval_spec interner filter fr fid
        (lazyFunction interner filter true fr)
        (lazySource interner filter true fr)
        { st with positive_matched := false }
        (fun h => lazyFunction_posSome interner filter fr h)
        (fun h => lazySource_posSome interner filter fr h)
      by_cases hcn : (filter.negative_function_regex.isSome
          || filter.negative_source_regex.isSome) = true
      · have hstep : matchStep interner filter fid fr st
            = negativeCheck filter fid (lazyFunction interner filter true fr)
                (lazySource interner filter true fr)
                (positiveEval filter fid
                  (lazyFunction interner filter true fr)
                  (lazySource interner filter true fr)
                  { st with positive_matched := false }) := by
          simp [matchStep, hpl, hcn]
        rw [hstep, heval]
        obtain ⟨c1, c2, c3, c4, c5⟩ := negativeCheck_count interner filter fr
          fid true
          { st with positive_matched := framePositive interner filter fr
                  , positive_cache := cacheInsert st.positive_cache fid
                      (framePositive interner filter fr)
                  , posFnCalls := st.posFnCalls +
                      (if filter.function_regex.isSome &&
                        (lazyFunction interner filter true fr).isSome
                       then 1 else 0)
                  , posSrcCalls := st.posSrcCalls +
                      (if filter.source_regex.isSome &&
                        (lazySource interner filter true fr).isSome
                       then 1 else 0) }
        constructor
        · refine Or.inr ⟨rfl, ⟨framePositive interner filter fr,
            c2.trans rfl⟩, c3.le.trans ?_, c4.le.trans ?_⟩ <;>
            dsimp only <;> split <;> omega
        · rcases c5 with ⟨e1, e2, e3⟩ | ⟨hnone, ⟨bb, hbb⟩, l1, l2⟩
          · exact Or.inl ⟨e1.trans rfl, e2.trans rfl, e3.trans rfl⟩
          · exact Or.inr ⟨hnone, ⟨bb, hbb.trans rfl⟩, l1, l2⟩
      · have hcn' : (filter.negative_function_regex.isSome
            || filter.negative_source_regex.isSome) = false := by
          simpa using hcn
        have hstep : matchStep interner filter fid fr st
            = (positiveEval filter fid (lazyFunction interner filter true fr)
                (lazySource interner filter true fr)
                { st with positive_matched := false }, false) := by
          simp [matchStep, hpl, hcn']
        rw [hstep, heval]
        constructor
        · refine Or.inr ⟨rfl, ⟨framePositive interner filter fr, rfl⟩,
            ?_, ?_⟩ <;> dsimp only <;> split <;> omega
        · exact Or.inl ⟨rfl, rfl, rfl⟩
    · have hpl : positiveLookup st fid = (b, false) := by
        simp [positiveLookup, hpm', hplk]
      by_cases hcn : (filter.negative_function_regex.isSome
          || filter.negative_source_regex.isSome) = true
      · have hstep : matchStep interner filter fid fr st
            = negativeCheck filter fid (lazyFunction interner filter false fr)
                (lazySource interner filter false fr)
                { st with positive_matched := b } := by
          simp [matchStep, hpl, hcn]
        obtain ⟨c1, c2, c3, c4, c5⟩ := negativeCheck_count interner filter fr
          fid false { st with positive_matched := b }
        rw [hstep]
        exact ⟨Or.inl ⟨c2, c3, c4⟩, c5⟩
      · have hcn' : (filter.negative_function_regex.isSome
            || filter.negative_source_regex.isSome) = false := by
          simpa using hcn
        cases b
        · have hstep : matchStep interner filter fid fr st
              = ({ st with positive_matched := false }, false) := by
            simp [matchStep, hpl, hcn']
          rw [hstep]
          exact ⟨Or.inl ⟨rfl, rfl, rfl⟩, Or.inl ⟨rfl, rfl, rfl⟩⟩
        · have hstep : matchStep interner filter fid fr st
              = ({ st with positive_matched := true }, true) := by
            simp [matchStep, hpl, hcn']
          rw [hstep]
          exact ⟨Or.inl ⟨rfl, rfl, rfl⟩, Or.inl ⟨rfl, rfl, rfl⟩⟩

theorem cacheInsert_length (c : FrameCache) (fid : Nat) (b : Bool) :
    (cacheInsert c fid b).length = c.length + 1 := rfl

theorem cacheInsert_keys (c : FrameCache) (fid : Nat) (b : Bool) :
    (cacheInsert c fid b).map Prod.fst = fid :: c.map Prod.fst := rfl

/-- One loop iteration preserves the counter bounds and the key bounds. -/
theorem matchStep_countOk (interner : Nat → String) (filter : BacktraceFilter)
    (fid : Nat) (fr : Frame) (st : MatchState) (fids : List Nat)
    (hc : CountOk st) (hk : KeysBound fids st) (hfid : fid ∈ fids) :
    CountOk (matchStep interner filter fid fr st).1 ∧
    KeysBound fids (matchStep interner filter fid fr st).1 := by
  obtain ⟨hA, hB⟩ := matchStep_count interner filter fid fr st
  obtain ⟨hc1, hc2, hc3, hc4⟩ := hc
  obtain ⟨hk1, hk2, hk3, hk4⟩ := hk
  have hApc : ∀ P : FrameCache → Prop, P st.positive_cache →
      (∀ b, cacheLookup st.positive_cache fid = none →
        P (cacheInsert st.positive_cache fid b)) →
      P (matchStep interner filter fid fr st).1.positive_cache := by
    intro P hbase hstepc
    rcases hA with ⟨e1, _, _⟩ | ⟨hnone, ⟨b, hins⟩, _, _⟩
    · rw [e1]; exact hbase
    · rw [hins]; exact hstepc b hnone
  have hBnc : ∀ P : FrameCache → Prop, P st.negative_cache →
      (∀ b, cacheLookup st.negative_cache fid = none →
        P (cacheInsert st.negative_cache fid b)) →
      P (matchStep interner filter fid fr st).1.negative_cache := by
    intro P hbase hstepc
    rcases hB with ⟨e1, _, _⟩ | ⟨hnone, ⟨b, hins⟩, _, _⟩
    · rw [e1]; exact hbase
    · rw [hins]; exact hstepc b hnone
  constructor
  · refine ⟨?_, ?_, ?_, ?_⟩
    · rcases hA with ⟨e1, e2, _⟩ | ⟨_, ⟨b, hins⟩, l1, _⟩
      · rw [e1, e2]; exact hc1
      · rw [hins, cacheInsert_length]; omega
    · rcases hA with ⟨e1, _, e3⟩ | ⟨_, ⟨b, hins⟩, _, l2⟩
      · rw [e1, e3]; exact hc2
      · rw [hins, cacheInsert_length]; omega
    · rcases hB with ⟨e1, e2, _⟩ | ⟨_, ⟨b, hins⟩, l1, _⟩
      · rw [e1, e2]; exact hc3
      · rw [hins, cacheInsert_length]; omega
    · rcases hB with ⟨e1, _, e3⟩ | ⟨_, ⟨b, hins⟩, _, l2⟩
      · rw [e1, e3]; exact hc4
      · rw [hins, cacheInsert_length]; omega
  · refine ⟨?_, ?_, ?_, ?_⟩
    · refine hApc (fun c => (c.map Prod.fst).Nodup) hk1 ?_
      intro b hnone
      rw [cacheInsert_keys]
      exact List.nodup_cons.mpr ⟨(cacheLookup_eq_none_iff _ _).mp hnone, hk1⟩
    · refine hBnc (fun c => (c.map Prod.fst).Nodup) hk2 ?_
      intro b hnone
      rw [cacheInsert_keys]
      exact List.nodup_cons.mpr ⟨(cacheLookup_eq_none_iff _ _).mp hnone, hk2⟩
    · refine hApc (fun c => ∀ k ∈ c.map Prod.fst, k ∈ fids) hk3 ?_
      intro b _
      rw [cacheInsert_keys]
      intro k hkk
      rcases List.mem_cons.mp hkk with heq | hmem
      · exact heq ▸ hfid
      · exact hk3 k hmem
    · refine hBnc (fun c => ∀ k ∈ c.map Prod.fst, k ∈ fids) hk4 ?_
      intro b _
      rw [cacheInsert_keys]
      intro k hkk
      rcases List.mem_cons.mp hkk with heq | hmem
      · exact heq ▸ hfid
      · exact hk4 k hmem

/-- The frame loop preserves the counter and key bounds. -/
theorem matchLoop_countOk (interner : Nat → String) (filter : BacktraceFilter) :
    ∀ (frames : List (Nat × Frame)) (st : MatchState) (fids : List Nat),
    CountOk st → KeysBound fids st → (∀ p ∈ frames, p.1 ∈ fids) →
    CountOk (matchLoop interner filter frames st) ∧
    KeysBound fids (matchLoop interner filter frames st) := by
  intro frames
  induction frames with
  | nil =>
    intro st fids hc hk _
    exact ⟨hc, hk⟩
  | cons p rest ih =>
    intro st fids hc hk hmem
    obtain ⟨fid, fr⟩ := p
    obtain ⟨hc', hk'⟩ := matchStep_countOk interner filter fid fr st fids hc hk
      (hmem (fid, fr) (by simp))
    rcases hms : matchStep interner filter fid fr st with ⟨s', brk⟩
    rw [hms] at hc' hk'
    rw [matchLoop, hms]
    dsimp only
    cases brk
    · rw [if_neg (by simp)]
      exact ih s' fids hc' hk' (fun q hq => hmem q (by simp [hq]))
    · rw [if_pos rfl]
      exact ⟨hc', hk'⟩

/-- `match_backtrace` preserves the counter and key bounds. -/
theorem match_backtrace_countOk (interner : Nat → String)
    (filter : BacktraceFilter) (st : MatchState)
    (bt : List (Nat × Frame)) (fids : List Nat)
    (hc : CountOk st) (hk : KeysBound fids st)
    (hmem : ∀ p ∈ bt, p.1 ∈ fids) :
    CountOk (match_backtrace interner filter st bt) ∧
    KeysBound fids (match_backtrace interner filter st bt) := by
  rw [match_backtrace]
  split
  · exact ⟨hc, hk⟩
  · exact matchLoop_countOk interner filter bt _ fids hc hk hmem

/-- A request-long fold of `match_backtrace` preserves the bounds. -/
theorem runRequest_aux (interner : Nat → String) (filter : BacktraceFilter) :
    ∀ (bts : List (List (Nat × Frame))) (st : MatchState) (fids : List Nat),
    CountOk st → KeysBound fids st →
    (∀ bt ∈ bts, ∀ p ∈ bt, p.1 ∈ fids) →
    CountOk (bts.foldl (fun s bt => match_backtrace interner filter s bt) st) ∧
    KeysBound fids
      (bts.foldl (fun s bt => match_backtrace interner filter s bt) st) := by
  intro bts
  induction bts with
  | nil => intro st fids hc hk _; exact ⟨hc, hk⟩
  | cons bt rest ih =>
    intro st fids hc hk hmem
    obtain ⟨hc', hk'⟩ := match_backtrace_countOk interner filter st bt fids
      hc hk (hmem bt (by simp))
    exact ih _ fids hc' hk' (fun b hb p hp => hmem b (by simp [hb]) p hp)

theorem mem_allFids :
    ∀ (bts : List (List (Nat × Frame))), ∀ bt ∈ bts, ∀ p ∈ bt,
    p.1 ∈ allFids bts := by
  intro bts
  induction bts with
  | nil => intro bt hbt; cases hbt
  | cons bt' rest ih =>
    intro bt hbt p hp
    show p.1 ∈ bt'.map Prod.fst ++ allFids rest
    rcases List.mem_cons.mp hbt with heq | hmem
    · subst heq
      exact List.mem_append_left _ (List.mem_map_of_mem Prod.fst hp)
    · exact List.mem_append_right _ (ih bt hmem p hp)

theorem nodup_subset_length_le (l fids : List Nat) (hN : l.Nodup)
    (hsub : ∀ x ∈ l, x ∈ fids) : l.length ≤ fids.dedup.length := by
  have h1 : l.toFinset.card = l.length := List.toFinset_card_of_nodup hN
  have h2 : fids.toFinset.card = fids.dedup.length := List.card_toFinset fids
  have h3 : l.toFinset ⊆ fids.toFinset := by
    intro x hx
    rw [List.mem_toFinset] at hx ⊢
    exact hsub x hx
  calc l.length = l.toFinset.card := h1.symm
    _ ≤ fids.toFinset.card := Finset.card_le_card h3
    _ = fids.dedup.length := h2

/-- **C7 (amended).** Within one request (one shared pair of
`FrameId`-indexed caches passed across all `match_backtrace` calls), each of
the four compiled regexes is evaluated at most once per unique `FrameId`:
each per-regex call counter is bounded by the number of distinct frame ids in
the scanned set.  The *total* number of evaluations is therefore bounded by
(number of set regexes) × unique frame count, not by the unique frame count
itself. -/
theorem C7_regex_memoization (interner : Nat → String)
    (filter : BacktraceFilter) (backtraces : List (List (Nat × Frame))) :
    (runRequest interner filter backtraces).posFnCalls
      ≤ (allFids backtraces).dedup.length ∧
    (runRequest interner filter backtraces).posSrcCalls
      ≤ (allFids backtraces).dedup.length ∧
    (runRequest interner filter backtraces).negFnCalls
      ≤ (allFids backtraces).dedup.length ∧
    (runRequest interner filter backtraces).negSrcCalls
      ≤ (allFids backtraces).dedup.length := by
  obtain ⟨hc, hk⟩ := runRequest_aux interner filter backtraces
    initialMatchState (allFids backtraces)
    ⟨Nat.le.refl, Nat.le.refl, Nat.le.refl, Nat.le.refl⟩
    ⟨List.nodup_nil, List.nodup_nil, by simp [initialMatchState],
      by simp [initialMatchState]⟩
    (mem_allFids backtraces)
  have hpos := nodup_subset_length_le
    ((runRequest interner filter backtraces).positive_cache.map Prod.fst)
    (allFids backtraces) hk.1 hk.2.2.1
  have hneg := nodup_subset_length_le
    ((runRequest interner filter backtraces).negative_cache.map Prod.fst)
    (allFids backtraces) hk.2.1 hk.2.2.2
  rw [List.length_map] at hpos hneg
  exact ⟨hc.1.trans hpos, hc.2.1.trans hpos, hc.2.2.1.trans hneg,
    hc.2.2.2.trans hneg⟩

/-- **C7 counterexample.** One backtrace with a single frame (one unique
`FrameId`) and a filter with both positive regexes set: the request performs
two regex evaluations, exceeding the claimed bound of one (the number of
unique `FrameId`s in the scanned set). -/
theorem C7_regex_memoization_cex :
    (runRequest (fun _ => "s") cexFilter cexBacktraces).posFnCalls
      + (runRequest (fun _ => "s") cexFilter cexBacktraces).posSrcCalls
      + (runRequest (fun _ => "s") cexFilter cexBacktraces).negFnCalls
      + (runRequest (fun _ => "s") cexFilter cexBacktraces).negSrcCalls = 2 ∧
    (allFids cexBacktraces).dedup.length = 1 := by
  constructor
  · rfl
  · rfl

/-! ### Fragmentation timeline lemmas -/

theorem u64add_eq {a b : Nat} (h : a + b < 2 ^ 64) : u64add a b = a + b := by
  unfold u64add
  exact Nat.mod_eq_of_lt h

theorem u64sub_eq {a b : Nat} (hb : b ≤ a) (ha : a < 2 ^ 64) :
    u64sub a b = a - b := by
  unfold u64sub
  have h : a + 2 ^ 64 - b = (a - b) + 2 ^ 64 := by omega
  rw [h, Nat.add_mod_right, Nat.mod_eq_of_lt (by omega)]

theorem sumLens_nil : sumLens [] = 0 := rfl

theorem sumLens_cons (r : Nat × Nat) (l : List (Nat × Nat)) :
    sumLens (r :: l) = (r.2 - r.1) + sumLens l := rfl

theorem sumLens_append (l₁ l₂ : List (Nat × Nat)) :
    sumLens (l₁ ++ l₂) = sumLens l₁ + sumLens l₂ := by
  induction l₁ with
  | nil => simp [sumLens_nil]
  | cons r rest ih => rw [List.cons_append, sumLens_cons, sumLens_cons, ih]; omega

theorem sumLens_perm {l₁ l₂ : List (Nat × Nat)} (h : l₁.Perm l₂) :
    sumLens l₁ = sumLens l₂ := by
  induction h with
  | nil => rfl
  | cons x _ ih => rw [sumLens_cons, sumLens_cons, ih]
  | swap x y l => rw [sumLens_cons, sumLens_cons, sumLens_cons, sumLens_cons]; omega
  | trans _ _ ih₁ ih₂ => rw [ih₁, ih₂]

theorem minStart_nil : minStart [] = u64Max := rfl

theorem minStart_cons (r : Nat × Nat) (l : List (Nat × Nat)) :
    minStart (r :: l) = Nat.min r.1 (minStart l) := rfl

theorem maxEnd_nil : maxEnd [] = 0 := rfl

theorem maxEnd_cons (r : Nat × Nat) (l : List (Nat × Nat)) :
    maxEnd (r :: l) = Nat.max r.2 (maxEnd l) := rfl

theorem minStart_le {l : List (Nat × Nat)} {r : Nat × Nat} (h : r ∈ l) :
    minStart l ≤ r.1 := by
  induction l with
  | nil => cases h
  | cons s rest ih =>
    rw [minStart_cons]
    rcases List.mem_cons.mp h with h | h
    · subst h; exact Nat.min_le_left _ _
    · exact Nat.le_trans (Nat.min_le_right _ _) (ih h)

theorem maxEnd_ge {l : List (Nat × Nat)} {r : Nat × Nat} (h : r ∈ l) :
    r.2 ≤ maxEnd l := by
  induction l with
  | nil => cases h
  | cons s rest ih =>
    rw [maxEnd_cons]
    rcases List.mem_cons.mp h with h | h
    · subst h; exact Nat.le_max_left _ _
    · exact Nat.le_trans (ih h) (Nat.le_max_right _ _)

theorem minStart_le_u64Max (l : List (Nat × Nat)) : minStart l ≤ u64Max := by
  induction l with
  | nil => exact Nat.le_refl _
  | cons r rest ih =>
    rw [minStart_cons]
    exact Nat.le_trans (Nat.min_le_right _ _) ih

theorem minStart_attained {l : List (Nat × Nat)} (hne : l ≠ [])
    (hok : ∀ r ∈ l, RangeOk r) : ∃ r ∈ l, minStart l = r.1 := by
  induction l with
  | nil => exact absurd rfl hne
  | cons s rest ih =>
    rcases Decidable.em (rest = []) with hrest | hrest
    · subst hrest
      refine ⟨s, List.mem_cons_self s [], ?_⟩
      obtain ⟨h1, h2⟩ := hok s (List.mem_cons_self s [])
      rw [minStart_cons, minStart_nil]
      exact Nat.min_eq_left (by unfold u64Max; omega)
    · obtain ⟨r, hrmem, hr⟩ := ih hrest (fun q hq => hok q (List.mem_cons_of_mem s hq))
      rcases Nat.le_total s.1 (minStart rest) with hle | hle
      · exact ⟨s, List.mem_cons_self s rest,
          by rw [minStart_cons]; exact Nat.min_eq_left hle⟩
      · refine ⟨r, List.mem_cons_of_mem s hrmem, ?_⟩
        rw [minStart_cons, ← hr]
        exact Nat.min_eq_right hle

theorem maxEnd_attained {l : List (Nat × Nat)} (hne : l ≠ []) :
    ∃ r ∈ l, maxEnd l = r.2 := by
  induction l with
  | nil => exact absurd rfl hne
  | cons s rest ih =>
    rcases Decidable.em (rest = []) with hrest | hrest
    · subst hrest
      exact ⟨s, List.mem_cons_self s [],
        by rw [maxEnd_cons, maxEnd_nil]; exact Nat.max_eq_left (Nat.zero_le _)⟩
    · obtain ⟨r, hrmem, hr⟩ := ih hrest
      rcases Nat.le_total s.2 (maxEnd rest) with hle | hle
      · refine ⟨r, List.mem_cons_of_mem s hrmem, ?_⟩
        rw [maxEnd_cons, ← hr]
        exact Nat.max_eq_right hle
      · exact ⟨s, List.mem_cons_self s rest,
          by rw [maxEnd_cons]; exact Nat.max_eq_left hle⟩

theorem maxEnd_lt (l : List (Nat × Nat)) (hok : ∀ r ∈ l, RangeOk r) :
    maxEnd l < 2 ^ 64 := by
  induction l with
  | nil => rw [maxEnd_nil]; omega
  | cons s rest ih =>
    rw [maxEnd_cons]
    have h1 := (hok s (List.mem_cons_self s rest)).2
    have h2 := ih (fun q hq => hok q (List.mem_cons_of_mem s hq))
    exact Nat.max_lt.mpr ⟨h1, h2⟩

theorem minStart_perm {l₁ l₂ : List (Nat × Nat)} (h : l₁.Perm l₂) :
    minStart l₁ = minStart l₂ := by
  induction h with
  | nil => rfl
  | cons x _ ih => rw [minStart_cons, minStart_cons, ih]
  | swap x y l =>
    rw [minStart_cons, minStart_cons, minStart_cons, minStart_cons]
    exact min_left_comm _ _ _
  | trans _ _ ih₁ ih₂ => rw [ih₁, ih₂]

theorem maxEnd_perm {l₁ l₂ : List (Nat × Nat)} (h : l₁.Perm l₂) :
    maxEnd l₁ = maxEnd l₂ := by
  induction h with
  | nil => rfl
  | cons x _ ih => rw [maxEnd_cons, maxEnd_cons, ih]
  | swap x y l =>
    rw [maxEnd_cons, maxEnd_cons, maxEnd_cons, maxEnd_cons]
    exact max_left_comm _ _ _
  | trans _ _ ih₁ ih₂ => rw [ih₁, ih₂]

theorem rangesDisjoint_symm {r s : Nat × Nat} (h : RangesDisjoint r s) :
    RangesDisjoint s r := h.symm

theorem removeRange_perm {l : List (Nat × Nat)} {r : Nat × Nat} (h : r ∈ l) :
    l.Perm (r :: removeRange l r) := by
  induction l with
  | nil => cases h
  | cons s rest ih =>
    unfold removeRange
    rcases Decidable.em (s = r) with he | he
    · rw [if_pos he, he]
    · rw [if_neg he]
      rcases List.mem_cons.mp h with h' | h'
      · exact absurd h'.symm he
      · exact ((ih h').cons s).trans (List.Perm.swap r s _)

theorem removeRange_subset {l : List (Nat × Nat)} {r q : Nat × Nat}
    (h : q ∈ removeRange l r) : q ∈ l := by
  induction l with
  | nil => exact absurd h (by simp [removeRange])
  | cons s rest ih =>
    unfold removeRange at h
    rcases Decidable.em (s = r) with he | he
    · rw [if_pos he] at h
      exact List.mem_cons_of_mem s h
    · rw [if_neg he] at h
      rcases List.mem_cons.mp h with h' | h'
      · exact h' ▸ List.mem_cons_self s rest
      · exact List.mem_cons_of_mem s (ih h')

theorem mem_removeRange_of_ne {l : List (Nat × Nat)} {r q : Nat × Nat}
    (hne : q ≠ r) (h : q ∈ l) : q ∈ removeRange l r := by
  induction l with
  | nil => cases h
  | cons s rest ih =>
    unfold removeRange
    rcases Decidable.em (s = r) with he | he
    · rw [if_pos he]
      rcases List.mem_cons.mp h with h' | h'
      · exact absurd (h'.trans he) hne
      · exact h'
    · rw [if_neg he]
      rcases List.mem_cons.mp h with h' | h'
      · exact h' ▸ List.mem_cons_self s _
      · exact List.mem_cons_of_mem s (ih h')

theorem removeRange_length {l : List (Nat × Nat)} {r : Nat × Nat} (h : r ∈ l) :
    (removeRange l r).length + 1 = l.length := by
  have := (removeRange_perm h).length_eq
  rw [this, List.length_cons]

theorem wfLive_perm {l₁ l₂ : List (Nat × Nat)} (hp : l₁.Perm l₂)
    (h : WFLive l₁) : WFLive l₂ := by
  obtain ⟨hok, hdis⟩ := h
  exact ⟨fun r hr => hok r (hp.mem_iff.mpr hr),
    (List.Perm.pairwise_iff (fun h => rangesDisjoint_symm h) hp).mp hdis⟩

theorem wfLive_cons {r : Nat × Nat} {l : List (Nat × Nat)}
    (h : WFLive (r :: l)) : WFLive l := by
  obtain ⟨hok, hdis⟩ := h
  exact ⟨fun q hq => hok q (List.mem_cons_of_mem r hq), (List.pairwise_cons.mp hdis).2⟩

/-- Disjoint intervals fit inside their span: the total length plus the
minimum start does not exceed the maximum end. -/
theorem span_bound : ∀ (n : Nat) (l : List (Nat × Nat)), l.length = n →
    WFLive l → l ≠ [] → sumLens l + minStart l ≤ maxEnd l := by
  intro n
  induction n using Nat.strong_induction_on with
  | _ n ih =>
    intro l hlen hwf hne
    obtain ⟨r₀, hr₀mem, hr₀⟩ := minStart_attained hne hwf.1
    have hperm : l.Perm (r₀ :: removeRange l r₀) := removeRange_perm hr₀mem
    have hwfc : WFLive (r₀ :: removeRange l r₀) := wfLive_perm hperm hwf
    have hok₀ : RangeOk r₀ := hwf.1 r₀ hr₀mem
    have hsum : sumLens l = (r₀.2 - r₀.1) + sumLens (removeRange l r₀) := by
      rw [sumLens_perm hperm, sumLens_cons]
    have hmaxp : maxEnd l = Nat.max r₀.2 (maxEnd (removeRange l r₀)) := by
      rw [maxEnd_perm hperm, maxEnd_cons]
    rcases Decidable.em (removeRange l r₀ = []) with hrest | hrest
    · rw [hsum, hrest, sumLens_nil, hmaxp, hrest, maxEnd_nil, hr₀]
      obtain ⟨h1, _⟩ := hok₀
      have hA : r₀.2 ≤ Nat.max r₀.2 0 := Nat.le_max_left _ _
      omega
    · have hlenlt : (removeRange l r₀).length < n := by
        have := removeRange_length hr₀mem
        omega
      have hwfrest : WFLive (removeRange l r₀) := wfLive_cons hwfc
      have hIH := ih _ hlenlt (removeRange l r₀) rfl hwfrest hrest
      have hbeyond : ∀ s ∈ removeRange l r₀, r₀.2 ≤ s.1 := by
        intro s hs
        rcases (List.pairwise_cons.mp hwfc.2).1 s hs with h | h
        · exact h
        · exfalso
          obtain ⟨hs1, _⟩ := hwfrest.1 s hs
          have hmem : s ∈ l := removeRange_subset hs
          have := minStart_le hmem
          rw [hr₀] at this
          omega
      obtain ⟨q, hqmem, hq⟩ := minStart_attained hrest hwfrest.1
      have hmin_rest : r₀.2 ≤ minStart (removeRange l r₀) := by
        rw [hq]; exact hbeyond q hqmem
      obtain ⟨h1, _⟩ := hok₀
      have hB : maxEnd (removeRange l r₀) ≤ Nat.max r₀.2 (maxEnd (removeRange l r₀)) :=
        Nat.le_max_right _ _
      rw [hsum, hr₀, hmaxp]
      omega

theorem mapCount_nil (k : Nat) : mapCount [] k = 0 := rfl

theorem mapCount_cons (p : Nat × Int) (m : List (Nat × Int)) (k : Nat) :
    mapCount (p :: m) k = (if p.1 = k then p.2 else 0) + mapCount m k := rfl

theorem mapCount_perm {m₁ m₂ : List (Nat × Int)} (h : m₁.Perm m₂) (k : Nat) :
    mapCount m₁ k = mapCount m₂ k := by
  induction h with
  | nil => rfl
  | cons x _ ih => rw [mapCount_cons, mapCount_cons, ih]
  | swap x y l =>
    rw [mapCount_cons, mapCount_cons, mapCount_cons, mapCount_cons]; omega
  | trans _ _ ih₁ ih₂ => rw [ih₁, ih₂]

theorem mapCount_eq_zero_of_not_mem {m : List (Nat × Int)} {k : Nat}
    (h : k ∉ m.map Prod.fst) : mapCount m k = 0 := by
  induction m with
  | nil => rfl
  | cons p rest ih =>
    rw [List.map_cons, List.mem_cons] at h
    push_neg at h
    rw [mapCount_cons, if_neg (fun hh => h.1 hh.symm), ih h.2]
    omega

theorem mapCount_mapAdd (m : List (Nat × Int)) (k : Nat) (d : Int) (q : Nat) :
    mapCount (mapAdd m k d) q = mapCount m q + (if k = q then d else 0) := by
  induction m with
  | nil =>
    simp only [mapAdd, mapCount_cons, mapCount_nil]
    split_ifs <;> omega
  | cons p rest ih =>
    obtain ⟨a, c⟩ := p
    simp only [mapAdd]
    by_cases h1 : k < a
    · rw [if_pos h1]
      simp only [mapCount_cons]
      split_ifs <;> omega
    · rw [if_neg h1]
      by_cases h2 : k = a
      · rw [if_pos h2]
        subst h2
        simp only [mapCount_cons]
        split_ifs <;> omega
      · rw [if_neg h2]
        simp only [mapCount_cons, ih]
        split_ifs <;> omega

theorem mapAdd_keys {m : List (Nat × Int)} {k : Nat} {d : Int} :
    ∀ b ∈ (mapAdd m k d).map Prod.fst, b = k ∨ b ∈ m.map Prod.fst := by
  induction m with
  | nil =>
    intro b hb
    simp only [mapAdd, List.map_cons, List.map_nil, List.mem_singleton] at hb
    exact Or.inl hb
  | cons p rest ih =>
    obtain ⟨a, c⟩ := p
    intro b hb
    simp only [mapAdd] at hb
    split_ifs at hb with h1 h2
    · simp only [List.map_cons, List.mem_cons] at hb ⊢
      rcases hb with hb | hb | hb
      · exact Or.inl hb
      · exact Or.inr (Or.inl hb)
      · exact Or.inr (Or.inr hb)
    · simp only [List.map_cons, List.mem_cons] at hb ⊢
      rcases hb with hb | hb
      · exact Or.inr (Or.inl hb)
      · exact Or.inr (Or.inr hb)
    · simp only [List.map_cons, List.mem_cons] at hb ⊢
      rcases hb with hb | hb
      · exact Or.inr (Or.inl hb)
      · rcases ih b hb with hk | hm
        · exact Or.inl hk
        · exact Or.inr (Or.inr hm)

theorem mapAdd_sorted {m : List (Nat × Int)} {k : Nat} {d : Int}
    (h : (m.map Prod.fst).Pairwise (· < ·)) :
    ((mapAdd m k d).map Prod.fst).Pairwise (· < ·) := by
  induction m with
  | nil => simp [mapAdd]
  | cons p rest ih =>
    obtain ⟨a, c⟩ := p
    rw [List.map_cons] at h
    obtain ⟨ha, hrest⟩ := List.pairwise_cons.mp h
    simp only [mapAdd]
    split_ifs with h1 h2
    · simp only [List.map_cons]
      refine List.Pairwise.cons ?_ (List.Pairwise.cons ha hrest)
      intro b hb
      rcases List.mem_cons.mp hb with hb | hb
      · exact hb ▸ h1
      · exact Nat.lt_trans h1 (ha b hb)
    · simp only [List.map_cons]
      exact List.Pairwise.cons ha hrest
    · simp only [List.map_cons]
      refine List.Pairwise.cons ?_ (ih hrest)
      intro b hb
      rcases mapAdd_keys b hb with hb | hb
      · subst hb; omega
      · exact ha b hb

theorem trim_front_count (m : List (Nat × Int)) (k : Nat) :
    mapCount (trim_front m) k = mapCount m k := by
  induction m with
  | nil => rfl
  | cons p rest ih =>
    obtain ⟨a, c⟩ := p
    simp only [trim_front]
    split_ifs with h
    · rw [ih, mapCount_cons]
      subst h
      split_ifs <;> omega
    · rfl

theorem trim_front_pairwise {R : Nat → Nat → Prop} {m : List (Nat × Int)}
    (h : (m.map Prod.fst).Pairwise R) :
    ((trim_front m).map Prod.fst).Pairwise R := by
  induction m with
  | nil => exact h
  | cons p rest ih =>
    obtain ⟨a, c⟩ := p
    rw [List.map_cons] at h
    simp only [trim_front]
    split_ifs with hc
    · exact ih (List.pairwise_cons.mp h).2
    · rw [List.map_cons]
      exact h

theorem trim_back_count (m : List (Nat × Int)) (k : Nat) :
    mapCount (trim_back m) k = mapCount m k := by
  unfold trim_back
  rw [mapCount_perm (List.reverse_perm _) k, trim_front_count,
    mapCount_perm (List.reverse_perm _) k]

theorem trim_back_sorted {m : List (Nat × Int)}
    (h : (m.map Prod.fst).Pairwise (· < ·)) :
    ((trim_back m).map Prod.fst).Pairwise (· < ·) := by
  unfold trim_back
  rw [List.map_reverse, List.pairwise_reverse]
  apply trim_front_pairwise
  rw [List.map_reverse, List.pairwise_reverse]
  exact h.imp fun hab => hab

theorem endpointCount_nil (k : Nat) : endpointCount [] k = 0 := rfl

theorem endpointCount_cons (r : Nat × Nat) (l : List (Nat × Nat)) (k : Nat) :
    endpointCount (r :: l) k =
      (if r.1 = k then 1 else 0) + ((if r.2 = k then 1 else 0) + endpointCount l k) := rfl

theorem endpointCount_nonneg (l : List (Nat × Nat)) (k : Nat) :
    0 ≤ endpointCount l k := by
  induction l with
  | nil => exact le_refl 0
  | cons r rest ih =>
    rw [endpointCount_cons]
    split_ifs <;> omega

theorem endpointCount_perm {l₁ l₂ : List (Nat × Nat)} (h : l₁.Perm l₂) (k : Nat) :
    endpointCount l₁ k = endpointCount l₂ k := by
  induction h with
  | nil => rfl
  | cons x _ ih => rw [endpointCount_cons, endpointCount_cons, ih]
  | swap x y l =>
    rw [endpointCount_cons, endpointCount_cons, endpointCount_cons,
      endpointCount_cons]
    omega
  | trans _ _ ih₁ ih₂ => rw [ih₁, ih₂]

theorem endpointCount_append (l₁ l₂ : List (Nat × Nat)) (k : Nat) :
    endpointCount (l₁ ++ l₂) k = endpointCount l₁ k + endpointCount l₂ k := by
  induction l₁ with
  | nil => rw [List.nil_append, endpointCount_nil]; omega
  | cons r rest ih =>
    rw [List.cons_append, endpointCount_cons, endpointCount_cons, ih]
    omega

theorem endpointCount_pos_iff (l : List (Nat × Nat)) (k : Nat) :
    0 < endpointCount l k ↔ ∃ r ∈ l, r.1 = k ∨ r.2 = k := by
  induction l with
  | nil =>
    rw [endpointCount_nil]
    simp
  | cons r rest ih =>
    constructor
    · intro h
      by_cases h1 : r.1 = k
      · exact ⟨r, List.mem_cons_self r rest, Or.inl h1⟩
      by_cases h2 : r.2 = k
      · exact ⟨r, List.mem_cons_self r rest, Or.inr h2⟩
      · rw [endpointCount_cons, if_neg h1, if_neg h2] at h
        obtain ⟨q, hq, hqk⟩ := ih.mp (by omega)
        exact ⟨q, List.mem_cons_of_mem r hq, hqk⟩
    · rintro ⟨q, hq, hqk⟩
      rcases List.mem_cons.mp hq with hq | hq
      · subst hq
        have := endpointCount_nonneg rest k
        rw [endpointCount_cons]
        rcases hqk with h | h <;> split_ifs <;> omega
      · have hpos := ih.mpr ⟨q, hq, hqk⟩
        rw [endpointCount_cons]
        split_ifs <;> omega

theorem mapMin_spec : ∀ (m : List (Nat × Int)) (live : List (Nat × Nat)),
    (m.map Prod.fst).Pairwise (· < ·) →
    (∀ k, mapCount m k = endpointCount live k) →
    WFLive live →
    mapMin m = if live.isEmpty then u64Max else minStart live := by
  intro m
  induction m with
  | nil =>
    intro live hs hc hwf
    have hlive : live = [] := by
      rcases live with _ | ⟨r, rest⟩
      · rfl
      · exfalso
        have h1 : 0 < endpointCount (r :: rest) r.1 :=
          (endpointCount_pos_iff _ _).mpr ⟨r, List.mem_cons_self r rest, Or.inl rfl⟩
        have h2 := hc r.1
        rw [mapCount_nil] at h2
        omega
    subst hlive
    rfl
  | cons p rest ih =>
    obtain ⟨a, c⟩ := p
    intro live hs hc hwf
    rw [List.map_cons] at hs
    obtain ⟨ha, hrest⟩ := List.pairwise_cons.mp hs
    by_cases hc0 : c = 0
    · have hc' : ∀ k, mapCount rest k = endpointCount live k := by
        intro k
        have h := hc k
        rw [mapCount_cons] at h
        have hz : (if a = k then c else 0) = 0 := by
          rw [hc0]; split_ifs <;> rfl
        omega
      simp only [mapMin]
      rw [if_pos hc0]
      exact ih live hrest hc' hwf
    · simp only [mapMin]
      rw [if_neg hc0]
      have hcnt : endpointCount live a = c := by
        have h := hc a
        rw [mapCount_cons, if_pos rfl] at h
        have hnot : a ∉ rest.map Prod.fst := fun hmem => absurd (ha a hmem) (lt_irrefl a)
        rw [mapCount_eq_zero_of_not_mem hnot] at h
        omega
      have hpos : 0 < endpointCount live a := by
        have := endpointCount_nonneg live a
        omega
      obtain ⟨r, hrmem, hrk⟩ := (endpointCount_pos_iff live a).mp hpos
      have hlivene : live ≠ [] := by
        intro h
        subst h
        cases hrmem
      have hemp : live.isEmpty = false := by
        rcases live with _ | ⟨x, xs⟩
        · exact absurd rfl hlivene
        · rfl
      rw [hemp]
      simp only [Bool.false_eq_true, if_false]
      have hbelow : ∀ k, k < a → endpointCount live k = 0 := by
        intro k hk
        have h := hc k
        rw [mapCount_cons, if_neg (by omega)] at h
        have hnot : k ∉ rest.map Prod.fst := by
          intro hmem
          have := ha k hmem
          omega
        rw [mapCount_eq_zero_of_not_mem hnot] at h
        omega
      have hstart : ∃ q ∈ live, q.1 = a := by
        rcases hrk with h | h
        · exact ⟨r, hrmem, h⟩
        · exfalso
          have hok := hwf.1 r hrmem
          have h1 : r.1 < a := h ▸ hok.1
          have h2 : 0 < endpointCount live r.1 :=
            (endpointCount_pos_iff _ _).mpr ⟨r, hrmem, Or.inl rfl⟩
          rw [hbelow r.1 h1] at h2
          omega
      obtain ⟨q, hqmem, hq1⟩ := hstart
      have hle : minStart live ≤ a := hq1 ▸ minStart_le hqmem
      obtain ⟨w, hwmem, hw⟩ := minStart_attained hlivene hwf.1
      have hge : a ≤ minStart live := by
        by_contra hlt
        push_neg at hlt
        have h2 : 0 < endpointCount live (minStart live) := by
          rw [hw]
          exact (endpointCount_pos_iff _ _).mpr ⟨w, hwmem, Or.inl rfl⟩
        rw [hbelow _ hlt] at h2
        omega
      omega

theorem mapMaxAux_spec : ∀ (m : List (Nat × Int)) (live : List (Nat × Nat)),
    (m.map Prod.fst).Pairwise (· > ·) →
    (∀ k, mapCount m k = endpointCount live k) →
    WFLive live →
    mapMaxAux m = if live.isEmpty then 0 else maxEnd live := by
  intro m
  induction m with
  | nil =>
    intro live hs hc hwf
    have hlive : live = [] := by
      rcases live with _ | ⟨r, rest⟩
      · rfl
      · exfalso
        have h1 : 0 < endpointCount (r :: rest) r.1 :=
          (endpointCount_pos_iff _ _).mpr ⟨r, List.mem_cons_self r rest, Or.inl rfl⟩
        have h2 := hc r.1
        rw [mapCount_nil] at h2
        omega
    subst hlive
    rfl
  | cons p rest ih =>
    obtain ⟨a, c⟩ := p
    intro live hs hc hwf
    rw [List.map_cons] at hs
    obtain ⟨ha, hrest⟩ := List.pairwise_cons.mp hs
    by_cases hc0 : c = 0
    · have hc' : ∀ k, mapCount rest k = endpointCount live k := by
        intro k
        have h := hc k
        rw [mapCount_cons] at h
        have hz : (if a = k then c else 0) = 0 := by
          rw [hc0]; split_ifs <;> rfl
        omega
      simp only [mapMaxAux]
      rw [if_pos hc0]
      exact ih live hrest hc' hwf
    · simp only [mapMaxAux]
      rw [if_neg hc0]
      have hcnt : endpointCount live a = c := by
        have h := hc a
        rw [mapCount_cons, if_pos rfl] at h
        have hnot : a ∉ rest.map Prod.fst := fun hmem => absurd (ha a hmem) (lt_irrefl a)
        rw [mapCount_eq_zero_of_not_mem hnot] at h
        omega
      have hpos : 0 < endpointCount live a := by
        have := endpointCount_nonneg live a
        omega
      obtain ⟨r, hrmem, hrk⟩ := (endpointCount_pos_iff live a).mp hpos
      have hlivene : live ≠ [] := by
        intro h
        subst h
        cases hrmem
      have hemp : live.isEmpty = false := by
        rcases live with _ | ⟨x, xs⟩
        · exact absurd rfl hlivene
        · rfl
      rw [hemp]
      simp only [Bool.false_eq_true, if_false]
      have habove : ∀ k, a < k → endpointCount live k = 0 := by
        intro k hk
        have h := hc k
        rw [mapCount_cons, if_neg (by omega)] at h
        have hnot : k ∉ rest.map Prod.fst := by
          intro hmem
          have := ha k hmem
          omega
        rw [mapCount_eq_zero_of_not_mem hnot] at h
        omega
      have hend : ∃ q ∈ live, q.2 = a := by
        rcases hrk with h | h
        · exfalso
          have hok := hwf.1 r hrmem
          have h1 : a < r.2 := h ▸ hok.1
          have h2 : 0 < endpointCount live r.2 :=
            (endpointCount_pos_iff _ _).mpr ⟨r, hrmem, Or.inr rfl⟩
          rw [habove r.2 h1] at h2
          omega
        · exact ⟨r, hrmem, h⟩
      obtain ⟨q, hqmem, hq2⟩ := hend
      have hge : a ≤ maxEnd live := hq2 ▸ maxEnd_ge hqmem
      obtain ⟨w, hwmem, hw⟩ := maxEnd_attained hlivene
      have hle : maxEnd live ≤ a := by
        by_contra hlt
        push_neg at hlt
        have h2 : 0 < endpointCount live (maxEnd live) := by
          rw [hw]
          exact (endpointCount_pos_iff _ _).mpr ⟨w, hwmem, Or.inr rfl⟩
        rw [habove _ hlt] at h2
        omega
      omega

theorem mapMax_spec {m : List (Nat × Int)} {live : List (Nat × Nat)}
    (hs : (m.map Prod.fst).Pairwise (· < ·))
    (hc : ∀ k, mapCount m k = endpointCount live k)
    (hwf : WFLive live) :
    mapMax m = if live.isEmpty then 0 else maxEnd live := by
  unfold mapMax
  apply mapMaxAux_spec
  · rw [List.map_reverse, List.pairwise_reverse]
    exact hs.imp fun hab => hab
  · intro k
    rw [mapCount_perm (List.reverse_perm _) k]
    exact hc k
  · exact hwf

theorem minStart_append (l₁ l₂ : List (Nat × Nat)) :
    minStart (l₁ ++ l₂) = Nat.min (minStart l₁) (minStart l₂) := by
  induction l₁ with
  | nil =>
    rw [List.nil_append, minStart_nil]
    exact (Nat.min_eq_right (minStart_le_u64Max l₂)).symm
  | cons r rest ih =>
    rw [List.cons_append, minStart_cons, minStart_cons, ih]
    simp only [Nat.min_def]
    split_ifs <;> omega

theorem maxEnd_append (l₁ l₂ : List (Nat × Nat)) :
    maxEnd (l₁ ++ l₂) = Nat.max (maxEnd l₁) (maxEnd l₂) := by
  induction l₁ with
  | nil =>
    rw [List.nil_append, maxEnd_nil]
    exact (Nat.max_eq_right (Nat.zero_le _)).symm
  | cons r rest ih =>
    rw [List.cons_append, maxEnd_cons, maxEnd_cons, ih]
    simp only [Nat.max_def]
    split_ifs <;> omega

theorem sumLens_lt (live : List (Nat × Nat)) (hwf : WFLive live) :
    sumLens live < 2 ^ 64 := by
  rcases Decidable.em (live = []) with h | h
  · subst h; rw [sumLens_nil]; omega
  · have h1 := span_bound live.length live rfl hwf h
    have h2 := maxEnd_lt live hwf.1
    omega

theorem isEmpty_eq_false {α : Type} {l : List α} (h : l ≠ []) :
    l.isEmpty = false := by
  rcases l with _ | ⟨x, xs⟩
  · exact absurd rfl h
  · rfl

theorem minStart_removeRange {live : List (Nat × Nat)} {s e : Nat}
    (hwf : WFLive live) (hmem : (s, e) ∈ live) (hne : s ≠ minStart live) :
    removeRange live (s, e) ≠ [] ∧
    minStart (removeRange live (s, e)) = minStart live := by
  have hlne : live ≠ [] := by intro h; subst h; cases hmem
  obtain ⟨q, hqmem, hq⟩ := minStart_attained hlne hwf.1
  have hs' : minStart live ≤ s := minStart_le hmem
  have hslt : minStart live < s := by omega
  have hqne : q ≠ (s, e) := by
    intro h
    have hq1 : q.1 = s := by rw [h]
    omega
  have hqmem' : q ∈ removeRange live (s, e) := mem_removeRange_of_ne hqne hqmem
  have hne' : removeRange live (s, e) ≠ [] := by
    intro h
    rw [h] at hqmem'
    cases hqmem'
  refine ⟨hne', Nat.le_antisymm ?_ ?_⟩
  · rw [hq]
    exact minStart_le hqmem'
  · obtain ⟨w, hwmem, hw⟩ :=
      minStart_attained hne' (fun r hr => hwf.1 r (removeRange_subset hr))
    rw [hw]
    exact minStart_le (removeRange_subset hwmem)

theorem maxEnd_removeRange {live : List (Nat × Nat)} {s e : Nat}
    (hwf : WFLive live) (hmem : (s, e) ∈ live) (hne : e ≠ maxEnd live) :
    removeRange live (s, e) ≠ [] ∧
    maxEnd (removeRange live (s, e)) = maxEnd live := by
  have hlne : live ≠ [] := by intro h; subst h; cases hmem
  obtain ⟨q, hqmem, hq⟩ := maxEnd_attained hlne
  have he' : e ≤ maxEnd live := maxEnd_ge hmem
  have helt : e < maxEnd live := by omega
  have hqne : q ≠ (s, e) := by
    intro h
    have hq2 : q.2 = e := by rw [h]
    omega
  have hqmem' : q ∈ removeRange live (s, e) := mem_removeRange_of_ne hqne hqmem
  have hne' : removeRange live (s, e) ≠ [] := by
    intro h
    rw [h] at hqmem'
    cases hqmem'
  refine ⟨hne', Nat.le_antisymm ?_ ?_⟩
  · obtain ⟨w, hwmem, hw⟩ := maxEnd_attained hne'
    rw [hw]
    exact maxEnd_ge (removeRange_subset hwmem)
  · rw [hq]
    exact maxEnd_ge hqmem'

theorem applyAlloc_inv {st : FragState} {live : List (Nat × Nat)}
    {a : FragAllocation}
    (hinv : FragInv st live)
    (hok : RangeOk (a.rangeStart, a.rangeEnd))
    (hdisj : ∀ r ∈ live, RangesDisjoint (a.rangeStart, a.rangeEnd) r) :
    FragInv (applyAlloc a st) (live ++ [(a.rangeStart, a.rangeEnd)]) := by
  obtain ⟨hwf, hused, hsort, hcnt, hemp, hne⟩ := hinv
  have hse : a.rangeStart < a.rangeEnd := hok.1
  have he64 : a.rangeEnd < 2 ^ 64 := hok.2
  have hwf' : WFLive (live ++ [(a.rangeStart, a.rangeEnd)]) := by
    constructor
    · intro r hr
      rcases List.mem_append.mp hr with h | h
      · exact hwf.1 r h
      · rw [List.mem_singleton.mp h]
        exact ⟨hse, he64⟩
    · rw [List.pairwise_append]
      refine ⟨hwf.2, List.pairwise_singleton _ _, ?_⟩
      intro x hx y hy
      rw [List.mem_singleton.mp hy]
      exact rangesDisjoint_symm (hdisj x hx)
  have hsumlt : sumLens live + (a.rangeEnd - a.rangeStart) < 2 ^ 64 := by
    have := sumLens_lt _ hwf'
    rw [sumLens_append, sumLens_cons, sumLens_nil] at this
    omega
  refine ⟨hwf', ?_, ?_, ?_, ?_, ?_⟩
  · show u64add st.current_used_address_space
      (u64sub a.rangeEnd a.rangeStart) = _
    rw [u64sub_eq (Nat.le_of_lt hse) he64, hused, u64add_eq hsumlt,
      sumLens_append, sumLens_cons, sumLens_nil]
    dsimp only
    omega
  · exact mapAdd_sorted (mapAdd_sorted hsort)
  · intro k
    show mapCount (mapAdd (mapAdd st.address_map a.rangeStart 1) a.rangeEnd 1) k = _
    rw [mapCount_mapAdd, mapCount_mapAdd, hcnt k, endpointCount_append,
      endpointCount_cons, endpointCount_nil]
    split_ifs <;> omega
  · intro h
    exact absurd h (by simp)
  · intro _
    have hsu : a.rangeStart < u64Max := by unfold u64Max; omega
    constructor
    · show (if a.rangeStart < st.current_address_min then a.rangeStart
        else st.current_address_min) = _
      rw [minStart_append, minStart_cons, minStart_nil]
      dsimp only
      rcases Decidable.em (live = []) with hl | hl
      · subst hl
        rw [(hemp rfl).1, minStart_nil]
        simp only [Nat.min_def]
        split_ifs <;> omega
      · rw [(hne hl).1]
        simp only [Nat.min_def]
        split_ifs <;> omega
    · show (if a.rangeEnd > st.current_address_max then a.rangeEnd
        else st.current_address_max) = _
      rw [maxEnd_append, maxEnd_cons, maxEnd_nil]
      dsimp only
      rcases Decidable.em (live = []) with hl | hl
      · subst hl
        rw [(hemp rfl).2, maxEnd_nil]
        simp only [Nat.max_def]
        split_ifs <;> omega
      · rw [(hne hl).2]
        simp only [Nat.max_def]
        split_ifs <;> omega

theorem applyDealloc_inv {st : FragState} {live : List (Nat × Nat)}
    {a : FragAllocation}
    (hinv : FragInv st live)
    (hmem : (a.rangeStart, a.rangeEnd) ∈ live) :
    FragInv (applyDealloc a st) (removeRange live (a.rangeStart, a.rangeEnd)) := by
  obtain ⟨hwf, hused, hsort, hcnt, hemp, hne⟩ := hinv
  have hok : RangeOk (a.rangeStart, a.rangeEnd) := hwf.1 _ hmem
  have hse : a.rangeStart < a.rangeEnd := hok.1
  have he64 : a.rangeEnd < 2 ^ 64 := hok.2
  have hlne : live ≠ [] := by intro h; subst h; cases hmem
  have hperm : live.Perm ((a.rangeStart, a.rangeEnd) ::
      removeRange live (a.rangeStart, a.rangeEnd)) := removeRange_perm hmem
  have hwf' : WFLive (removeRange live (a.rangeStart, a.rangeEnd)) :=
    wfLive_cons (wfLive_perm hperm hwf)
  have hsumsplit : sumLens live = (a.rangeEnd - a.rangeStart) +
      sumLens (removeRange live (a.rangeStart, a.rangeEnd)) := by
    rw [sumLens_perm hperm, sumLens_cons]
  have hsumlt : sumLens live < 2 ^ 64 := sumLens_lt _ hwf
  have hcntsplit : ∀ k, endpointCount live k =
      (if a.rangeStart = k then 1 else 0) + ((if a.rangeEnd = k then 1 else 0) +
        endpointCount (removeRange live (a.rangeStart, a.rangeEnd)) k) := by
    intro k
    rw [endpointCount_perm hperm k, endpointCount_cons]
  have hm1cnt : ∀ k,
      mapCount (mapAdd (mapAdd st.address_map a.rangeStart (-1)) a.rangeEnd (-1)) k
        = endpointCount (removeRange live (a.rangeStart, a.rangeEnd)) k := by
    intro k
    rw [mapCount_mapAdd, mapCount_mapAdd, hcnt k, hcntsplit k]
    split_ifs <;> omega
  have hm1sort : ((mapAdd (mapAdd st.address_map a.rangeStart (-1)) a.rangeEnd
      (-1)).map Prod.fst).Pairwise (· < ·) := mapAdd_sorted (mapAdd_sorted hsort)
  have husedpf : u64sub st.current_used_address_space (u64sub a.rangeEnd a.rangeStart)
      = sumLens (removeRange live (a.rangeStart, a.rangeEnd)) := by
    rw [u64sub_eq (Nat.le_of_lt hse) he64, hused, u64sub_eq (by omega) hsumlt]
    omega
  have hminlive : st.current_address_min = minStart live := (hne hlne).1
  have hmaxlive : st.current_address_max = maxEnd live := (hne hlne).2
  simp only [applyDealloc]
  by_cases hsm : a.rangeStart = st.current_address_min <;>
    by_cases hem : a.rangeEnd = st.current_address_max
  · -- removed range touched both bounds: both sides trimmed, both recomputed
    simp only [if_pos hsm, if_pos hem]
    have hm2cnt : ∀ k, mapCount (trim_front (mapAdd (mapAdd st.address_map
        a.rangeStart (-1)) a.rangeEnd (-1))) k
        = endpointCount (removeRange live (a.rangeStart, a.rangeEnd)) k := by
      intro k
      rw [trim_front_count]
      exact hm1cnt k
    have hm2sort := trim_front_pairwise hm1sort
    have hm3cnt : ∀ k, mapCount (trim_back (trim_front (mapAdd (mapAdd
        st.address_map a.rangeStart (-1)) a.rangeEnd (-1)))) k
        = endpointCount (removeRange live (a.rangeStart, a.rangeEnd)) k := by
      intro k
      rw [trim_back_count]
      exact hm2cnt k
    have hm3sort := trim_back_sorted hm2sort
    have hmin := mapMin_spec _ _ hm2sort hm2cnt hwf'
    have hmax := mapMax_spec hm3sort hm3cnt hwf'
    refine ⟨hwf', husedpf, hm3sort, hm3cnt, ?_, ?_⟩
    · intro h
      constructor
      · rw [hmin, h]
        rfl
      · rw [hmax, h]
        rfl
    · intro h
      constructor
      · rw [hmin, isEmpty_eq_false h]
        rfl
      · rw [hmax, isEmpty_eq_false h]
        rfl
  · -- only the minimum side touched
    simp only [if_pos hsm, if_neg hem]
    have hm2cnt : ∀ k, mapCount (trim_front (mapAdd (mapAdd st.address_map
        a.rangeStart (-1)) a.rangeEnd (-1))) k
        = endpointCount (removeRange live (a.rangeStart, a.rangeEnd)) k := by
      intro k
      rw [trim_front_count]
      exact hm1cnt k
    have hm2sort := trim_front_pairwise hm1sort
    have hmin := mapMin_spec _ _ hm2sort hm2cnt hwf'
    have hene : a.rangeEnd ≠ maxEnd live := fun hh => hem (by rw [hmaxlive]; exact hh)
    have hmr := maxEnd_removeRange hwf hmem hene
    refine ⟨hwf', husedpf, hm2sort, hm2cnt, ?_, ?_⟩
    · intro h
      exact absurd h hmr.1
    · intro h
      refine ⟨?_, ?_⟩
      · rw [hmin, isEmpty_eq_false h]
        rfl
      · rw [hmaxlive, ← hmr.2]
  · -- only the maximum side touched
    simp only [if_neg hsm, if_pos hem]
    have hm3cnt : ∀ k, mapCount (trim_back (mapAdd (mapAdd st.address_map
        a.rangeStart (-1)) a.rangeEnd (-1))) k
        = endpointCount (removeRange live (a.rangeStart, a.rangeEnd)) k := by
      intro k
      rw [trim_back_count]
      exact hm1cnt k
    have hm3sort := trim_back_sorted hm1sort
    have hmax := mapMax_spec hm3sort hm3cnt hwf'
    have hsne : a.rangeStart ≠ minStart live := fun hh => hsm (by rw [hminlive]; exact hh)
    have hmr := minStart_removeRange hwf hmem hsne
    refine ⟨hwf', husedpf, hm3sort, hm3cnt, ?_, ?_⟩
    · intro h
      exact absurd h hmr.1
    · intro h
      refine ⟨?_, ?_⟩
      · rw [hminlive, ← hmr.2]
      · rw [hmax, isEmpty_eq_false h]
        rfl
  · -- neither bound touched
    simp only [if_neg hsm, if_neg hem]
    have hsne : a.rangeStart ≠ minStart live := fun hh => hsm (by rw [hminlive]; exact hh)
    have hene : a.rangeEnd ≠ maxEnd live := fun hh => hem (by rw [hmaxlive]; exact hh)
    have hmr1 := minStart_removeRange hwf hmem hsne
    have hmr2 := maxEnd_removeRange hwf hmem hene
    refine ⟨hwf', husedpf, hm1sort, hm1cnt, ?_, ?_⟩
    · intro h
      exact absurd h hmr1.1
    · intro h
      exact ⟨by rw [hminlive, ← hmr1.2], by rw [hmaxlive, ← hmr2.2]⟩

theorem applyOp_fields (op : FragOp) (st : FragState) :
    (applyOp op st).x = st.x ∧ (applyOp op st).xs = st.xs ∧
    (applyOp op st).fragmentation = st.fragmentation := by
  cases op <;> dsimp only [applyOp] <;> split_ifs <;> exact ⟨rfl, rfl, rfl⟩

theorem emitPoint_fields (t : Nat) (st : FragState) :
    (emitPoint t st).address_map = st.address_map ∧
    (emitPoint t st).current_used_address_space = st.current_used_address_space ∧
    (emitPoint t st).current_address_min = st.current_address_min ∧
    (emitPoint t st).current_address_max = st.current_address_max ∧
    (emitPoint t st).x = t := by
  simp only [emitPoint]
  split_ifs with h1 h2 h3 <;> refine ⟨rfl, rfl, rfl, rfl, ?_⟩ <;>
    first
    | rfl
    | omega

theorem fragInv_emitPoint {st : FragState} {live : List (Nat × Nat)} (t : Nat)
    (h : FragInv st live) : FragInv (emitPoint t st) live := by
  obtain ⟨f1, f2, f3, f4, _⟩ := emitPoint_fields t st
  obtain ⟨hwf, hused, hsort, hcnt, hemp, hne⟩ := h
  refine ⟨hwf, ?_, ?_, ?_, ?_, ?_⟩
  · rw [f2]; exact hused
  · rw [f1]; exact hsort
  · intro k; rw [f1]; exact hcnt k
  · intro hh; rw [f3, f4]; exact hemp hh
  · intro hh; rw [f3, f4]; exact hne hh

theorem setLast_length (l : List Nat) (v : Nat) :
    (setLast l v).length = l.length := by
  induction l with
  | nil => rfl
  | cons a rest ih =>
    cases rest with
    | nil => rfl
    | cons b r =>
      have hstep : setLast (a :: b :: r) v = a :: setLast (b :: r) v := rfl
      rw [hstep, List.length_cons, List.length_cons, ih]

theorem setLast_append (l : List Nat) (a v : Nat) :
    setLast (l ++ [a]) v = l ++ [v] := by
  induction l with
  | nil => rfl
  | cons b rest ih =>
    cases rest with
    | nil => rfl
    | cons c r =>
      show b :: setLast ((c :: r) ++ [a]) v = b :: ((c :: r) ++ [v])
      rw [ih]

theorem setLast_mem {l : List Nat} {v x : Nat} (h : x ∈ setLast l v) :
    x ∈ l ∨ x = v := by
  induction l with
  | nil => exact absurd h (List.not_mem_nil x)
  | cons a rest ih =>
    cases rest with
    | nil =>
      exact Or.inr (List.mem_singleton.mp h)
    | cons b r =>
      have hstep : setLast (a :: b :: r) v = a :: setLast (b :: r) v := rfl
      rw [hstep] at h
      rcases List.mem_cons.mp h with h | h
      · exact Or.inl (h ▸ List.mem_cons_self a _)
      · rcases ih h with h | h
        · exact Or.inl (List.mem_cons_of_mem a h)
        · exact Or.inr h

theorem getLast_getD_mem {l : List Nat} (h : l ≠ []) (d : Nat) :
    l.getLast?.getD d ∈ l := by
  rcases l with _ | ⟨a, rest⟩
  · exact absurd rfl h
  · rw [List.getLast?_eq_getLast (a :: rest) (by simp), Option.getD_some]
    exact List.getLast_mem _

theorem eq_nil_of_isEmpty {α : Type} {l : List α} (h : l.isEmpty = true) :
    l = [] := by
  rcases l with _ | ⟨x, xs⟩
  · rfl
  · exact absurd h (by simp)

/-- `emitPoint` within the same second: only the last value is rewritten. -/
theorem emitPoint_eq_same {st : FragState} {t : Nat} (h1 : ¬ t ≠ st.x) :
    emitPoint t st =
      { st with fragmentation := setLast st.fragmentation (emitVal st) } := by
  simp only [emitPoint]
  rw [if_neg h1]
  rfl

/-- `emitPoint` at the directly following second (or first point ever):
one fresh point. -/
theorem emitPoint_eq_next {st : FragState} {t : Nat} (h1 : t ≠ st.x)
    (h2 : ¬ (st.x ≠ u64Max ∧ u64add st.x 1 ≠ t)) :
    emitPoint t st =
      { st with
          x := t,
          xs := st.xs ++ [u64mul t 1000],
          fragmentation := st.fragmentation ++ [emitVal st] } := by
  simp only [emitPoint]
  rw [if_pos h1, if_neg h2]
  dsimp only
  rw [setLast_append]
  rfl

/-- `emitPoint` with exactly one skipped second: one synthetic point
carrying the previous value, then the fresh point. -/
theorem emitPoint_eq_gap1 {st : FragState} {t : Nat} (h1 : t ≠ st.x)
    (h2 : st.x ≠ u64Max ∧ u64add st.x 1 ≠ t) (h3 : ¬ u64add st.x 2 ≠ t) :
    emitPoint t st =
      { st with
          x := t,
          xs := st.xs ++ [u64mul (u64add st.x 1) 1000] ++ [u64mul t 1000],
          fragmentation := st.fragmentation
            ++ [st.fragmentation.getLast?.getD 0] ++ [emitVal st] } := by
  simp only [emitPoint]
  rw [if_pos h1, if_pos h2, if_neg h3]
  dsimp only
  rw [setLast_append]
  rfl

/-- `emitPoint` with at least two skipped seconds: two synthetic points
carrying the previous value, then the fresh point. -/
theorem emitPoint_eq_gap2 {st : FragState} {t : Nat} (h1 : t ≠ st.x)
    (h2 : st.x ≠ u64Max ∧ u64add st.x 1 ≠ t) (h3 : u64add st.x 2 ≠ t) :
    emitPoint t st =
      { st with
          x := t,
          xs := st.xs ++ [u64mul (u64add st.x 1) 1000]
            ++ [u64mul (u64sub t 1) 1000] ++ [u64mul t 1000],
          fragmentation := st.fragmentation
            ++ [st.fragmentation.getLast?.getD 0]
            ++ [st.fragmentation.getLast?.getD 0] ++ [emitVal st] } := by
  simp only [emitPoint]
  rw [if_pos h1, if_pos h2, if_pos h3]
  dsimp only
  rw [setLast_append]
  rfl

theorem emitPoint_frag_mem {st : FragState} {t : Nat}
    (hx : st.x = u64Max ∨ st.fragmentation ≠ []) :
    ∀ v ∈ (emitPoint t st).fragmentation,
      v ∈ st.fragmentation ∨ v = emitVal st := by
  intro v hv
  by_cases h1 : t ≠ st.x
  · by_cases h2 : st.x ≠ u64Max ∧ u64add st.x 1 ≠ t
    · have hlast : st.fragmentation.getLast?.getD 0 ∈ st.fragmentation :=
        getLast_getD_mem (hx.resolve_left h2.1) 0
      by_cases h3 : u64add st.x 2 ≠ t
      · rw [emitPoint_eq_gap2 h1 h2 h3] at hv
        rcases List.mem_append.mp hv with hv | hv
        · rcases List.mem_append.mp hv with hv | hv
          · rcases List.mem_append.mp hv with hv | hv
            · exact Or.inl hv
            · exact Or.inl (by rw [List.mem_singleton.mp hv]; exact hlast)
          · exact Or.inl (by rw [List.mem_singleton.mp hv]; exact hlast)
        · exact Or.inr (List.mem_singleton.mp hv)
      · rw [emitPoint_eq_gap1 h1 h2 h3] at hv
        rcases List.mem_append.mp hv with hv | hv
        · rcases List.mem_append.mp hv with hv | hv
          · exact Or.inl hv
          · exact Or.inl (by rw [List.mem_singleton.mp hv]; exact hlast)
        · exact Or.inr (List.mem_singleton.mp hv)
    · rw [emitPoint_eq_next h1 h2] at hv
      rcases List.mem_append.mp hv with hv | hv
      · exact Or.inl hv
      · exact Or.inr (List.mem_singleton.mp hv)
  · rw [emitPoint_eq_same h1] at hv
    exact setLast_mem hv

theorem emitPoint_frag_ne_nil {st : FragState} {t : Nat}
    (hx : st.x = u64Max ∨ st.fragmentation ≠ []) (ht : t ≠ u64Max) :
    (emitPoint t st).fragmentation ≠ [] := by
  by_cases h1 : t ≠ st.x
  · by_cases h2 : st.x ≠ u64Max ∧ u64add st.x 1 ≠ t
    · by_cases h3 : u64add st.x 2 ≠ t
      · rw [emitPoint_eq_gap2 h1 h2 h3]
        simp
      · rw [emitPoint_eq_gap1 h1 h2 h3]
        simp
    · rw [emitPoint_eq_next h1 h2]
      simp
  · rw [emitPoint_eq_same h1]
    have hxx : st.x ≠ u64Max := by omega
    have hfne : st.fragmentation ≠ [] := hx.resolve_left hxx
    intro hcon
    have hl := congrArg List.length hcon
    rw [setLast_length] at hl
    exact hfne (List.length_eq_zero.mp hl)

theorem frag_value {st : FragState} {live : List (Nat × Nat)}
    (hinv : FragInv st live) :
    emitVal st + sumLens live = spanOf live := by
  unfold emitVal
  obtain ⟨hwf, hused, hsort, hcnt, hemp, hne⟩ := hinv
  rcases Decidable.em (live = []) with hl | hl
  · subst hl
    rw [(hemp rfl).2, if_pos rfl, hused, sumLens_nil,
      u64sub_eq (Nat.le_refl 0) (by omega)]
    rfl
  · have hb := span_bound live.length live rfl hwf hl
    have hmaxlt := maxEnd_lt live hwf.1
    have hmaxpos : 1 ≤ maxEnd live := by
      obtain ⟨r, hrmem, hr⟩ := maxEnd_attained hl
      have := (hwf.1 r hrmem).1
      omega
    rw [(hne hl).1, (hne hl).2, hused, if_neg (by omega),
      u64sub_eq (by omega) hmaxlt, u64sub_eq (by omega) (by omega)]
    unfold spanOf
    rw [isEmpty_eq_false hl]
    simp only [Bool.false_eq_true, if_false]
    omega

theorem fragStep_none {st : FragState} {op : FragOp} (h : emitSec op = none) :
    fragStep st op = st := by
  cases op with
  | alloc a =>
    dsimp only [emitSec] at h
    cases hm : isMatched a
    · dsimp only [fragStep]
      rw [if_neg (by simp [hm])]
    · simp [hm] at h
  | dealloc a d =>
    dsimp only [emitSec] at h
    cases hm : isMatched a
    · dsimp only [fragStep]
      rw [if_neg (by simp [hm])]
    · simp [hm] at h
  | realloc o n =>
    dsimp only [emitSec] at h
    cases hg : (isMatched n || isMatched o)
    · dsimp only [fragStep]
      rw [if_neg (by simp [hg])]
    · simp [hg] at h

theorem liveStep_none {live : List (Nat × Nat)} {op : FragOp}
    (h : emitSec op = none) : liveStep live op = live := by
  cases op with
  | alloc a =>
    dsimp only [emitSec] at h
    cases hm : isMatched a
    · dsimp only [liveStep]
      rw [if_neg (by simp [hm])]
    · simp [hm] at h
  | dealloc a d =>
    dsimp only [emitSec] at h
    cases hm : isMatched a
    · dsimp only [liveStep]
      rw [if_neg (by simp [hm])]
    · simp [hm] at h
  | realloc o n =>
    dsimp only [emitSec] at h
    cases hg : (isMatched n || isMatched o)
    · have ho : isMatched o = false := by
        rcases Bool.or_eq_false_iff.mp hg with ⟨_, ho⟩
        exact ho
      have hn : isMatched n = false := (Bool.or_eq_false_iff.mp hg).1
      dsimp only [liveStep]
      rw [if_neg (by simp [hn]), if_neg (by simp [ho])]
    · simp [hg] at h

theorem fragStep_some {st : FragState} {op : FragOp} {t : Nat}
    (h : emitSec op = some t) :
    fragStep st op = emitPoint t (applyOp op st) := by
  cases op with
  | alloc a =>
    dsimp only [emitSec] at h
    cases hm : isMatched a
    · simp [hm] at h
    · simp only [hm, if_true] at h
      obtain rfl : a.tsec = t := by
        simpa using h
      dsimp only [fragStep, applyOp]
      rw [if_pos hm, if_pos hm]
  | dealloc a d =>
    dsimp only [emitSec] at h
    cases hm : isMatched a
    · simp [hm] at h
    · obtain rfl : d = t := by
        simpa [hm] using h
      dsimp only [fragStep, applyOp]
      rw [if_pos hm, if_pos hm]
  | realloc o n =>
    dsimp only [emitSec] at h
    cases hg : (isMatched n || isMatched o)
    · simp [hg] at h
    · obtain rfl : n.tsec = t := by
        simpa [hg] using h
      dsimp only [fragStep, applyOp]
      rw [if_pos hg]

theorem applyOp_inv {st : FragState} {live : List (Nat × Nat)} {op : FragOp}
    {t : Nat}
    (hinv : FragInv st live) (hsec : emitSec op = some t)
    (hval : opValid live op) :
    FragInv (applyOp op st) (liveStep live op) := by
  cases op with
  | alloc a =>
    dsimp only [emitSec] at hsec
    cases hm : isMatched a
    · simp [hm] at hsec
    · dsimp only [applyOp, liveStep]
      rw [if_pos hm, if_pos hm]
      exact applyAlloc_inv hinv (hval hm).1 (hval hm).2.1
  | dealloc a d =>
    dsimp only [emitSec] at hsec
    cases hm : isMatched a
    · simp [hm] at hsec
    · dsimp only [applyOp, liveStep]
      rw [if_pos hm, if_pos hm]
      exact applyDealloc_inv hinv ((hval hm).1)
  | realloc o n =>
    dsimp only [emitSec] at hsec
    cases hg : (isMatched n || isMatched o)
    · simp [hg] at hsec
    · obtain ⟨hvo, hvn, _⟩ := hval
      dsimp only [applyOp, liveStep]
      by_cases ho : isMatched o = true <;> by_cases hn : isMatched n = true
      · simp only [if_pos ho, if_pos hn]
        have hd := (hvn hn).2
        rw [if_pos ho] at hd
        exact applyAlloc_inv (applyDealloc_inv hinv (hvo ho)) (hvn hn).1 hd
      · simp only [if_pos ho, if_neg hn]
        exact applyDealloc_inv hinv (hvo ho)
      · simp only [if_neg ho, if_pos hn]
        have hd := (hvn hn).2
        rw [if_neg ho] at hd
        exact applyAlloc_inv hinv (hvn hn).1 hd
      · exfalso
        have ho' : isMatched o = false := by
          cases hof : isMatched o
          · rfl
          · exact absurd hof ho
        have hn' : isMatched n = false := by
          cases hnf : isMatched n
          · rfl
          · exact absurd hnf hn
        rw [ho', hn'] at hg
        exact Bool.noConfusion hg

theorem emitSec_lt {live : List (Nat × Nat)} {op : FragOp} {t : Nat}
    (hval : opValid live op) (h : emitSec op = some t) : t < u64Max := by
  cases op with
  | alloc a =>
    dsimp only [emitSec] at h
    cases hm : isMatched a
    · simp [hm] at h
    · obtain rfl : a.tsec = t := by simpa [hm] using h
      exact (hval hm).2.2
  | dealloc a d =>
    dsimp only [emitSec] at h
    cases hm : isMatched a
    · simp [hm] at h
    · obtain rfl : d = t := by simpa [hm] using h
      exact (hval hm).2
  | realloc o n =>
    dsimp only [emitSec] at h
    cases hg : (isMatched n || isMatched o)
    · simp [hg] at h
    · obtain rfl : n.tsec = t := by simpa [hg] using h
      exact hval.2.2 hg

theorem fragStep_emitInv {st : FragState} {live : List (Nat × Nat)}
    {op : FragOp}
    (he : EmitInv st) (hval : opValid live op) :
    EmitInv (fragStep st op) := by
  rcases hsec : emitSec op with _ | t
  · rw [fragStep_none hsec]
    exact he
  · rw [fragStep_some hsec]
    right
    have hfields := applyOp_fields op st
    apply emitPoint_frag_ne_nil
    · rw [hfields.1, hfields.2.2]
      exact he
    · have := emitSec_lt hval hsec
      omega

theorem fragStep_frag_mem {st : FragState} {live : List (Nat × Nat)}
    {op : FragOp}
    (hinv : FragInv st live) (he : EmitInv st) (hval : opValid live op) :
    ∀ v ∈ (fragStep st op).fragmentation,
      v ∈ st.fragmentation ∨ GoodVal v (liveStep live op) := by
  rcases hsec : emitSec op with _ | t
  · rw [fragStep_none hsec]
    intro v hv
    exact Or.inl hv
  · rw [fragStep_some hsec]
    intro v hv
    have hfields := applyOp_fields op st
    have hinv' : FragInv (applyOp op st) (liveStep live op) :=
      applyOp_inv hinv hsec hval
    have hx' : (applyOp op st).x = u64Max ∨
        (applyOp op st).fragmentation ≠ [] := by
      rw [hfields.1, hfields.2.2]
      exact he
    rcases emitPoint_frag_mem hx' v hv with h | h
    · rw [hfields.2.2] at h
      exact Or.inl h
    · right
      rw [h]
      exact frag_value hinv'

/-- Everything the loop ever writes into `fragmentation` is either inherited
or the correct fragmentation value of the live set after some processed
prefix. -/
theorem frag_run : ∀ (ops : List FragOp) (st : FragState)
    (live : List (Nat × Nat)),
    FragInv st live → EmitInv st → WFOps live ops →
    FragInv (ops.foldl fragStep st) (ops.foldl liveStep live) ∧
    EmitInv (ops.foldl fragStep st) ∧
    (∀ v ∈ (ops.foldl fragStep st).fragmentation,
      v ∈ st.fragmentation ∨
      ∃ n, GoodVal v ((ops.take n).foldl liveStep live)) := by
  intro ops
  induction ops with
  | nil =>
    intro st live h1 h2 _
    exact ⟨h1, h2, fun v hv => Or.inl hv⟩
  | cons op rest ih =>
    intro st live h1 h2 h3
    obtain ⟨hval, hrest⟩ := h3
    have h1' : FragInv (fragStep st op) (liveStep live op) := by
      rcases hsec : emitSec op with _ | t
      · rw [fragStep_none hsec, liveStep_none hsec]
        exact h1
      · rw [fragStep_some hsec]
        exact fragInv_emitPoint t (applyOp_inv h1 hsec hval)
    have h2' : EmitInv (fragStep st op) := fragStep_emitInv h2 hval
    obtain ⟨g1, g2, g3⟩ := ih (fragStep st op) (liveStep live op) h1' h2' hrest
    refine ⟨g1, g2, ?_⟩
    intro v hv
    rcases g3 v hv with h | ⟨n, hn⟩
    · rcases fragStep_frag_mem h1 h2 hval v h with h' | h'
      · exact Or.inl h'
      · exact Or.inr ⟨1, h'⟩
    · exact Or.inr ⟨n + 1, hn⟩

theorem u64mul_eq {a b : Nat} (h : a * b < 2 ^ 64) : u64mul a b = a * b := by
  unfold u64mul
  exact Nat.mod_eq_of_lt h

theorem secsOf_append (l₁ l₂ : List FragOp) :
    secsOf (l₁ ++ l₂) = secsOf l₁ ++ secsOf l₂ := by
  simp [secsOf]

theorem secsOf_single_none {op : FragOp} (h : emitSec op = none) :
    secsOf [op] = [] := by
  simp [secsOf, h]

theorem secsOf_single_some {op : FragOp} {t : Nat} (h : emitSec op = some t) :
    secsOf [op] = [t] := by
  simp [secsOf, h]

theorem secsOf_cons (op : FragOp) (rest : List FragOp) :
    secsOf (op :: rest) = secsOf [op] ++ secsOf rest := by
  rw [← List.singleton_append, secsOf_append]

theorem opsUpTo_append (s : Nat) (l₁ l₂ : List FragOp) :
    opsUpTo s (l₁ ++ l₂) = opsUpTo s l₁ ++ opsUpTo s l₂ := by
  simp [opsUpTo]

theorem opsUpTo_single_none {s : Nat} {op : FragOp} (h : emitSec op = none) :
    opsUpTo s [op] = [] := by
  simp [opsUpTo, h]

theorem opsUpTo_single_gt {s t : Nat} {op : FragOp} (h : emitSec op = some t)
    (hgt : s < t) : opsUpTo s [op] = [] := by
  simp [opsUpTo, h]
  omega

theorem opsUpTo_single_le {s t : Nat} {op : FragOp} (h : emitSec op = some t)
    (hle : t ≤ s) : opsUpTo s [op] = [op] := by
  simp [opsUpTo, h, hle]

theorem liveAtSec_snoc_none {done : List FragOp} {op : FragOp} {s : Nat}
    (h : emitSec op = none) : liveAtSec (done ++ [op]) s = liveAtSec done s := by
  unfold liveAtSec
  rw [opsUpTo_append, opsUpTo_single_none h, List.append_nil]

theorem liveAtSec_snoc_gt {done : List FragOp} {op : FragOp} {s t : Nat}
    (h : emitSec op = some t) (hgt : s < t) :
    liveAtSec (done ++ [op]) s = liveAtSec done s := by
  unfold liveAtSec
  rw [opsUpTo_append, opsUpTo_single_gt h hgt, List.append_nil]

theorem opsUpTo_foldl (x : Nat) : ∀ (done : List FragOp),
    (∀ s ∈ secsOf done, s ≤ x) →
    ∀ live₀ : List (Nat × Nat),
      (opsUpTo x done).foldl liveStep live₀ = done.foldl liveStep live₀ := by
  intro done
  induction done with
  | nil => intro _ live₀; rfl
  | cons op rest ih =>
    intro h live₀
    rcases hsec : emitSec op with _ | t
    · have hdrop : opsUpTo x (op :: rest) = opsUpTo x rest := by
        rw [← List.singleton_append, opsUpTo_append, opsUpTo_single_none hsec,
          List.nil_append]
      rw [hdrop, List.foldl_cons, liveStep_none hsec]
      refine ih (fun s hs => h s ?_) live₀
      rw [secsOf_cons, secsOf_single_none hsec, List.nil_append]
      exact hs
    · have ht : t ≤ x := by
        refine h t ?_
        rw [secsOf_cons, secsOf_single_some hsec]
        exact List.mem_append.mpr (Or.inl (List.mem_singleton.mpr rfl))
      have hkeep : opsUpTo x (op :: rest) = op :: opsUpTo x rest := by
        rw [← List.singleton_append, opsUpTo_append, opsUpTo_single_le hsec ht,
          List.singleton_append]
      rw [hkeep, List.foldl_cons, List.foldl_cons]
      refine ih (fun s hs => h s ?_) (liveStep live₀ op)
      rw [secsOf_cons, secsOf_single_some hsec]
      exact List.mem_append.mpr (Or.inr hs)

/-- Once every emitted second is at most `x`, the live set current at `x`
is just the live set after the whole processed stream. -/
theorem liveAtSec_all {done : List FragOp} {x : Nat}
    (h : ∀ s ∈ secsOf done, s ≤ x) : liveAtSec done x = liveAfter done := by
  unfold liveAtSec liveAfter
  exact opsUpTo_foldl x done h []

theorem liveAfter_snoc (done : List FragOp) (op : FragOp) :
    liveAfter (done ++ [op]) = liveStep (liveAfter done) op := by
  unfold liveAfter
  rw [List.foldl_append, List.foldl_cons, List.foldl_nil]

theorem emitVal_emitPoint (t : Nat) (st : FragState) :
    emitVal (emitPoint t st) = emitVal st := by
  obtain ⟨_, f2, f3, f4, _⟩ := emitPoint_fields t st
  unfold emitVal
  rw [f2, f3, f4]

theorem listGet_congr {α : Type} {l₁ l₂ : List α} (h : l₁ = l₂) (i : Nat)
    (h1 : i < l₁.length) (h2 : i < l₂.length) :
    l₁.get ⟨i, h1⟩ = l₂.get ⟨i, h2⟩ := by
  subst h
  rfl

theorem listGet_index_congr {α : Type} (l : List α) {i j : Nat} (h : i = j)
    (hi : i < l.length) (hj : j < l.length) :
    l.get ⟨i, hi⟩ = l.get ⟨j, hj⟩ := by
  subst h
  rfl

theorem listGet_append_left {α : Type} : ∀ (l₁ l₂ : List α) (i : Nat)
    (h1 : i < l₁.length) (h : i < (l₁ ++ l₂).length),
    (l₁ ++ l₂).get ⟨i, h⟩ = l₁.get ⟨i, h1⟩ := by
  intro l₁
  induction l₁ with
  | nil =>
    intro l₂ i h1 h
    exact absurd h1 (by simp)
  | cons a rest ih =>
    intro l₂ i h1 h
    cases i with
    | zero => rfl
    | succ n =>
      have h1' : n < rest.length := by
        rw [List.length_cons] at h1
        omega
      have h' : n < (rest ++ l₂).length := by
        simp only [List.cons_append, List.length_cons] at h
        omega
      show (rest ++ l₂).get ⟨n, h'⟩ = rest.get ⟨n, h1'⟩
      exact ih l₂ n h1' h'

theorem listGet_append_last {α : Type} : ∀ (l : List α) (a : α)
    (h : l.length < (l ++ [a]).length),
    (l ++ [a]).get ⟨l.length, h⟩ = a := by
  intro l
  induction l with
  | nil => intro a h; rfl
  | cons b rest ih =>
    intro a h
    show (rest ++ [a]).get ⟨rest.length, by simp⟩ = a
    exact ih a (by simp)

theorem setLast_get_lt : ∀ (l : List Nat) (v i : Nat) (h1 : i + 1 < l.length)
    (h2 : i < (setLast l v).length) (h3 : i < l.length),
    (setLast l v).get ⟨i, h2⟩ = l.get ⟨i, h3⟩ := by
  intro l
  induction l with
  | nil =>
    intro v i h1 _ _
    exact absurd h1 (by simp)
  | cons b rest ih =>
    intro v i h1 h2 h3
    cases rest with
    | nil =>
      rw [List.length_cons, List.length_nil] at h1
      omega
    | cons c r =>
      cases i with
      | zero => rfl
      | succ n =>
        have h1' : n + 1 < (c :: r).length := by
          simp only [List.length_cons] at h1 ⊢
          omega
        have h2' : n < (setLast (c :: r) v).length := by
          rw [setLast_length] at h2 ⊢
          simp only [List.length_cons] at h2 ⊢
          omega
        have h3' : n < (c :: r).length := by
          simp only [List.length_cons] at h3 ⊢
          omega
        show (setLast (c :: r) v).get ⟨n, h2'⟩ = (c :: r).get ⟨n, h3'⟩
        exact ih v n h1' h2' h3'

theorem setLast_get_last : ∀ (l : List Nat) (v i : Nat) (hi : i + 1 = l.length)
    (h2 : i < (setLast l v).length),
    (setLast l v).get ⟨i, h2⟩ = v := by
  intro l
  induction l with
  | nil =>
    intro v i hi _
    simp at hi
  | cons b rest ih =>
    intro v i hi h2
    cases rest with
    | nil =>
      have hz : i = 0 := by
        rw [List.length_cons, List.length_nil] at hi
        omega
      subst hz
      rfl
    | cons c r =>
      cases i with
      | zero =>
        rw [List.length_cons, List.length_cons] at hi
        omega
      | succ n =>
        have hi' : n + 1 = (c :: r).length := by
          simp only [List.length_cons] at hi ⊢
          omega
        have h2' : n < (setLast (c :: r) v).length := by
          rw [setLast_length] at h2 ⊢
          simp only [List.length_cons] at h2 ⊢
          omega
        show (setLast (c :: r) v).get ⟨n, h2'⟩ = v
        exact ih v n hi' h2'

theorem getLast_getD_append (l : List Nat) (a d : Nat) :
    (l ++ [a]).getLast?.getD d = a := by
  rw [List.getLast?_concat]
  rfl

theorem setLast_getLast : ∀ (l : List Nat) (v d : Nat), l ≠ [] →
    (setLast l v).getLast?.getD d = v := by
  intro l
  induction l with
  | nil =>
    intro v d h
    exact absurd rfl h
  | cons b rest ih =>
    intro v d _
    cases rest with
    | nil => rfl
    | cons c r =>
      have hne : setLast (c :: r) v ≠ [] := by
        intro hcon
        have hl := congrArg List.length hcon
        rw [setLast_length] at hl
        simp at hl
      rcases hm : setLast (c :: r) v with _ | ⟨e, m⟩
      · exact absurd hm hne
      · show (b :: setLast (c :: r) v).getLast?.getD d = v
        rw [hm, List.getLast?_cons_cons, ← hm]
        exact ih v d (by simp)

theorem getLast_getD_eq_get : ∀ (l : List Nat) (d i : Nat)
    (hi : i + 1 = l.length) (h : i < l.length),
    l.getLast?.getD d = l.get ⟨i, h⟩ := by
  intro l
  induction l with
  | nil =>
    intro d i hi _
    simp at hi
  | cons b rest ih =>
    intro d i hi h
    cases rest with
    | nil =>
      have hz : i = 0 := by
        rw [List.length_cons, List.length_nil] at hi
        omega
      subst hz
      rfl
    | cons c r =>
      cases i with
      | zero =>
        rw [List.length_cons, List.length_cons] at hi
        omega
      | succ n =>
        have hi' : n + 1 = (c :: r).length := by
          simp only [List.length_cons] at hi ⊢
          omega
        have h' : n < (c :: r).length := by omega
        rw [List.getLast?_cons_cons]
        show (c :: r).getLast?.getD d = (c :: r).get ⟨n, h'⟩
        exact ih d n hi' h'

/-- Closing an old data point: its stored value keeps accounting for the
live set current at its own second after one more (strictly later)
operation is processed. -/
theorem old_point_closed {done : List FragOp} {st : FragState} {op : FragOp}
    {next : Nat}
    (hsec : emitSec op = some next) (hgt : st.x < next)
    (hGV : emitVal st + sumLens (liveAfter done) = spanOf (liveAfter done))
    (p4 : ∀ s ∈ secsOf done, s ≤ st.x)
    {s v : Nat}
    (hcase : (s < st.x ∧ v + sumLens (liveAtSec done s)
        = spanOf (liveAtSec done s)) ∨ (s = st.x ∧ v = emitVal st)) :
    s < next ∧ v + sumLens (liveAtSec (done ++ [op]) s)
      = spanOf (liveAtSec (done ++ [op]) s) := by
  rcases hcase with ⟨h1, h2⟩ | ⟨h1, h2⟩
  · exact ⟨by omega, by rw [liveAtSec_snoc_gt hsec (by omega)]; exact h2⟩
  · subst h1
    refine ⟨hgt, ?_⟩
    rw [liveAtSec_snoc_gt hsec hgt, liveAtSec_all p4, h2]
    exact hGV

/-- A synthetic point in an idle interval: nothing was processed between the
previous second and `s`, so the carried previous value is the correct
fragmentation current at `s`. -/
theorem new_synth_point {done : List FragOp} {st : FragState} {op : FragOp}
    {next s : Nat}
    (hsec : emitSec op = some next)
    (hGV : emitVal st + sumLens (liveAfter done) = spanOf (liveAfter done))
    (p4 : ∀ q ∈ secsOf done, q ≤ st.x)
    (h1 : st.x ≤ s) (h2 : s < next) :
    emitVal st + sumLens (liveAtSec (done ++ [op]) s)
      = spanOf (liveAtSec (done ++ [op]) s) := by
  rw [liveAtSec_snoc_gt hsec h2,
    liveAtSec_all (fun q hq => Nat.le_trans (p4 q hq) h1)]
  exact hGV

theorem ptsInv_step_none {done : List FragOp} {st : FragState} {op : FragOp}
    (h : emitSec op = none) (hpts : PtsInv done st) :
    PtsInv (done ++ [op]) (fragStep st op) := by
  rw [fragStep_none h]
  obtain ⟨p1, p2, p3, p4, p5⟩ := hpts
  have hsecs : secsOf (done ++ [op]) = secsOf done := by
    rw [secsOf_append, secsOf_single_none h, List.append_nil]
  refine ⟨p1, ?_, ?_, ?_, ?_⟩
  · intro hx
    exact ⟨(p2 hx).1, by rw [hsecs]; exact (p2 hx).2⟩
  · intro hx
    obtain ⟨a, b, c⟩ := p3 hx
    exact ⟨a, by rw [hsecs]; exact b, c⟩
  · intro s hs
    rw [hsecs] at hs
    exact p4 s hs
  · intro i hxi hfi
    obtain ⟨s, q1, q2, q3, q4, q5⟩ := p5 i hxi hfi
    refine ⟨s, q1, q2, q3, ?_, q5⟩
    intro hlt
    obtain ⟨r1, r2⟩ := q4 hlt
    rw [liveAtSec_snoc_none h]
    exact ⟨r1, r2⟩

theorem ptsInv_step_same {done : List FragOp} {st : FragState} {op : FragOp}
    {next : Nat}
    (hsec : emitSec op = some next) (hx : next = st.x) (hlt : next < u64Max)
    (hpts : PtsInv done st) :
    PtsInv (done ++ [op]) (fragStep st op) := by
  obtain ⟨p1, p2, p3, p4, p5⟩ := hpts
  obtain ⟨e1, e2, e3⟩ := applyOp_fields op st
  have hxne : st.x ≠ u64Max := by omega
  obtain ⟨hxsne, hxmem, _⟩ := p3 hxne
  have hfragne : st.fragmentation ≠ [] := by
    intro hcon
    apply hxsne
    have hlen : st.xs.length = 0 := by rw [← p1, hcon]; rfl
    exact List.length_eq_zero.mp hlen
  rw [fragStep_some hsec,
    emitPoint_eq_same (show ¬ next ≠ (applyOp op st).x by rw [e1]; omega),
    e3]
  refine ⟨?_, ?_, ?_, ?_, ?_⟩
  · show (setLast st.fragmentation (emitVal (applyOp op st))).length
      = (applyOp op st).xs.length
    rw [setLast_length, e2]
    exact p1
  · intro hcon
    have hcon' : (applyOp op st).x = u64Max := hcon
    rw [e1] at hcon'
    exact absurd hcon' hxne
  · intro _
    refine ⟨?_, ?_, ?_⟩
    · show (applyOp op st).xs ≠ []
      rw [e2]
      exact hxsne
    · show (applyOp op st).x ∈ secsOf (done ++ [op])
      rw [e1, secsOf_append]
      exact List.mem_append.mpr (Or.inl hxmem)
    · show (setLast st.fragmentation
          (emitVal (applyOp op st))).getLast?.getD 0 = emitVal (applyOp op st)
      exact setLast_getLast st.fragmentation _ 0 hfragne
  · intro s hs
    show s ≤ (applyOp op st).x
    rw [e1]
    rw [secsOf_append, secsOf_single_some hsec] at hs
    rcases List.mem_append.mp hs with hs | hs
    · exact p4 s hs
    · rw [List.mem_singleton.mp hs]
      omega
  · intro i hxi hfi
    have hxi₂ : i < (applyOp op st).xs.length := hxi
    have hxi' : i < st.xs.length := by rw [← e2]; exact hxi₂
    have hfi₂ : i < (setLast st.fragmentation
        (emitVal (applyOp op st))).length := hfi
    have hfi' : i < st.fragmentation.length := by
      rw [setLast_length] at hfi₂
      exact hfi₂
    obtain ⟨s, q1, q2, q3, q4, q5⟩ := p5 i hxi' hfi'
    refine ⟨s, ?_, q2, ?_, ?_, ?_⟩
    · show (applyOp op st).xs.get ⟨i, hxi₂⟩ = s * 1000
      exact (listGet_congr e2 i hxi₂ hxi').trans q1
    · show s ≤ (applyOp op st).x
      rw [e1]
      exact q3
    · intro hilt
      have hilt' : i + 1 < st.xs.length := by
        have h0 : i + 1 < (applyOp op st).xs.length := hilt
        rw [e2] at h0
        exact h0
      obtain ⟨r1, r2⟩ := q4 hilt'
      have hval : (setLast st.fragmentation
          (emitVal (applyOp op st))).get ⟨i, hfi₂⟩
          = st.fragmentation.get ⟨i, hfi'⟩ :=
        setLast_get_lt _ _ i (by rw [p1]; exact hilt') hfi₂ hfi'
      refine ⟨?_, ?_⟩
      · show s < (applyOp op st).x
        rw [e1]
        exact r1
      · show (setLast st.fragmentation (emitVal (applyOp op st))).get ⟨i, hfi₂⟩
            + sumLens (liveAtSec (done ++ [op]) s)
          = spanOf (liveAtSec (done ++ [op]) s)
        rw [hval, liveAtSec_snoc_gt hsec (by omega)]
        exact r2
    · intro hieq
      have hieq' : i + 1 = st.xs.length := by
        have h0 : i + 1 = (applyOp op st).xs.length := hieq
        rw [e2] at h0
        exact h0
      obtain ⟨r1, _⟩ := q5 hieq'
      refine ⟨?_, ?_⟩
      · show s = (applyOp op st).x
        rw [e1]
        exact r1
      · show (setLast st.fragmentation (emitVal (applyOp op st))).get ⟨i, hfi₂⟩
          = emitVal (applyOp op st)
        exact setLast_get_last _ _ i (by rw [← p1] at hieq'; exact hieq') hfi₂

theorem ptsInv_step_first {done : List FragOp} {st : FragState} {op : FragOp}
    {next : Nat}
    (hsec : emitSec op = some next) (hx : st.x = u64Max) (hlt : next < u64Max)
    (hfitn : next * 1000 < 2 ^ 64)
    (hpts : PtsInv done st) :
    PtsInv (done ++ [op]) (fragStep st op) := by
  obtain ⟨p1, p2, p3, p4, p5⟩ := hpts
  obtain ⟨e1, e2, e3⟩ := applyOp_fields op st
  obtain ⟨hxs0, hsecs0⟩ := p2 hx
  have hfrag0 : st.fragmentation = [] := by
    have hlen : st.fragmentation.length = 0 := by rw [p1, hxs0]; rfl
    exact List.length_eq_zero.mp hlen
  rw [fragStep_some hsec,
    emitPoint_eq_next (show next ≠ (applyOp op st).x by rw [e1, hx]; omega)
      (show ¬ ((applyOp op st).x ≠ u64Max ∧ u64add (applyOp op st).x 1 ≠ next) by
        rw [e1, hx]
        intro hcon
        exact hcon.1 rfl),
    e2, e3, hxs0, hfrag0, List.nil_append, List.nil_append,
    u64mul_eq hfitn]
  have hsecsD : secsOf (done ++ [op]) = [next] := by
    rw [secsOf_append, secsOf_single_some hsec, hsecs0, List.nil_append]
  refine ⟨rfl, ?_, ?_, ?_, ?_⟩
  · intro hcon
    have hcon' : next = u64Max := hcon
    omega
  · intro _
    refine ⟨by simp, ?_, ?_⟩
    · show next ∈ secsOf (done ++ [op])
      rw [hsecsD]
      exact List.mem_singleton.mpr rfl
    · show ([emitVal (applyOp op st)] : List Nat).getLast?.getD 0
        = emitVal (applyOp op st)
      rfl
  · intro s hs
    show s ≤ next
    rw [hsecsD] at hs
    rw [List.mem_singleton.mp hs]
  · intro i hxi hfi
    have hxi' : i < ([next * 1000] : List Nat).length := hxi
    have hi0 : i = 0 := by
      simp at hxi'
      omega
    subst hi0
    refine ⟨next, rfl, hfitn, Nat.le_refl _, ?_, ?_⟩
    · intro hcon
      have hcon' : (0:Nat) + 1 < ([next * 1000] : List Nat).length := hcon
      simp at hcon'
    · intro _
      exact ⟨rfl, rfl⟩
theorem ptsInv_step_gap {done : List FragOp} {st : FragState} {op : FragOp}
    {next : Nat}
    (hsec : emitSec op = some next) (hxne : st.x ≠ u64Max) (hgt : st.x < next)
    (hlt : next < u64Max) (hfitn : next * 1000 < 2 ^ 64)
    (hinv : FragInv st (liveAfter done)) (hpts : PtsInv done st) :
    PtsInv (done ++ [op]) (fragStep st op) := by
  obtain ⟨p1, p2, p3, p4, p5⟩ := hpts
  obtain ⟨e1, e2, e3⟩ := applyOp_fields op st
  obtain ⟨hxsne, hxmem, hgdold⟩ := p3 hxne
  have hGV : emitVal st + sumLens (liveAfter done) = spanOf (liveAfter done) :=
    frag_value hinv
  have hlt' : next < 2 ^ 64 - 1 := hlt
  have hadd1 : u64add st.x 1 = st.x + 1 := u64add_eq (by omega)
  have hxfit : (st.x + 1) * 1000 < 2 ^ 64 := by
    have hm : (st.x + 1) * 1000 ≤ next * 1000 :=
      Nat.mul_le_mul_right 1000 (by omega)
    omega
  have hsecsD : secsOf (done ++ [op]) = secsOf done ++ [next] := by
    rw [secsOf_append, secsOf_single_some hsec]
  have hxmemD : next ∈ secsOf (done ++ [op]) := by
    rw [hsecsD]
    exact List.mem_append.mpr (Or.inr (List.mem_singleton.mpr rfl))
  have hsecle : ∀ s ∈ secsOf (done ++ [op]), s ≤ next := by
    intro s hs
    rw [hsecsD] at hs
    rcases List.mem_append.mp hs with hs | hs
    · exact Nat.le_trans (p4 s hs) (Nat.le_of_lt hgt)
    · rw [List.mem_singleton.mp hs]
  rw [fragStep_some hsec]
  rcases Nat.lt_or_ge next (st.x + 2) with hg1 | hg2
  · -- next = st.x + 1: one fresh point, no synthetics
    rw [emitPoint_eq_next (show next ≠ (applyOp op st).x by rw [e1]; omega)
        (show ¬ ((applyOp op st).x ≠ u64Max ∧ u64add (applyOp op st).x 1 ≠ next) by
          rw [e1]
          intro hcon
          exact hcon.2 (by rw [hadd1]; omega)),
      e2, e3, u64mul_eq hfitn]
    refine ⟨?_, ?_, ?_, hsecle, ?_⟩
    · show (st.fragmentation ++ [emitVal (applyOp op st)]).length
        = (st.xs ++ [next * 1000]).length
      simp [p1]
    · intro hcon
      have hcon' : next = u64Max := hcon
      omega
    · intro _
      exact ⟨by simp, hxmemD, getLast_getD_append _ _ 0⟩
    · intro i hxi hfi
      have hxi' : i < (st.xs ++ [next * 1000]).length := hxi
      have hfi' : i < (st.fragmentation ++ [emitVal (applyOp op st)]).length := hfi
      have hlen : (st.xs ++ [next * 1000]).length = st.xs.length + 1 := by simp
      rcases Nat.lt_or_ge i st.xs.length with hiL | hiL
      · have hfl : i < st.fragmentation.length := by rw [p1]; exact hiL
        obtain ⟨s, q1, q2, q3, q4, q5⟩ := p5 i hiL hfl
        have hgx : (st.xs ++ [next * 1000]).get ⟨i, hxi'⟩ = st.xs.get ⟨i, hiL⟩ :=
          listGet_append_left _ _ i hiL hxi'
        have hgf : (st.fragmentation ++ [emitVal (applyOp op st)]).get ⟨i, hfi'⟩
            = st.fragmentation.get ⟨i, hfl⟩ :=
          listGet_append_left _ _ i hfl hfi'
        have hcase : (s < st.x ∧ st.fragmentation.get ⟨i, hfl⟩
              + sumLens (liveAtSec done s) = spanOf (liveAtSec done s))
            ∨ (s = st.x ∧ st.fragmentation.get ⟨i, hfl⟩ = emitVal st) := by
          rcases Nat.lt_or_ge (i + 1) st.xs.length with hc | hc
          · exact Or.inl (q4 hc)
          · exact Or.inr (q5 (by omega))
        have hclose := old_point_closed hsec hgt hGV p4 hcase
        refine ⟨s, hgx.trans q1, q2, show s ≤ next by omega, ?_, ?_⟩
        · intro _
          exact ⟨hclose.1, by rw [hgf]; exact hclose.2⟩
        · intro hcon
          have hcon' : i + 1 = (st.xs ++ [next * 1000]).length := hcon
          rw [hlen] at hcon'
          omega
      · have hiL' : i = st.xs.length := by
          have h0 : i < (st.xs ++ [next * 1000]).length := hxi'
          rw [hlen] at h0
          omega
        subst hiL'
        refine ⟨next, ?_, hfitn, Nat.le_refl _, ?_, ?_⟩
        · show (st.xs ++ [next * 1000]).get ⟨st.xs.length, hxi'⟩ = next * 1000
          exact listGet_append_last _ _ hxi'
        · intro hcon
          have hcon' : st.xs.length + 1 < (st.xs ++ [next * 1000]).length := hcon
          rw [hlen] at hcon'
          omega
        · intro _
          refine ⟨rfl, ?_⟩
          show (st.fragmentation ++ [emitVal (applyOp op st)]).get
              ⟨st.xs.length, hfi'⟩ = emitVal (applyOp op st)
          refine (listGet_index_congr _ p1.symm hfi' (by simp)).trans ?_
          exact listGet_append_last _ _ (by simp)
  · rcases Nat.lt_or_ge next (st.x + 3) with hg2a | hg2b
    · -- next = st.x + 2: one synthetic point at st.x + 1, then the fresh one
      have hnx : next = st.x + 2 := by omega
      have hadd2 : u64add st.x 2 = st.x + 2 := u64add_eq (by omega)
      rw [emitPoint_eq_gap1 (show next ≠ (applyOp op st).x by rw [e1]; omega)
          (show (applyOp op st).x ≠ u64Max ∧ u64add (applyOp op st).x 1 ≠ next by
            rw [e1]
            exact ⟨hxne, by rw [hadd1]; omega⟩)
          (show ¬ u64add (applyOp op st).x 2 ≠ next by
            rw [e1, hadd2]
            omega),
        e1, e2, e3, hadd1, hgdold, u64mul_eq hxfit, u64mul_eq hfitn]
      refine ⟨?_, ?_, ?_, hsecle, ?_⟩
      · show (st.fragmentation ++ [emitVal st] ++ [emitVal (applyOp op st)]).length
          = (st.xs ++ [(st.x + 1) * 1000] ++ [next * 1000]).length
        simp [p1]
      · intro hcon
        have hcon' : next = u64Max := hcon
        omega
      · intro _
        exact ⟨by simp, hxmemD, getLast_getD_append _ _ 0⟩
      · intro i hxi hfi
        have hxi' : i < (st.xs ++ [(st.x + 1) * 1000] ++ [next * 1000]).length := hxi
        have hfi' : i < (st.fragmentation ++ [emitVal st]
            ++ [emitVal (applyOp op st)]).length := hfi
        have hlen : (st.xs ++ [(st.x + 1) * 1000] ++ [next * 1000]).length
            = st.xs.length + 2 := by simp
        rcases Nat.lt_or_ge i st.xs.length with hiL | hiL
        · have hfl : i < st.fragmentation.length := by rw [p1]; exact hiL
          obtain ⟨s, q1, q2, q3, q4, q5⟩ := p5 i hiL hfl
          have hgx : (st.xs ++ [(st.x + 1) * 1000] ++ [next * 1000]).get ⟨i, hxi'⟩
              = st.xs.get ⟨i, hiL⟩ := by
            refine (listGet_append_left _ _ i (by simp; omega) hxi').trans ?_
            exact listGet_append_left _ _ i hiL (by simp; omega)
          have hgf : (st.fragmentation ++ [emitVal st]
              ++ [emitVal (applyOp op st)]).get ⟨i, hfi'⟩
              = st.fragmentation.get ⟨i, hfl⟩ := by
            refine (listGet_append_left _ _ i (by simp; omega) hfi').trans ?_
            exact listGet_append_left _ _ i hfl (by simp; omega)
          have hcase : (s < st.x ∧ st.fragmentation.get ⟨i, hfl⟩
                + sumLens (liveAtSec done s) = spanOf (liveAtSec done s))
              ∨ (s = st.x ∧ st.fragmentation.get ⟨i, hfl⟩ = emitVal st) := by
            rcases Nat.lt_or_ge (i + 1) st.xs.length with hc | hc
            · exact Or.inl (q4 hc)
            · exact Or.inr (q5 (by omega))
          have hclose := old_point_closed hsec hgt hGV p4 hcase
          refine ⟨s, hgx.trans q1, q2, show s ≤ next by omega, ?_, ?_⟩
          · intro _
            exact ⟨hclose.1, by rw [hgf]; exact hclose.2⟩
          · intro hcon
            have hcon' : i + 1 = (st.xs ++ [(st.x + 1) * 1000]
                ++ [next * 1000]).length := hcon
            rw [hlen] at hcon'
            omega
        · rcases Nat.lt_or_ge i (st.xs.length + 1) with hiM | hiM
          · -- i = st.xs.length: the synthetic point at second st.x + 1
            have hiL' : i = st.xs.length := by omega
            subst hiL'
            refine ⟨st.x + 1, ?_, hxfit, show st.x + 1 ≤ next by omega, ?_, ?_⟩
            · show (st.xs ++ [(st.x + 1) * 1000] ++ [next * 1000]).get
                  ⟨st.xs.length, hxi'⟩ = (st.x + 1) * 1000
              refine (listGet_append_left _ _ _ (by simp) hxi').trans ?_
              exact listGet_append_last _ _ (by simp)
            · intro _
              refine ⟨show st.x + 1 < next by omega, ?_⟩
              have hgf : (st.fragmentation ++ [emitVal st]
                  ++ [emitVal (applyOp op st)]).get ⟨st.xs.length, hfi'⟩
                  = emitVal st := by
                refine (listGet_append_left _ _ _ (by simp [p1]) hfi').trans ?_
                refine (listGet_index_congr _ p1.symm (by simp [p1]) (by simp)).trans ?_
                exact listGet_append_last _ _ (by simp)
              rw [hgf]
              exact new_synth_point hsec hGV p4 (by omega) (by omega)
            · intro hcon
              have hcon' : st.xs.length + 1 = (st.xs ++ [(st.x + 1) * 1000]
                  ++ [next * 1000]).length := hcon
              rw [hlen] at hcon'
              omega
          · -- i = st.xs.length + 1: the fresh point at second next
            have hiL' : i = st.xs.length + 1 := by
              have h0 : i < (st.xs ++ [(st.x + 1) * 1000]
                  ++ [next * 1000]).length := hxi'
              rw [hlen] at h0
              omega
            subst hiL'
            refine ⟨next, ?_, hfitn, Nat.le_refl _, ?_, ?_⟩
            · show (st.xs ++ [(st.x + 1) * 1000] ++ [next * 1000]).get
                  ⟨st.xs.length + 1, hxi'⟩ = next * 1000
              refine (listGet_index_congr _
                (show st.xs.length + 1 = (st.xs ++ [(st.x + 1) * 1000]).length
                  by simp) hxi' (by simp)).trans ?_
              exact listGet_append_last _ _ (by simp)
            · intro hcon
              have hcon' : st.xs.length + 1 + 1 < (st.xs ++ [(st.x + 1) * 1000]
                  ++ [next * 1000]).length := hcon
              rw [hlen] at hcon'
              omega
            · intro _
              refine ⟨rfl, ?_⟩
              show (st.fragmentation ++ [emitVal st]
                  ++ [emitVal (applyOp op st)]).get ⟨st.xs.length + 1, hfi'⟩
                  = emitVal (applyOp op st)
              refine (listGet_index_congr _
                (show st.xs.length + 1
                    = (st.fragmentation ++ [emitVal st]).length
                  by simp [p1]) hfi' (by simp)).trans ?_
              exact listGet_append_last _ _ (by simp)
    · -- st.x + 3 ≤ next: two synthetic points at st.x + 1 and next - 1
      have hadd2 : u64add st.x 2 = st.x + 2 := u64add_eq (by omega)
      have hsub1 : u64sub next 1 = next - 1 := u64sub_eq (by omega) (by omega)
      have hnfit1 : (next - 1) * 1000 < 2 ^ 64 := by
        have hm : (next - 1) * 1000 ≤ next * 1000 :=
          Nat.mul_le_mul_right 1000 (by omega)
        omega
      rw [emitPoint_eq_gap2 (show next ≠ (applyOp op st).x by rw [e1]; omega)
          (show (applyOp op st).x ≠ u64Max ∧ u64add (applyOp op st).x 1 ≠ next by
            rw [e1]
            exact ⟨hxne, by rw [hadd1]; omega⟩)
          (show u64add (applyOp op st).x 2 ≠ next by
            rw [e1, hadd2]
            omega),
        e1, e2, e3, hadd1, hsub1, hgdold, u64mul_eq hxfit, u64mul_eq hnfit1,
        u64mul_eq hfitn]
      refine ⟨?_, ?_, ?_, hsecle, ?_⟩
      · show (st.fragmentation ++ [emitVal st] ++ [emitVal st]
            ++ [emitVal (applyOp op st)]).length
          = (st.xs ++ [(st.x + 1) * 1000] ++ [(next - 1) * 1000]
            ++ [next * 1000]).length
        simp [p1]
      · intro hcon
        have hcon' : next = u64Max := hcon
        omega
      · intro _
        exact ⟨by simp, hxmemD, getLast_getD_append _ _ 0⟩
      · intro i hxi hfi
        have hxi' : i < (st.xs ++ [(st.x + 1) * 1000] ++ [(next - 1) * 1000]
            ++ [next * 1000]).length := hxi
        have hfi' : i < (st.fragmentation ++ [emitVal st] ++ [emitVal st]
            ++ [emitVal (applyOp op st)]).length := hfi
        have hlen : (st.xs ++ [(st.x + 1) * 1000] ++ [(next - 1) * 1000]
            ++ [next * 1000]).length = st.xs.length + 3 := by simp
        rcases Nat.lt_or_ge i st.xs.length with hiL | hiL
        · have hfl : i < st.fragmentation.length := by rw [p1]; exact hiL
          obtain ⟨s, q1, q2, q3, q4, q5⟩ := p5 i hiL hfl
          have hgx : (st.xs ++ [(st.x + 1) * 1000] ++ [(next - 1) * 1000]
              ++ [next * 1000]).get ⟨i, hxi'⟩ = st.xs.get ⟨i, hiL⟩ := by
            refine (listGet_append_left _ _ i (by simp; omega) hxi').trans ?_
            refine (listGet_append_left _ _ i (by simp; omega) (by simp; omega)).trans ?_
            exact listGet_append_left _ _ i hiL (by simp; omega)
          have hgf : (st.fragmentation ++ [emitVal st] ++ [emitVal st]
              ++ [emitVal (applyOp op st)]).get ⟨i, hfi'⟩
              = st.fragmentation.get ⟨i, hfl⟩ := by
            refine (listGet_append_left _ _ i (by simp; omega) hfi').trans ?_
            refine (listGet_append_left _ _ i (by simp; omega) (by simp; omega)).trans ?_
            exact listGet_append_left _ _ i hfl (by simp; omega)
          have hcase : (s < st.x ∧ st.fragmentation.get ⟨i, hfl⟩
                + sumLens (liveAtSec done s) = spanOf (liveAtSec done s))
              ∨ (s = st.x ∧ st.fragmentation.get ⟨i, hfl⟩ = emitVal st) := by
            rcases Nat.lt_or_ge (i + 1) st.xs.length with hc | hc
            · exact Or.inl (q4 hc)
            · exact Or.inr (q5 (by omega))
          have hclose := old_point_closed hsec hgt hGV p4 hcase
          refine ⟨s, hgx.trans q1, q2, show s ≤ next by omega, ?_, ?_⟩
          · intro _
            exact ⟨hclose.1, by rw [hgf]; exact hclose.2⟩
          · intro hcon
            have hcon' : i + 1 = (st.xs ++ [(st.x + 1) * 1000]
                ++ [(next - 1) * 1000] ++ [next * 1000]).length := hcon
            rw [hlen] at hcon'
            omega
        · rcases Nat.lt_or_ge i (st.xs.length + 1) with hiM | hiM
          · -- the synthetic point at second st.x + 1
            have hiL' : i = st.xs.length := by omega
            subst hiL'
            refine ⟨st.x + 1, ?_, hxfit, show st.x + 1 ≤ next by omega, ?_, ?_⟩
            · show (st.xs ++ [(st.x + 1) * 1000] ++ [(next - 1) * 1000]
                  ++ [next * 1000]).get ⟨st.xs.length, hxi'⟩ = (st.x + 1) * 1000
              refine (listGet_append_left _ _ _ (by simp) hxi').trans ?_
              refine (listGet_append_left _ _ _ (by simp) (by simp)).trans ?_
              exact listGet_append_last _ _ (by simp)
            · intro _
              refine ⟨show st.x + 1 < next by omega, ?_⟩
              have hgf : (st.fragmentation ++ [emitVal st] ++ [emitVal st]
                  ++ [emitVal (applyOp op st)]).get ⟨st.xs.length, hfi'⟩
                  = emitVal st := by
                refine (listGet_append_left _ _ _ (by simp [p1]) hfi').trans ?_
                refine (listGet_append_left _ _ _ (by simp [p1]) (by simp [p1])).trans ?_
                refine (listGet_index_congr _ p1.symm (by simp [p1]) (by simp)).trans ?_
                exact listGet_append_last _ _ (by simp)
              rw [hgf]
              exact new_synth_point hsec hGV p4 (by omega) (by omega)
            · intro hcon
              have hcon' : st.xs.length + 1 = (st.xs ++ [(st.x + 1) * 1000]
                  ++ [(next - 1) * 1000] ++ [next * 1000]).length := hcon
              rw [hlen] at hcon'
              omega
          · rcases Nat.lt_or_ge i (st.xs.length + 2) with hiN | hiN
            · -- the synthetic point at second next - 1
              have hiL' : i = st.xs.length + 1 := by omega
              subst hiL'
              refine ⟨next - 1, ?_, hnfit1, show next - 1 ≤ next by omega, ?_, ?_⟩
              · show (st.xs ++ [(st.x + 1) * 1000] ++ [(next - 1) * 1000]
                    ++ [next * 1000]).get ⟨st.xs.length + 1, hxi'⟩
                  = (next - 1) * 1000
                refine (listGet_append_left _ _ _ (by simp) hxi').trans ?_
                refine (listGet_index_congr _
                  (show st.xs.length + 1 = (st.xs ++ [(st.x + 1) * 1000]).length
                    by simp) (by simp) (by simp)).trans ?_
                exact listGet_append_last _ _ (by simp)
              · intro _
                refine ⟨show next - 1 < next by omega, ?_⟩
                have hgf : (st.fragmentation ++ [emitVal st] ++ [emitVal st]
                    ++ [emitVal (applyOp op st)]).get ⟨st.xs.length + 1, hfi'⟩
                    = emitVal st := by
                  refine (listGet_append_left _ _ _ (by simp [p1]) hfi').trans ?_
                  refine (listGet_index_congr _
                    (show st.xs.length + 1
                        = (st.fragmentation ++ [emitVal st]).length
                      by simp [p1]) (by simp [p1]) (by simp)).trans ?_
                  exact listGet_append_last _ _ (by simp)
                rw [hgf]
                exact new_synth_point hsec hGV p4 (by omega) (by omega)
              · intro hcon
                have hcon' : st.xs.length + 1 + 1 = (st.xs ++ [(st.x + 1) * 1000]
                    ++ [(next - 1) * 1000] ++ [next * 1000]).length := hcon
                rw [hlen] at hcon'
                omega
            · -- the fresh point at second next
              have hiL' : i = st.xs.length + 2 := by
                have h0 : i < (st.xs ++ [(st.x + 1) * 1000]
                    ++ [(next - 1) * 1000] ++ [next * 1000]).length := hxi'
                rw [hlen] at h0
                omega
              subst hiL'
              refine ⟨next, ?_, hfitn, Nat.le_refl _, ?_, ?_⟩
              · show (st.xs ++ [(st.x + 1) * 1000] ++ [(next - 1) * 1000]
                    ++ [next * 1000]).get ⟨st.xs.length + 2, hxi'⟩ = next * 1000
                refine (listGet_index_congr _
                  (show st.xs.length + 2
                      = (st.xs ++ [(st.x + 1) * 1000]
                        ++ [(next - 1) * 1000]).length
                    by simp) hxi' (by simp)).trans ?_
                exact listGet_append_last _ _ (by simp)
              · intro hcon
                have hcon' : st.xs.length + 2 + 1 < (st.xs ++ [(st.x + 1) * 1000]
                    ++ [(next - 1) * 1000] ++ [next * 1000]).length := hcon
                rw [hlen] at hcon'
                omega
              · intro _
                refine ⟨rfl, ?_⟩
                show (st.fragmentation ++ [emitVal st] ++ [emitVal st]
                    ++ [emitVal (applyOp op st)]).get ⟨st.xs.length + 2, hfi'⟩
                  = emitVal (applyOp op st)
                refine (listGet_index_congr _
                  (show st.xs.length + 2
                      = (st.fragmentation ++ [emitVal st]
                        ++ [emitVal st]).length
                    by simp [p1]) hfi' (by simp)).trans ?_
                exact listGet_append_last _ _ (by simp)

theorem frag_points_step {done : List FragOp} {st : FragState} {op : FragOp}
    (hinv : FragInv st (liveAfter done)) (hpts : PtsInv done st)
    (hval : opValid (liveAfter done) op)
    (hle : ∀ s ∈ secsOf done, ∀ t, emitSec op = some t → s ≤ t)
    (hfit : ∀ t, emitSec op = some t → t * 1000 < 2 ^ 64) :
    PtsInv (done ++ [op]) (fragStep st op) := by
  rcases hsec : emitSec op with _ | next
  · exact ptsInv_step_none hsec hpts
  · have hlt : next < u64Max := emitSec_lt hval hsec
    have hfitn : next * 1000 < 2 ^ 64 := hfit next hsec
    rcases Decidable.em (st.x = u64Max) with hxmax | hxne
    · exact ptsInv_step_first hsec hxmax hlt hfitn hpts
    · have hxmem := (hpts.2.2.1 hxne).2.1
      have hxle : st.x ≤ next := hle st.x hxmem next hsec
      rcases Decidable.em (next = st.x) with hsame | hdiff
      · exact ptsInv_step_same hsec hsame hlt hpts
      · exact ptsInv_step_gap hsec hxne (by omega) hlt hfitn hinv hpts

/-- Running the loop over the remaining operations preserves the state
invariant and the per-point invariant. -/
theorem frag_points_run : ∀ (rest done : List FragOp) (st : FragState),
    FragInv st (liveAfter done) → PtsInv done st →
    WFOps (liveAfter done) rest →
    ((secsOf done ++ secsOf rest).Pairwise (· ≤ ·)) →
    (∀ t ∈ secsOf done ++ secsOf rest, t * 1000 < 2 ^ 64) →
    FragInv (rest.foldl fragStep st) (liveAfter (done ++ rest)) ∧
    PtsInv (done ++ rest) (rest.foldl fragStep st) := by
  intro rest
  induction rest with
  | nil =>
    intro done st h1 h2 _ _ _
    rw [List.append_nil]
    exact ⟨h1, h2⟩
  | cons op rest' ih =>
    intro done st h1 h2 h3 h4 h5
    obtain ⟨hval, hrest⟩ := h3
    have hle : ∀ s ∈ secsOf done, ∀ t, emitSec op = some t → s ≤ t := by
      intro s hs t ht
      refine (List.pairwise_append.mp h4).2.2 s hs t ?_
      rw [secsOf_cons, secsOf_single_some ht]
      exact List.mem_append.mpr (Or.inl (List.mem_singleton.mpr rfl))
    have hfit : ∀ t, emitSec op = some t → t * 1000 < 2 ^ 64 := by
      intro t ht
      refine h5 t (List.mem_append.mpr (Or.inr ?_))
      rw [secsOf_cons, secsOf_single_some ht]
      exact List.mem_append.mpr (Or.inl (List.mem_singleton.mpr rfl))
    have h1' : FragInv (fragStep st op) (liveAfter (done ++ [op])) := by
      rw [liveAfter_snoc]
      rcases hsec : emitSec op with _ | t
      · rw [fragStep_none hsec, liveStep_none hsec]
        exact h1
      · rw [fragStep_some hsec]
        exact fragInv_emitPoint t (applyOp_inv h1 hsec hval)
    have h2' : PtsInv (done ++ [op]) (fragStep st op) :=
      frag_points_step h1 h2 hval hle hfit
    have h3' : WFOps (liveAfter (done ++ [op])) rest' := by
      rw [liveAfter_snoc]
      exact hrest
    have hsecseq : secsOf (done ++ [op]) ++ secsOf rest'
        = secsOf done ++ secsOf (op :: rest') := by
      rw [secsOf_append, List.append_assoc, ← secsOf_append,
        List.singleton_append]
    have h4' : (secsOf (done ++ [op]) ++ secsOf rest').Pairwise (· ≤ ·) := by
      rw [hsecseq]
      exact h4
    have h5' : ∀ t ∈ secsOf (done ++ [op]) ++ secsOf rest',
        t * 1000 < 2 ^ 64 := by
      intro t ht
      rw [hsecseq] at ht
      exact h5 t ht
    have hres := ih (done ++ [op]) (fragStep st op) h1' h2' h3' h4' h5'
    rw [List.append_assoc, List.singleton_append] at hres
    exact hres

/-- **C4.** On a valid, chronologically ordered operation stream, **every**
data point of `get_fragmentation_timeline` carries the fragmentation of the
live matched (main-arena, non-mmaped, non-jemalloc) allocations **current at
that point's own timestamp**: writing `s` for the point's second
(`xs[i] / 1000`) and `liveAtSec ops s` for the live set current at `s`, the
value satisfies `frag[i] + (sum of live sizes) = (max live end - min live
start)` (0 when nothing is live at `s`); hence `frag[i]` equals the current
span minus the current used bytes, `fragmentation + used_bytes` never
exceeds the span at that timestamp, and the value is 0 whenever no matched
allocation is live at that timestamp. -/
theorem C4_fragmentation_value (ops : List FragOp)
    (hwf : WFOps [] ops)
    (hmono : (secsOf ops).Pairwise (· ≤ ·))
    (hfit : ∀ t ∈ secsOf ops, t * 1000 < 2 ^ 64) :
    (get_fragmentation_timeline ops).2.length
      = (get_fragmentation_timeline ops).1.length ∧
    ∀ i (hx : i < (get_fragmentation_timeline ops).1.length)
      (hf : i < (get_fragmentation_timeline ops).2.length),
      (get_fragmentation_timeline ops).2.get ⟨i, hf⟩
          + sumLens (liveAtSec ops
              ((get_fragmentation_timeline ops).1.get ⟨i, hx⟩ / 1000))
        = spanOf (liveAtSec ops
            ((get_fragmentation_timeline ops).1.get ⟨i, hx⟩ / 1000)) ∧
      (get_fragmentation_timeline ops).2.get ⟨i, hf⟩
        = spanOf (liveAtSec ops
              ((get_fragmentation_timeline ops).1.get ⟨i, hx⟩ / 1000))
          - sumLens (liveAtSec ops
              ((get_fragmentation_timeline ops).1.get ⟨i, hx⟩ / 1000)) ∧
      ((liveAtSec ops
            ((get_fragmentation_timeline ops).1.get ⟨i, hx⟩ / 1000)).isEmpty
          = true →
        (get_fragmentation_timeline ops).2.get ⟨i, hf⟩ = 0) := by
  have hinit : FragInv initFragState (liveAfter []) :=
    ⟨⟨fun r hr => absurd hr (List.not_mem_nil r), List.Pairwise.nil⟩,
      rfl, List.Pairwise.nil, fun k => rfl, fun _ => ⟨rfl, rfl⟩,
      fun h => absurd rfl h⟩
  have hpts0 : PtsInv [] initFragState :=
    ⟨rfl, fun _ => ⟨rfl, rfl⟩, fun h => absurd rfl h,
      fun s hs => absurd hs (List.not_mem_nil s),
      fun i hxi _ => absurd hxi (by simp [initFragState])⟩
  obtain ⟨hfin, hptsF⟩ := frag_points_run ops [] initFragState hinit hpts0
    hwf hmono hfit
  obtain ⟨p1, p2, p3, p4, p5⟩ := hptsF
  constructor
  · exact p1
  · intro i hx hf
    have hx' : i < (ops.foldl fragStep initFragState).xs.length := hx
    have hf' : i < (ops.foldl fragStep initFragState).fragmentation.length := hf
    obtain ⟨s, q1, q2, q3, q4, q5⟩ := p5 i hx' hf'
    have hdiv : (get_fragmentation_timeline ops).1.get ⟨i, hx⟩ / 1000 = s := by
      have hq : (get_fragmentation_timeline ops).1.get ⟨i, hx⟩ = s * 1000 := q1
      rw [hq]
      exact Nat.mul_div_cancel s (by omega)
    have hgood : (get_fragmentation_timeline ops).2.get ⟨i, hf⟩
        + sumLens (liveAtSec ops s) = spanOf (liveAtSec ops s) := by
      rcases Nat.lt_or_ge (i + 1)
          ((ops.foldl fragStep initFragState).xs.length) with hc | hc
      · exact (q4 hc).2
      · have hceq : i + 1 = (ops.foldl fragStep initFragState).xs.length := by
          omega
        obtain ⟨hseq, hval⟩ := q5 hceq
        have hLA : liveAtSec ops s = liveAfter ops := by
          apply liveAtSec_all
          intro q hq
          rw [hseq]
          exact p4 q hq
        rw [hLA]
        have hval' : (get_fragmentation_timeline ops).2.get ⟨i, hf⟩
            = emitVal (ops.foldl fragStep initFragState) := hval
        rw [hval']
        exact frag_value hfin
    rw [hdiv]
    refine ⟨hgood, by omega, ?_⟩
    intro hie
    have hnil := eq_nil_of_isEmpty hie
    rw [hnil, sumLens_nil] at hgood
    have h0 : spanOf ([] : List (Nat × Nat)) = 0 := rfl
    omega

/-- **C4 witness.** Two live allocations `[0x1000, 0x1010)` and
`[0x2000, 0x2008)` at second 0: the single data point sits at second 0 and
its value `(0x2008 - 0x1000) - 0x18 = 4080` accounts exactly for the span
of the live set current at second 0. -/
theorem C4_fragmentation_value_witness :
    WFOps [] wfrOps ∧
    (get_fragmentation_timeline wfrOps).2.get ⟨0, by decide⟩
        + sumLens (liveAtSec wfrOps
            ((get_fragmentation_timeline wfrOps).1.get ⟨0, by decide⟩ / 1000))
      = spanOf (liveAtSec wfrOps
          ((get_fragmentation_timeline wfrOps).1.get ⟨0, by decide⟩ / 1000)) :=
  ⟨by decide,
    ((C4_fragmentation_value wfrOps (by decide) (by decide) (by decide)).2 0
      (by decide) (by decide)).1⟩

/-- **C5.** One data point per distinct whole second, and synthetic points
exactly as the gap dictates: processing a matched operation at second `next`
after a previous point at second `prev = st.x` appends nothing to `xs` when
`next = prev` (the last value is only rewritten), exactly one point when
`next = prev + 1`, one synthetic point at `prev+1` (in ms) carrying the
previous fragmentation value when exactly one second was skipped, and
exactly two synthetic points at `prev+1` and `next-1` (in ms), both
carrying the previous fragmentation value, when at least two seconds were
skipped. -/
theorem C5_timeline_gap_points (ops₁ : List FragOp) (op : FragOp) (next : Nat)
    (st st' : FragState)
    (hst : st = ops₁.foldl fragStep initFragState)
    (hst' : st' = (ops₁ ++ [op]).foldl fragStep initFragState)
    (hsec : emitSec op = some next)
    (hxlt : st.x < u64Max) (hnextlt : next < u64Max) :
    (next = st.x → st'.xs = st.xs ∧
      ∃ v, st'.fragmentation = setLast st.fragmentation v) ∧
    (next = st.x + 1 → st'.xs = st.xs ++ [u64mul next 1000] ∧
      ∃ v, st'.fragmentation = st.fragmentation ++ [v]) ∧
    (next = st.x + 2 →
      st'.xs = st.xs ++ [u64mul (st.x + 1) 1000] ++ [u64mul next 1000] ∧
      ∃ v, st'.fragmentation = st.fragmentation
        ++ [st.fragmentation.getLast?.getD 0] ++ [v]) ∧
    (st.x + 3 ≤ next →
      st'.xs = st.xs ++ [u64mul (st.x + 1) 1000] ++ [u64mul (next - 1) 1000]
        ++ [u64mul next 1000] ∧
      ∃ v, st'.fragmentation = st.fragmentation
        ++ [st.fragmentation.getLast?.getD 0]
        ++ [st.fragmentation.getLast?.getD 0] ++ [v]) := by
  subst hst'
  rw [List.foldl_append, ← hst, List.foldl_cons, List.foldl_nil,
    fragStep_some hsec]
  obtain ⟨hax, haxs, hafrag⟩ := applyOp_fields op st
  have hxn : st.x < 2 ^ 64 - 1 := hxlt
  have hnn : next < 2 ^ 64 - 1 := hnextlt
  have hadd1 : u64add st.x 1 = st.x + 1 := u64add_eq (by omega)
  refine ⟨?_, ?_, ?_, ?_⟩
  · intro h
    rw [emitPoint_eq_same (by rw [hax]; omega)]
    refine ⟨haxs, emitVal (applyOp op st), ?_⟩
    show setLast (applyOp op st).fragmentation (emitVal (applyOp op st))
      = setLast st.fragmentation (emitVal (applyOp op st))
    rw [hafrag]
  · intro h
    rw [emitPoint_eq_next (by rw [hax]; omega)
      (by
        rw [hax]
        intro hcon
        exact hcon.2 (by rw [hadd1]; omega))]
    constructor
    · show (applyOp op st).xs ++ [u64mul next 1000] = st.xs ++ [u64mul next 1000]
      rw [haxs]
    · refine ⟨emitVal (applyOp op st), ?_⟩
      show (applyOp op st).fragmentation ++ [emitVal (applyOp op st)]
        = st.fragmentation ++ [emitVal (applyOp op st)]
      rw [hafrag]
  · intro h
    have hadd2 : u64add st.x 2 = st.x + 2 := u64add_eq (by omega)
    rw [emitPoint_eq_gap1 (by rw [hax]; omega)
      ⟨by rw [hax]; omega, by rw [hax, hadd1]; omega⟩
      (by rw [hax, hadd2]; omega)]
    constructor
    · show (applyOp op st).xs ++ [u64mul (u64add (applyOp op st).x 1) 1000]
          ++ [u64mul next 1000]
        = st.xs ++ [u64mul (st.x + 1) 1000] ++ [u64mul next 1000]
      rw [haxs, hax, hadd1]
    · refine ⟨emitVal (applyOp op st), ?_⟩
      show (applyOp op st).fragmentation
          ++ [(applyOp op st).fragmentation.getLast?.getD 0]
          ++ [emitVal (applyOp op st)]
        = st.fragmentation ++ [st.fragmentation.getLast?.getD 0]
          ++ [emitVal (applyOp op st)]
      rw [hafrag]
  · intro h
    have hadd2 : u64add st.x 2 = st.x + 2 := u64add_eq (by omega)
    have hsub1 : u64sub next 1 = next - 1 := u64sub_eq (by omega) (by omega)
    rw [emitPoint_eq_gap2 (by rw [hax]; omega)
      ⟨by rw [hax]; omega, by rw [hax, hadd1]; omega⟩
      (by rw [hax, hadd2]; omega)]
    constructor
    · show (applyOp op st).xs ++ [u64mul (u64add (applyOp op st).x 1) 1000]
          ++ [u64mul (u64sub next 1) 1000] ++ [u64mul next 1000]
        = st.xs ++ [u64mul (st.x + 1) 1000] ++ [u64mul (next - 1) 1000]
          ++ [u64mul next 1000]
      rw [haxs, hax, hadd1, hsub1]
    · refine ⟨emitVal (applyOp op st), ?_⟩
      show (applyOp op st).fragmentation
          ++ [(applyOp op st).fragmentation.getLast?.getD 0]
          ++ [(applyOp op st).fragmentation.getLast?.getD 0]
          ++ [emitVal (applyOp op st)]
        = st.fragmentation ++ [st.fragmentation.getLast?.getD 0]
          ++ [st.fragmentation.getLast?.getD 0] ++ [emitVal (applyOp op st)]
      rw [hafrag]

/-- **C5 witness.** After one matched allocation at second 0, a matched
allocation at second 5 (four skipped seconds) appends synthetic points at
seconds 1 and 4 carrying the previous value, then the point for second 5. -/
theorem C5_timeline_gap_points_witness :
    ([FragOp.alloc wfrA].foldl fragStep initFragState).x + 3 ≤ 5 ∧
    (([FragOp.alloc wfrA] ++ [FragOp.alloc wfrC]).foldl fragStep
        initFragState).xs
      = ([FragOp.alloc wfrA].foldl fragStep initFragState).xs
        ++ [u64mul (([FragOp.alloc wfrA].foldl fragStep initFragState).x + 1)
              1000]
        ++ [u64mul (5 - 1) 1000] ++ [u64mul 5 1000] ∧
    (∃ v, (([FragOp.alloc wfrA] ++ [FragOp.alloc wfrC]).foldl fragStep
          initFragState).fragmentation
      = ([FragOp.alloc wfrA].foldl fragStep initFragState).fragmentation
        ++ [([FragOp.alloc wfrA].foldl fragStep
              initFragState).fragmentation.getLast?.getD 0]
        ++ [([FragOp.alloc wfrA].foldl fragStep
              initFragState).fragmentation.getLast?.getD 0]
        ++ [v]) := by
  refine ⟨by decide, ?_⟩
  have h := (C5_timeline_gap_points [FragOp.alloc wfrA] (FragOp.alloc wfrC) 5
    _ _ rfl rfl rfl (by decide) (by decide)).2.2.2 (by decide)
  exact ⟨h.1, h.2⟩

end ServerCore
